import Mathlib

/-!
# CHIP_OS: a shallow embedding of `src/src/utils.c` and `src/include/types.h`

The C structs of `types.h` become Lean structures.  Arrays are functions from
the index to the cell; every array access whose index is not a masked nibble
goes through a checked accessor, and an index outside the declared extent
makes the operation return `Except.error` with the `Undefined` value that
names the access: the C source performs such an access without any check, so
this outcome stands for undefined behaviour of the C program, not for an
error path of the source.  Machine integers are naturals, reduced modulo
`2^8` or `2^16` where the C type truncates.
-/

namespace ChipOS

/-! ## Data model (`types.h`) -/

/-- Privilege mode, `CPU_MODE` of `types.h`. -/
inductive CPU_MODE where
  | KERNEL_MODE
  | USER_MODE
  deriving DecidableEq, Repr

/-- An array access of the C source outside the declared extent of the array
(or a library call outside its contract): undefined behaviour in C. -/
inductive Undefined where
  /-- `memory[i]` with `i >= 5120`. -/
  | memory (i : Nat)
  /-- `stack[i]` with `i >= 16`. -/
  | stack (i : Nat)
  /-- `keys[i]` with `i >= 16`. -/
  | keys (i : Nat)
  /-- `display[i]` with `i >= 2048`. -/
  | display (i : Nat)
  /-- `files[i]` with `i >= 4`. -/
  | files (i : Nat)
  /-- `strcmp` on the null name of `files[i]`. -/
  | nullName (i : Nat)
  /-- `memcpy` reading `n > 512` bytes from `data[512]`. -/
  | dataRead (n : Nat)
  deriving DecidableEq, Repr

/-- The struct `CPU` of `types.h`: `uint8_t memory[5120]`, `uint8_t V[16]`,
`uint16_t I`, `uint16_t pc`, `uint16_t stack[16]`, `uint8_t sp`, `mode`. -/
structure CPU where
  memory : Nat → Nat
  V : Nat → Nat
  I : Nat
  pc : Nat
  stack : Nat → Nat
  sp : Nat
  mode : CPU_MODE

/-- The struct `DiskFile`: `char* name` (`none` is the null pointer),
`char data[512]`, `size_t size`, `bool loaded`. -/
structure DiskFile where
  name : Option String
  data : Nat → Nat
  size : Nat
  loaded : Bool

/-- The struct `VirtualDisk`: `DiskFile files[4]`, `int file_count`. -/
structure VirtualDisk where
  files : Nat → DiskFile
  file_count : Int

/-- The struct `IO` of `types.h`: the disk, `uint8_t display[2048]`, the two
8-bit timers and `bool keys[16]`. -/
structure IOState where
  disk : VirtualDisk
  display : Nat → Nat
  delay_timer : Nat
  sound_timer : Nat
  keys : Nat → Bool

/-- The struct `CHIP8_SYSTEM`: cpu, io and the running flag. -/
structure CHIP8_SYSTEM where
  cpu : CPU
  io : IOState
  running : Bool

/-! ## Array accessors -/

/-- Array store `a[i] = v`. -/
def store {α : Type} (a : Nat → α) (i : Nat) (v : α) : Nat → α :=
  fun j => if j = i then v else a j

/-- Read of `chip->memory[i]`; the array has 5120 cells. -/
def readMemory (chip : CPU) (i : Nat) : Except Undefined Nat :=
  if i < 5120 then .ok (chip.memory i) else .error (.memory i)

/-- Write `chip->memory[i] = v` of a `uint8_t` cell. -/
def writeMemory (chip : CPU) (i v : Nat) : Except Undefined CPU :=
  if i < 5120 then .ok { chip with memory := store chip.memory i (v % 256) }
  else .error (.memory i)

/-- Read of `chip->stack[i]`; the array has 16 cells. -/
def readStack (chip : CPU) (i : Nat) : Except Undefined Nat :=
  if i < 16 then .ok (chip.stack i) else .error (.stack i)

/-- Write `chip->stack[i] = v` of a `uint16_t` cell. -/
def writeStack (chip : CPU) (i v : Nat) : Except Undefined CPU :=
  if i < 16 then .ok { chip with stack := store chip.stack i (v % 65536) }
  else .error (.stack i)

/-- Read of `io->keys[i]`; the array has 16 cells. -/
def readKeys (io : IOState) (i : Nat) : Except Undefined Bool :=
  if i < 16 then .ok (io.keys i) else .error (.keys i)

/-- Read of `io->display[i]`; the array has 2048 cells. -/
def readDisplay (io : IOState) (i : Nat) : Except Undefined Nat :=
  if i < 2048 then .ok (io.display i) else .error (.display i)

/-- Write `io->display[i] = v` of a `uint8_t` cell. -/
def writeDisplay (io : IOState) (i v : Nat) : Except Undefined IOState :=
  if i < 2048 then .ok { io with display := store io.display i (v % 256) }
  else .error (.display i)

/-- Write `chip->V[i] = v` of a `uint8_t` register.  Every register index of
the source is a masked nibble, the constant `0xF`, the constant `0`, or a loop
counter bounded by a nibble, so the access is always inside `V[16]`. -/
def setV (chip : CPU) (i v : Nat) : CPU :=
  { chip with V := store chip.V i (v % 256) }

/-- The call `memset(io->display, 0, sizeof(io->display))`. -/
def clearDisplay (io : IOState) : IOState :=
  { io with display := fun i => if i < 2048 then 0 else io.display i }

/-! ## `chip8_init` and `chip8_tick_timers` -/

/-- The local table `chip8_fontset[80]` of `chip8_init`. -/
def chip8_fontset : List Nat :=
  [0xF0, 0x90, 0x90, 0x90, 0xF0,
   0x20, 0x60, 0x20, 0x20, 0x70,
   0xF0, 0x10, 0xF0, 0x80, 0xF0,
   0xF0, 0x10, 0xF0, 0x10, 0xF0,
   0x90, 0x90, 0xF0, 0x10, 0x10,
   0xF0, 0x80, 0xF0, 0x10, 0xF0,
   0xF0, 0x80, 0xF0, 0x90, 0xF0,
   0xF0, 0x10, 0x20, 0x40, 0x40,
   0xF0, 0x90, 0xF0, 0x90, 0xF0,
   0xF0, 0x90, 0xF0, 0x10, 0xF0,
   0xF0, 0x90, 0xF0, 0x90, 0x90,
   0xE0, 0x90, 0xE0, 0x90, 0xE0,
   0xF0, 0x80, 0x80, 0x80, 0xF0,
   0xE0, 0x90, 0x90, 0x90, 0xE0,
   0xF0, 0x80, 0xF0, 0x80, 0xF0,
   0xF0, 0x80, 0xF0, 0x80, 0x80]

/-- The twelve stores `cpu->memory[0x1000] = 0xF0; ...` of `chip8_init`, in
source order (the last two go to 0x1010 and 0x1011). -/
def bootstrapStores : List (Nat × Nat) :=
  [(0x1000, 0xF0), (0x1001, 0x0), (0x1002, 0xF0), (0x1003, 0x2),
   (0x1004, 0xF0), (0x1005, 0x4), (0x1006, 0xF0), (0x1007, 0x6),
   (0x1008, 0xF0), (0x1009, 0x7), (0x1010, 0xF0), (0x1011, 0x8)]

/-- The loop `for (int i = 0; i < 80; i++) memory[0x50 + i] = chip8_fontset[i]`;
`i` is the loop counter and the list holds `chip8_fontset[i..]`. -/
def loadFont (memory : Nat → Nat) (i : Nat) : List Nat → Nat → Nat
  | [] => memory
  | b :: rest => loadFont (store memory (0x50 + i) b) (i + 1) rest

/-- The function `chip8_init` (all its stores have constant in-range
indices). -/
def chip8_init (cpu : CPU) : CPU :=
  let cpu := { cpu with mode := CPU_MODE.KERNEL_MODE }
  let cpu := { cpu with pc := 0x1000 }
  let cpu := { cpu with
    memory := bootstrapStores.foldl (fun m (p : Nat × Nat) => store m p.1 p.2) cpu.memory }
  let cpu := { cpu with memory := loadFont cpu.memory 0 chip8_fontset }
  { cpu with mode := CPU_MODE.USER_MODE }

/-- The function `chip8_tick_timers`. -/
def chip8_tick_timers (io : IOState) : IOState :=
  let io := if io.delay_timer > 0 then
    { io with delay_timer := (io.delay_timer - 1) % 256 } else io
  if io.sound_timer > 0 then
    { io with sound_timer := (io.sound_timer - 1) % 256 } else io

/-! ## `chip8_load_rom` -/

/-- The call `memcpy(&memory[0x200], data, size)`: `size` bytes are read from
`data[512]` and written to `memory[0x200 ..]` of `memory[5120]`. -/
def memcpyRom (memory data : Nat → Nat) (size : Nat) : Except Undefined (Nat → Nat) :=
  if 0x200 + size > 5120 then .error (.memory 5120)
  else if size > 512 then .error (.dataRead size)
  else .ok (fun a => if 0x200 ≤ a ∧ a < 0x200 + size then data (a - 0x200) else memory a)

/-- The search loop of `chip8_load_rom`,
`for (int i = 0; i < disk->file_count; i++)`: `todo` is `file_count - i`, the
number of iterations left.  The result is the memory after the loop. -/
def loadRomLoop (disk : VirtualDisk) (filename : String) (memory : Nat → Nat) :
    Nat → Nat → Except Undefined (Nat → Nat)
  | 0, _ => .ok memory
  | todo + 1, i =>
    if i < 4 then
      match (disk.files i).name with
      | none => .error (.nullName i)
      | some name =>
        if name = filename then
          memcpyRom memory (disk.files i).data (disk.files i).size
        else loadRomLoop disk filename memory todo (i + 1)
    else .error (.files i)

/-- The function `chip8_load_rom`. -/
def chip8_load_rom (chip : CHIP8_SYSTEM) (filename : String) :
    Except Undefined CHIP8_SYSTEM := do
  let chip := { chip with cpu := { chip.cpu with pc := 0x200 } }
  let memory ← loadRomLoop chip.io.disk filename chip.cpu.memory
    chip.io.disk.file_count.toNat 0
  let chip := { chip with cpu := { chip.cpu with memory := memory } }
  pure { chip with running := true }

/-! ## `chip8_cycle` -/

/-- The inner loop of `Dxyn`, `for (uint8_t col = 0; col < 8; col++)`, for the
row `row` drawn on screen line `y`; `todo` is `8 - col`, the number of
iterations left. -/
def drawCols (x_start y row : Nat) :
    Nat → Nat → CPU → IOState → Except Undefined (CPU × IOState)
  | 0, _, chip, io => .ok (chip, io)
  | todo + 1, col, chip, io =>
    let x := (x_start + col) % 256
    if x ≥ 64 then .ok (chip, io)
    else do
      let sprite_byte ← readMemory chip (chip.I + row)
      let pixel_bit := (sprite_byte >>> (7 - col)) &&& 1
      let display_index := (y * 64 + x) % 65536
      let cell ← readDisplay io display_index
      let chip := if pixel_bit = 1 ∧ cell = 1 then setV chip 0xF 1 else chip
      let io ← writeDisplay io display_index (cell ^^^ pixel_bit)
      drawCols x_start y row todo (col + 1) chip io

/-- The outer loop of `Dxyn`, `for (uint8_t row = 0; row < n; row++)`; `todo`
is `n - row`, the number of iterations left. -/
def drawRows (x_start y_start : Nat) :
    Nat → Nat → CPU → IOState → Except Undefined (CPU × IOState)
  | 0, _, chip, io => .ok (chip, io)
  | todo + 1, row, chip, io =>
    let y := (y_start + row) % 256
    if y ≥ 32 then .ok (chip, io)
    else do
      let (chip, io) ← drawCols x_start y row 8 0 chip io
      drawRows x_start y_start todo (row + 1) chip io

/-- The body of `case 0xD` (draw sprite, `Dxyn`). -/
def execDraw (opcode register_num : Nat) (chip : CPU) (io : IOState) :
    Except Undefined (CPU × IOState) :=
  let n := (opcode &&& 0x0F) % 256
  let chip := setV chip 0xF 0
  let x_start := (chip.V register_num % 64) % 256
  let y_start := (chip.V ((opcode >>> 4) &&& 0xF) % 32) % 256
  drawRows x_start y_start n 0 chip io

/-- The body of `case 8` (register operations), a switch on
`opcode & 0x000F` with no default. -/
def execAlu (opcode register_num : Nat) (chip : CPU) : CPU :=
  let vy := (opcode >>> 4) &&& 0x0F
  match opcode &&& 0x000F with
  | 0x0 => setV chip register_num (chip.V vy)
  | 0x1 => setV chip register_num (chip.V register_num ||| chip.V vy)
  | 0x2 => setV chip register_num (chip.V register_num &&& chip.V vy)
  | 0x3 => setV chip register_num (chip.V register_num ^^^ chip.V vy)
  | 0x4 =>
    let add_VX_VY := (chip.V register_num + chip.V vy) % 65536
    let chip := setV chip register_num add_VX_VY
    if add_VX_VY > 0xFF then setV chip 0xF 1 else setV chip 0xF 0
  | 0x5 =>
    let sub_VX_VY := (chip.V register_num + 256 - chip.V vy) % 256
    let chip := if chip.V register_num ≥ chip.V vy then setV chip 0xF 1 else setV chip 0xF 0
    setV chip register_num sub_VX_VY
  | 0x6 =>
    let r_shifted_bit := (chip.V register_num &&& 1) % 256
    let chip := setV chip register_num (chip.V register_num >>> 1)
    setV chip 0xF r_shifted_bit
  | 0x7 =>
    let chip := if chip.V vy ≥ chip.V register_num then setV chip 0xF 1 else setV chip 0xF 0
    setV chip register_num (chip.V vy + 256 - chip.V register_num)
  | 0xE =>
    let l_shifted_bit := ((chip.V register_num >>> 7) &&& 1) % 256
    let chip := setV chip register_num (chip.V register_num <<< 1)
    setV chip 0xF l_shifted_bit
  | _ => chip

/-- The syscall switch of `case 0xF` (`kernel_opcode` true), on
`immediate_value` with no default. -/
def execSyscall (immediate_value : Nat) (chip : CPU) (io : IOState) : CPU × IOState :=
  match immediate_value with
  | 0 =>
    let chip := { chip with memory := fun i => if i < 5120 - 1024 then 0 else chip.memory i }
    let chip := { chip with V := fun i => if i < 16 then 0 else chip.V i }
    let chip := { chip with I := 0 }
    let chip := { chip with stack := fun i => if i < 16 then 0 else chip.stack i }
    let chip := { chip with sp := 0 }
    (chip, io)
  | 4 =>
    let io := clearDisplay io
    let io := { io with delay_timer := 0 }
    let io := { io with sound_timer := 0 }
    let io := { io with keys := fun i => if i < 16 then false else io.keys i }
    (chip, io)
  | _ => (chip, io)

/-- The key scan of `Fx0A`, `for (int i = 0; i < 16; i++)`; `todo` is
`16 - i`.  The result is the register file and the flag `key_pressed`. -/
def waitKeyLoop (register_num : Nat) (io : IOState) : Nat → Nat → CPU → CPU × Bool
  | 0, _, chip => (chip, false)
  | todo + 1, i, chip =>
    if io.keys i then (setV chip register_num i, true)
    else waitKeyLoop register_num io todo (i + 1) chip

/-- The loop of `Fx55`, `for (uint8_t reg = 0; reg <= register_num; reg++)`;
`todo` is `register_num + 1 - reg`. -/
def storeRegsLoop : Nat → Nat → CPU → Except Undefined CPU
  | 0, _, chip => .ok chip
  | todo + 1, reg, chip => do
    let chip ← writeMemory chip (chip.I + reg) (chip.V reg)
    storeRegsLoop todo ((reg + 1) % 256) chip

/-- The loop of `Fx65`, `for (uint8_t reg = 0; reg <= register_num; reg++)`;
`todo` is `register_num + 1 - reg`. -/
def loadRegsLoop : Nat → Nat → CPU → Except Undefined CPU
  | 0, _, chip => .ok chip
  | todo + 1, reg, chip => do
    let byte ← readMemory chip (chip.I + reg)
    loadRegsLoop todo ((reg + 1) % 256) (setV chip reg byte)

/-- The user-instruction switch of `case 0xF` (`kernel_opcode` false), on
`immediate_value` with no default. -/
def execUser (register_num immediate_value : Nat) (chip : CPU) (io : IOState) :
    Except Undefined (CPU × IOState) :=
  match immediate_value with
  | 7 => .ok (setV chip register_num io.delay_timer, io)
  | 0xA =>
    let (chip, key_pressed) := waitKeyLoop register_num io 16 0 chip
    if !key_pressed then .ok ({ chip with pc := (chip.pc + 65536 - 2) % 65536 }, io)
    else .ok (chip, io)
  | 15 => .ok (chip, { io with delay_timer := chip.V register_num % 256 })
  | 18 => .ok (chip, { io with sound_timer := chip.V register_num % 256 })
  | 0x1E => .ok ({ chip with I := (chip.I + chip.V register_num) % 65536 }, io)
  | 0x29 => .ok ({ chip with I := (0x50 + chip.V register_num * 5) % 65536 }, io)
  | 0x33 => do
    let value := chip.V register_num % 256
    let hundreds := (value / 100) % 256
    let tens := ((value / 10) % 10) % 256
    let ones := (value % 10) % 256
    let chip ← writeMemory chip chip.I hundreds
    let chip ← writeMemory chip (chip.I + 1) tens
    let chip ← writeMemory chip (chip.I + 2) ones
    pure (chip, io)
  | 0x55 => do
    let chip ← storeRegsLoop (register_num + 1) 0 chip
    pure (chip, io)
  | 0x65 => do
    let chip ← loadRegsLoop (register_num + 1) 0 chip
    pure (chip, io)
  | _ => .ok (chip, io)

/-- The body of `case 0xF`. -/
def execF (kernel_opcode : Bool) (register_num immediate_value : Nat)
    (chip : CPU) (io : IOState) : Except Undefined (CPU × IOState) :=
  if kernel_opcode then .ok (execSyscall immediate_value chip io)
  else execUser register_num immediate_value chip io

/-- The body of `case 0xE` up to the end of its inner switch on
`opcode & 0x00FF`; the source has no `break` after that switch. -/
def execKeys (opcode register_num : Nat) (chip : CPU) (io : IOState) :
    Except Undefined CPU :=
  match opcode &&& 0x00FF with
  | 0xA1 => do
    let key ← readKeys io (chip.V register_num)
    if key = false then pure { chip with pc := (chip.pc + 2) % 65536 } else pure chip
  | 0x9E => do
    let key ← readKeys io (chip.V register_num)
    if key = true then pure { chip with pc := (chip.pc + 2) % 65536 } else pure chip
  | _ => pure chip

/-- The body of `case 0`, a switch on the whole opcode with no default. -/
def execZero (opcode : Nat) (chip : CPU) (io : IOState) :
    Except Undefined (CPU × IOState) :=
  match opcode with
  | 0x00E0 => .ok (chip, clearDisplay io)
  | 0x00EE => do
    let chip := { chip with sp := (chip.sp + 256 - 1) % 256 }
    let ret ← readStack chip chip.sp
    pure ({ chip with pc := ret }, io)
  | _ => .ok (chip, io)

/-- The dispatch of `chip8_cycle`: everything after `chip->pc += 2`, for the
fetched `opcode`.  `rnd` is the value that `rand()` returns when `Cxnn` calls
it. -/
def execute (rnd opcode : Nat) (chip : CPU) (io : IOState) :
    Except Undefined (CPU × IOState) :=
  let kernel_opcode : Bool := (opcode &&& 0x0F00) == 0
  let masked_value := opcode &&& 0xF000
  let instruction_code := masked_value >>> 12
  let register_num := (((opcode <<< 4) &&& 0xF000) >>> 12) % 65536
  let immediate_value := opcode &&& 0x00FF
  match instruction_code with
  | 6 => .ok (setV chip register_num immediate_value, io)
  | 0 => execZero opcode chip io
  | 1 => .ok ({ chip with pc := opcode &&& 0x0FFF }, io)
  | 2 => do
    let chip ← writeStack chip chip.sp chip.pc
    let chip := { chip with sp := (chip.sp + 1) % 256 }
    pure ({ chip with pc := opcode &&& 0x0FFF }, io)
  | 3 =>
    if chip.V register_num = immediate_value then
      .ok ({ chip with pc := (chip.pc + 2) % 65536 }, io)
    else .ok (chip, io)
  | 4 =>
    if chip.V register_num ≠ immediate_value then
      .ok ({ chip with pc := (chip.pc + 2) % 65536 }, io)
    else .ok (chip, io)
  | 5 =>
    if chip.V register_num = chip.V ((opcode >>> 4) &&& 0x0F) then
      .ok ({ chip with pc := (chip.pc + 2) % 65536 }, io)
    else .ok (chip, io)
  | 7 => .ok (setV chip register_num (chip.V register_num + immediate_value), io)
  | 8 => .ok (execAlu opcode register_num chip, io)
  | 9 =>
    if chip.V register_num ≠ chip.V ((opcode >>> 4) &&& 0x0F) then
      .ok ({ chip with pc := (chip.pc + 2) % 65536 }, io)
    else .ok (chip, io)
  | 0xA => .ok ({ chip with I := opcode &&& 0x0FFF }, io)
  | 0xB => .ok ({ chip with pc := ((opcode &&& 0x0FFF) + chip.V 0) % 65536 }, io)
  | 0xC => .ok (setV chip register_num (rnd &&& immediate_value), io)
  | 0xD => execDraw opcode register_num chip io
  | 0xE => do
    let chip ← execKeys opcode register_num chip io
    execF kernel_opcode register_num immediate_value chip io
  | 0xF => execF kernel_opcode register_num immediate_value chip io
  | _ => .ok (chip, io)

/-- The opcode fetch of `chip8_cycle`,
`(memory[pc] << 8) | memory[pc + 1]` stored in a `uint16_t`. -/
def fetch (chip : CPU) : Except Undefined Nat := do
  let hi ← readMemory chip chip.pc
  let lo ← readMemory chip (chip.pc + 1)
  pure (((hi <<< 8) ||| lo) % 65536)

/-- The function `chip8_cycle`: fetch, `chip->pc += 2`, dispatch. -/
def chip8_cycle (rnd : Nat) (chip : CPU) (io : IOState) :
    Except Undefined (CPU × IOState) := do
  let opcode ← fetch chip
  let chip := { chip with pc := (chip.pc + 2) % 65536 }
  execute rnd opcode chip io

/-! ## Definitions used to state the properties -/

/-- The value `pixel_bit` of `Dxyn` for sprite row `row` and column `col`:
bit `7 - col` of `memory[I + row]`. -/
def spriteBit (chip : CPU) (row col : Nat) : Nat :=
  (chip.memory (chip.I + row) >>> (7 - col)) &&& 1

/-- The framebuffer cell `idx` lies under rows `row0 ..< n` of an 8-pixel-wide
sprite placed at `(x_start, y_start)`, inside the 64x32 grid. -/
def covered (x_start y_start row0 n idx : Nat) : Prop :=
  y_start + row0 ≤ idx / 64 ∧ idx / 64 < y_start + n ∧ idx / 64 < 32 ∧
    x_start ≤ idx % 64 ∧ idx % 64 < x_start + 8

instance (x_start y_start row0 n idx : Nat) : Decidable (covered x_start y_start row0 n idx) := by
  unfold covered; infer_instance

/-- The framebuffer after rows `row0 ..< n` of the sprite at `I` have been
XORed in at `(x_start, y_start)`. -/
def drawnDisplay (chip : CPU) (x_start y_start row0 n : Nat) (d : Nat → Nat) : Nat → Nat :=
  fun idx =>
    if covered x_start y_start row0 n idx then
      (d idx ^^^ spriteBit chip (idx / 64 - y_start) (idx % 64 - x_start)) % 256
    else d idx

/-- Some set sprite bit of rows `row0 ..< n` falls, inside the grid, on a cell
of `d` that holds `v`. -/
def spriteMeets (chip : CPU) (x_start y_start row0 n : Nat) (d : Nat → Nat) (v : Nat) : Prop :=
  ∃ r c, row0 ≤ r ∧ r < n ∧ y_start + r < 32 ∧ c < 8 ∧ x_start + c < 64 ∧
    spriteBit chip r c = 1 ∧ d ((y_start + r) * 64 + x_start + c) = v

instance (chip : CPU) (x_start y_start row0 n : Nat) (d : Nat → Nat) (v : Nat) :
    Decidable (spriteMeets chip x_start y_start row0 n d v) :=
  decidable_of_iff
    (∃ r, r < n ∧ ∃ c, c < 8 ∧ (row0 ≤ r ∧ y_start + r < 32 ∧ x_start + c < 64 ∧
      spriteBit chip r c = 1 ∧ d ((y_start + r) * 64 + x_start + c) = v))
    ⟨fun ⟨r, h2, c, h4, h1, h3, h5, h6, h7⟩ => ⟨r, c, h1, h2, h3, h4, h5, h6, h7⟩,
     fun ⟨r, c, h1, h2, h3, h4, h5, h6, h7⟩ => ⟨r, h2, c, h4, h1, h3, h5, h6, h7⟩⟩

/-- The value `x_start` of `Dxyn` with first register selector `x`: `V[x] % 64`,
read after `V[0xF] = 0`. -/
def drawX (chip : CPU) (x : Nat) : Nat := store chip.V 0xF 0 x % 64

/-- The value `y_start` of `Dxyn` with second register selector `y`:
`V[y] % 32`, read after `V[0xF] = 0`. -/
def drawY (chip : CPU) (y : Nat) : Nat := store chip.V 0xF 0 y % 32

/-- The opcode is a call `2nnn` or the return `00EE`. -/
def isCallOrReturn (op : Nat) : Bool :=
  op / 4096 % 16 == 2 || op == 0x00EE

/-- The opcodes whose dispatch writes `stack` or `sp`: the call `2nnn`, the
return `00EE`, and those that run the syscall 0 (`F000`, and `E000`, which
reaches the syscall switch because `case 0xE` has no `break`). -/
def touchesStack (op : Nat) : Bool :=
  isCallOrReturn op ||
    ((op / 4096 % 16 == 0xF || op / 4096 % 16 == 0xE) && op / 256 % 16 == 0 && op % 256 == 0)

/-- The result of `k` further cycles none of which fetches an opcode that
satisfies `avoid`; `rnd i` is the value of `rand()` in the cycle that has `i`
cycles after it.  The result is `none` when one of the cycles fetches such an
opcode or is undefined. -/
def runAvoiding (avoid : Nat → Bool) (rnd : Nat → Nat) :
    Nat → CPU → IOState → Option (CPU × IOState)
  | 0, chip, io => some (chip, io)
  | k + 1, chip, io =>
    match fetch chip with
    | .error _ => none
    | .ok op =>
      if avoid op then none
      else
        match chip8_cycle (rnd k) chip io with
        | .error _ => none
        | .ok (chip', io') => runAvoiding avoid rnd k chip' io'

/-- The call stack and the stack pointer of `chip'` are those of `chip`. -/
def sameStack (chip chip' : CPU) : Prop :=
  chip'.stack = chip.stack ∧ chip'.sp = chip.sp

/-- The result of `k` cycles in a row; `rnd i` is the value of `rand()` in the
cycle that has `i` cycles after it. -/
def runCycles (rnd : Nat → Nat) : Nat → CPU → IOState → Except Undefined (CPU × IOState)
  | 0, chip, io => .ok (chip, io)
  | k + 1, chip, io => do
    let (chip, io) ← chip8_cycle (rnd k) chip io
    runCycles rnd k chip io

/-- The CPU `chip'` has the mode of `chip`, and the memory byte of `chip` at
every address of `region`. -/
def keeps (region : Nat → Prop) (chip chip' : CPU) : Prop :=
  chip'.mode = chip.mode ∧ ∀ a, region a → chip'.memory a = chip.memory a

/-- The opcode reaches the store `Fx33` or `Fx55` of the user switch: family
`0xF`, or family `0xE` through the missing `break`, with `x` not 0. -/
def isStore (op : Nat) : Bool :=
  (op / 4096 % 16 == 0xF || op / 4096 % 16 == 0xE) && op / 256 % 16 != 0 &&
    (op % 256 == 0x33 || op % 256 == 0x55)

/-- The last offset from `I` that a store opcode writes: 2 for `Fx33`, `x` for
`Fx55`. -/
def storeExtent (op : Nat) : Nat :=
  if op % 256 = 0x33 then 2 else op / 256 % 16

/-- The program counter of `chip'` has the parity of that of `chip`. -/
def sameParity (chip chip' : CPU) : Prop := chip'.pc % 2 = chip.pc % 2

/-- The opcodes that assign `pc` a computed address: the jump `1nnn`, the call
`2nnn`, the jump with offset `Bnnn` and the return `00EE`. -/
def isTransfer (op : Nat) : Bool :=
  op / 4096 % 16 == 1 || op / 4096 % 16 == 2 || op / 4096 % 16 == 0xB || op == 0x00EE

/-- The boot loop of `main`,
`while (chip.cpu.pc >= 0x1000 && chip.cpu.pc <= 0x1FFF) chip8_cycle(...)`, cut
off after `fuel` iterations: the result is `some` state when the loop has
ended and `none` when it has not; `rnd i` is the value of `rand()` in the
iteration that has `i` iterations of fuel after it. -/
def bootLoop (rnd : Nat → Nat) :
    Nat → CPU → IOState → Except Undefined (Option (CPU × IOState))
  | 0, _, _ => .ok none
  | fuel + 1, chip, io =>
    if chip.pc ≥ 0x1000 ∧ chip.pc ≤ 0x1FFF then do
      let (chip, io) ← chip8_cycle (rnd fuel) chip io
      bootLoop rnd fuel chip io
    else .ok (some (chip, io))

/-- Every one of the 2048 framebuffer cells is 0 or 1. -/
def binaryDisplay (io : IOState) : Prop :=
  ∀ i, i < 2048 → io.display i = 0 ∨ io.display i = 1

/-! ## Concrete states -/

/-- The CPU after `memset(&chip, 0, sizeof(chip))` in `main`. -/
def zeroCPU : CPU :=
  { memory := fun _ => 0, V := fun _ => 0, I := 0, pc := 0, stack := fun _ => 0, sp := 0,
    mode := CPU_MODE.KERNEL_MODE }

/-- The disk entry after `memset(&chip, 0, sizeof(chip))` in `main`. -/
def zeroFile : DiskFile := { name := none, data := fun _ => 0, size := 0, loaded := false }

/-- The IO struct after `memset(&chip, 0, sizeof(chip))` in `main`. -/
def ioZero : IOState :=
  { disk := { files := fun _ => zeroFile, file_count := 0 }, display := fun _ => 0,
    delay_timer := 0, sound_timer := 0, keys := fun _ => false }

/-- The memory `memory` with the bytes `bytes` placed from address `base` on. -/
def withBytes (base : Nat) (bytes : List Nat) (memory : Nat → Nat) : Nat → Nat :=
  fun i => if base ≤ i ∧ i < base + bytes.length then bytes.getD (i - base) 0 else memory i

/-- A CPU with `pc = 0x200` and the program `bytes` at 0x200. -/
def cpuWith (bytes : List Nat) : CPU :=
  { zeroCPU with pc := 0x200, memory := withBytes 0x200 bytes zeroCPU.memory }

/-- The program `D0 01 D0 01` followed by the one-row sprite `0x80`, with `I`
pointing at the sprite. -/
def drawTwiceCPU : CPU := { cpuWith [0xD0, 0x01, 0xD0, 0x01, 0x80] with I := 0x204 }

/-- A framebuffer whose only set cell is the top-left one. -/
def ioCorner : IOState := { ioZero with display := fun i => if i = 0 then 1 else 0 }

/-- The program `2F FE` at 0x200 (call 0xFFE), `F0 00` at 0xFFE (syscall 0) and
`00 EE` at 0x1000 (return). -/
def resetBetweenCPU : CPU :=
  { zeroCPU with
    pc := 0x200,
    memory := withBytes 0x200 [0x2F, 0xFE] (withBytes 0xFFE [0xF0, 0x00, 0x00, 0xEE] zeroCPU.memory) }

/-- The program `22 06` at 0x200 (call 0x206), with `6A 02` at 0x206 and the
return `00 EE` at 0x208. -/
def callCPU : CPU := cpuWith [0x22, 0x06, 0x00, 0x00, 0x00, 0x00, 0x6A, 0x02, 0x00, 0xEE]

/-- A four-byte disk entry named as `chip8_load_disk` names `files[0]`. -/
def breakoutFile : DiskFile :=
  { name := some "Breakout", data := fun i => [0x6A, 0x02, 0x6B, 0x0C].getD i 0, size := 4,
    loaded := false }

/-- A ten-byte disk entry named as `chip8_load_disk` names `files[1]`. -/
def tetrisFile : DiskFile :=
  { name := some "Tetris",
    data := fun i => [0xA2, 0xB4, 0x23, 0xE6, 0x22, 0xB6, 0x70, 0x01, 0xD0, 0x11].getD i 0,
    size := 10, loaded := false }

/-- A disk with the two entries of `chip8_load_disk`. -/
def demoDisk : VirtualDisk :=
  { files := fun i => if i = 0 then breakoutFile else if i = 1 then tetrisFile else zeroFile,
    file_count := 2 }

/-- The zeroed system of `main` with `demoDisk` as its disk. -/
def demoSystem : CHIP8_SYSTEM :=
  { cpu := zeroCPU, io := { ioZero with disk := demoDisk }, running := false }

/-- A system whose only disk entry claims 4609 bytes, one more than the 4608
bytes from 0x200 to the end of memory. -/
def oversizeSystem : CHIP8_SYSTEM :=
  { cpu := zeroCPU,
    io := { ioZero with
      disk := { files := fun _ => { name := some "Big", data := fun _ => 0, size := 4609,
                                    loaded := false },
                file_count := 1 } },
    running := false }

/-- A CPU in `USER_MODE` with `pc = 0x200` and the program `bytes` at 0x200. -/
def userCPU (bytes : List Nat) : CPU := { cpuWith bytes with mode := CPU_MODE.USER_MODE }

/-- The program `A2 F0 F1 29` at 0x200: set `I = 0x2F0`, then look up the glyph
of `V[1]`. -/
def fontLookupCPU : CPU := cpuWith [0xA2, 0xF0, 0xF1, 0x29]

/-- A register file in which every register holds 7. -/
def sevens : Nat → Nat := fun _ => 7

/-- A register file with `V[0] = 3`, `V[15] = 5` and 0 elsewhere. -/
def threeFive : Nat → Nat := fun i => if i = 0 then 3 else if i = 15 then 5 else 0

/-- The CPU after the first boot cycle: `chip8_init` on the zeroed CPU, then
the syscall 0 of the opcode `F000` fetched at 0x1000. -/
def afterReset : CPU := (execSyscall 0 { chip8_init zeroCPU with pc := 0x1002 } ioZero).1

/-- The io state after the syscall 4 of the opcode `F004` on the zeroed io
state. -/
def ioReset : IOState := (execSyscall 4 afterReset ioZero).2

/-- The program `F1 33` in `USER_MODE` with `I = 0x1000`, the first address of
the kernel region, and 7 in every register. -/
def kernelStoreCPU : CPU := { userCPU [0xF1, 0x33] with I := 0x1000, V := sevens }

/-- A register file with `V[1] = 200`, `V[2] = 100`, `V[15] = 9` and 0
elsewhere. -/
def aluRegs : Nat → Nat :=
  fun i => if i = 1 then 200 else if i = 2 then 100 else if i = 15 then 9 else 0

/-- The program `D1 25` (draw 5 rows at `(V[1], V[2])`) followed by the glyph
of the digit 0, with `I` pointing at the glyph, `V[1] = 62` and `V[2] = 30`: the
sprite overhangs the right and bottom edges. -/
def clippedDrawCPU : CPU :=
  { cpuWith [0xD1, 0x25, 0xF0, 0x90, 0x90, 0x90, 0xF0] with
    I := 0x202,
    V := fun i => if i = 1 then 62 else if i = 2 then 30 else 0 }

/-- A keypad on which exactly the keys of `pressed` are down. -/
def ioKeys (pressed : List Nat) : IOState :=
  { ioZero with keys := fun i => decide (i ∈ pressed) }

/-- The program `E1 lo` at 0x200 with `V[1] = 4`. -/
def keySkipCPU (lo : Nat) : CPU :=
  { cpuWith [0xE1, lo] with V := fun i => if i = 1 then 4 else 0 }

/-- The program `F3 0A` at 0x200: wait for a key into `V[3]`. -/
def keyWaitCPU : CPU := cpuWith [0xF3, 0x0A]

/-- A register file holding `10 + i` in register `i`. -/
def countRegs : Nat → Nat := fun i => if i < 16 then 10 + i else 0

/-- The program `F2 55` at 0x200 with `I = 0x300` and registers `countRegs`. -/
def storeCPU : CPU := { cpuWith [0xF2, 0x55] with I := 0x300, V := countRegs }

/-- The program `F2 55 60 00 61 00 F2 65` at 0x200 with `I = 0x300` and
registers `countRegs`: store `V0..V2`, clear `V0` and `V1`, load `V0..V2`. -/
def roundTripCPU : CPU :=
  { cpuWith [0xF2, 0x55, 0x60, 0x00, 0x61, 0x00, 0xF2, 0x65] with I := 0x300, V := countRegs }

/-- The program `AFFF 61FF F11E F11E F11E F11E F11E F133` at 0x200: set
`I = 0xFFF` and `V[1] = 255`, add `V[1]` to `I` five times, then store the
digits of `V[1]` at `I`. -/
def pastMemoryCPU : CPU :=
  cpuWith [0xAF, 0xFF, 0x61, 0xFF, 0xF1, 0x1E, 0xF1, 0x1E, 0xF1, 0x1E, 0xF1, 0x1E, 0xF1, 0x1E,
    0xF1, 0x33]

/-- A CPU and io state in which every field holds a nonzero value, with the
program `bytes` at 0x200. -/
def busyCPU (bytes : List Nat) : CPU :=
  { memory := withBytes 0x200 bytes (fun a => a % 251 + 1), V := countRegs, I := 0x300,
    pc := 0x200, stack := fun i => 0x200 + 2 * i, sp := 3, mode := CPU_MODE.USER_MODE }

/-- An io state in which every field holds a nonzero value. -/
def ioBusy : IOState :=
  { disk := demoDisk, display := fun i => i % 2, delay_timer := 9, sound_timer := 5,
    keys := fun i => decide (i % 3 = 0) }

/-- The program `AFFF 61FF`, thirteen times `F11E`, then `F133`, at 0x200: set
`I = 0xFFF` and `V[1] = 255`, add `V[1]` to `I` thirteen times, then store the
digits of `V[1]` at `I`. -/
def framebufferStoreCPU : CPU :=
  cpuWith [0xAF, 0xFF, 0x61, 0xFF, 0xF1, 0x1E, 0xF1, 0x1E, 0xF1, 0x1E, 0xF1, 0x1E, 0xF1, 0x1E,
    0xF1, 0x1E, 0xF1, 0x1E, 0xF1, 0x1E, 0xF1, 0x1E, 0xF1, 0x1E, 0xF1, 0x1E, 0xF1, 0x1E,
    0xF1, 0x1E, 0xF1, 0x33]

/-! ## Decoding: the masks and shifts of `chip8_cycle` as arithmetic -/

theorem and_shiftLeft_mask (x m k : Nat) :
    x &&& (m <<< k) = ((x >>> k) &&& m) <<< k := by
  apply Nat.eq_of_testBit_eq
  intro j
  simp only [Nat.testBit_and, Nat.testBit_shiftLeft, Nat.testBit_shiftRight]
  by_cases h : k ≤ j
  · simp [h, Nat.add_sub_cancel' h]
  · simp [h]

theorem and_mask_div (x k w : Nat) :
    x &&& ((2 ^ w - 1) <<< k) = ((x / 2 ^ k) % 2 ^ w) * 2 ^ k := by
  rw [and_shiftLeft_mask, Nat.and_pow_two_sub_one_eq_mod, Nat.shiftRight_eq_div_pow,
    Nat.shiftLeft_eq]

/-- The field `instruction_code`. -/
theorem decode_instruction_code (op : Nat) : (op &&& 0xF000) >>> 12 = (op / 4096) % 16 := by
  have h : op &&& 0xF000 = ((op / 2 ^ 12) % 2 ^ 4) * 2 ^ 12 := and_mask_div op 12 4
  rw [h, Nat.shiftRight_eq_div_pow]; omega

/-- The field `register_num`. -/
theorem decode_register_num (op : Nat) :
    (((op <<< 4) &&& 0xF000) >>> 12) % 65536 = (op / 256) % 16 := by
  have h : (op <<< 4) &&& 0xF000 = (((op <<< 4) / 2 ^ 12) % 2 ^ 4) * 2 ^ 12 :=
    and_mask_div _ 12 4
  rw [h, Nat.shiftRight_eq_div_pow, Nat.shiftLeft_eq]; omega

/-- The field `immediate_value`. -/
theorem decode_immediate_value (op : Nat) : op &&& 0x00FF = op % 256 :=
  Nat.and_pow_two_sub_one_eq_mod op 8

/-- The flag `kernel_opcode`. -/
theorem decode_kernel_opcode (op : Nat) :
    ((op &&& 0x0F00) == 0) = decide ((op / 256) % 16 = 0) := by
  have h : op &&& 0x0F00 = ((op / 2 ^ 8) % 2 ^ 4) * 2 ^ 8 := and_mask_div op 8 4
  rw [h]
  by_cases h : (op / 256) % 16 = 0 <;> simp [h]

/-- The address field `opcode & 0x0FFF`. -/
theorem decode_nnn (op : Nat) : op &&& 0x0FFF = op % 4096 :=
  Nat.and_pow_two_sub_one_eq_mod op 12

/-- The second register selector `opcode >> 4 & 0x0F`. -/
theorem decode_vy (op : Nat) : (op >>> 4) &&& 0x0F = (op / 16) % 16 := by
  have h : (op >>> 4) &&& 0x0F = (op >>> 4) % 2 ^ 4 :=
    Nat.and_pow_two_sub_one_eq_mod (op >>> 4) 4
  rw [h, Nat.shiftRight_eq_div_pow]; norm_num

/-- The low nibble `opcode & 0x000F`. -/
theorem decode_low_nibble (op : Nat) : op &&& 0x0F = op % 16 :=
  Nat.and_pow_two_sub_one_eq_mod op 4

/-- The fetched word, high byte first. -/
theorem fetch_word (hi lo : Nat) (hhi : hi < 256) (hlo : lo < 256) :
    ((hi <<< 8) ||| lo) % 65536 = hi * 256 + lo := by
  have h := Nat.mul_add_lt_is_or (i := 8) (b := lo) (by simpa using hlo) hi
  rw [Nat.shiftLeft_eq, Nat.mul_comm hi, ← h]
  norm_num
  omega

/-- The fetch succeeds when `pc` and `pc + 1` are inside memory, and yields
the two bytes there, high byte first. -/
theorem fetch_eq (chip : CPU) (hi lo : Nat) (hpc : chip.pc + 1 < 5120)
    (hhi : chip.memory chip.pc = hi) (hlo : chip.memory (chip.pc + 1) = lo)
    (bhi : hi < 256) (blo : lo < 256) :
    fetch chip = .ok (hi * 256 + lo) := by
  have h0 : chip.pc < 5120 := by omega
  simp [fetch, readMemory, hpc, h0, hhi, hlo, bind, Except.bind, pure, Except.pure,
    fetch_word hi lo bhi blo]

/-- One cycle is the dispatch of the fetched word on the state whose `pc` has
advanced by 2. -/
theorem chip8_cycle_eq (rnd : Nat) (chip : CPU) (io : IOState) (hi lo : Nat)
    (hpc : chip.pc + 1 < 5120)
    (hhi : chip.memory chip.pc = hi) (hlo : chip.memory (chip.pc + 1) = lo)
    (bhi : hi < 256) (blo : lo < 256) :
    chip8_cycle rnd chip io
      = execute rnd (hi * 256 + lo) { chip with pc := chip.pc + 2 } io := by
  have h2 : (chip.pc + 2) % 65536 = chip.pc + 2 := by omega
  simp [chip8_cycle, fetch_eq chip hi lo hpc hhi hlo bhi blo, bind, Except.bind, h2]

/-- The dispatch with every decoded field written as arithmetic on the
opcode. -/
theorem execute_unfold (rnd op : Nat) (chip : CPU) (io : IOState) :
    execute rnd op chip io =
      match (op / 4096) % 16 with
      | 6 => .ok (setV chip (op / 256 % 16) (op % 256), io)
      | 0 => execZero op chip io
      | 1 => .ok ({ chip with pc := op % 4096 }, io)
      | 2 => do
        let chip ← writeStack chip chip.sp chip.pc
        let chip := { chip with sp := (chip.sp + 1) % 256 }
        pure ({ chip with pc := op % 4096 }, io)
      | 3 =>
        if chip.V (op / 256 % 16) = op % 256 then
          .ok ({ chip with pc := (chip.pc + 2) % 65536 }, io)
        else .ok (chip, io)
      | 4 =>
        if chip.V (op / 256 % 16) ≠ op % 256 then
          .ok ({ chip with pc := (chip.pc + 2) % 65536 }, io)
        else .ok (chip, io)
      | 5 =>
        if chip.V (op / 256 % 16) = chip.V (op / 16 % 16) then
          .ok ({ chip with pc := (chip.pc + 2) % 65536 }, io)
        else .ok (chip, io)
      | 7 => .ok (setV chip (op / 256 % 16) (chip.V (op / 256 % 16) + op % 256), io)
      | 8 => .ok (execAlu op (op / 256 % 16) chip, io)
      | 9 =>
        if chip.V (op / 256 % 16) ≠ chip.V (op / 16 % 16) then
          .ok ({ chip with pc := (chip.pc + 2) % 65536 }, io)
        else .ok (chip, io)
      | 0xA => .ok ({ chip with I := op % 4096 }, io)
      | 0xB => .ok ({ chip with pc := (op % 4096 + chip.V 0) % 65536 }, io)
      | 0xC => .ok (setV chip (op / 256 % 16) (rnd &&& (op % 256)), io)
      | 0xD => execDraw op (op / 256 % 16) chip io
      | 0xE => do
        let chip ← execKeys op (op / 256 % 16) chip io
        execF (decide (op / 256 % 16 = 0)) (op / 256 % 16) (op % 256) chip io
      | 0xF => execF (decide (op / 256 % 16 = 0)) (op / 256 % 16) (op % 256) chip io
      | _ => .ok (chip, io) := by
  unfold execute
  simp only [decode_register_num]
  simp only [decode_instruction_code, decode_immediate_value,
    decode_kernel_opcode, decode_nnn, decode_vy]

/-! ## The sprite loops of `Dxyn` -/

theorem store_store {α : Type} (a : Nat → α) (i : Nat) (v w : α) :
    store (store a i v) i w = store a i w := by
  funext j; simp only [store]; split <;> rfl

open Classical in
/-- The inner loop from column `col` on: the cells of screen line `y` under the
remaining columns are XORed with the sprite bits, and `V[0xF]` is set to 1 when
one of those bits meets a cell holding 1. -/
theorem drawCols_spec (x_start y row : Nat) (hy : y < 32) (hx : x_start < 64) :
    ∀ (todo col : Nat) (chip : CPU) (io : IOState), col + todo = 8 →
      chip.I + row < 5120 →
      drawCols x_start y row todo col chip io = .ok
        ({ chip with V :=
            if (∃ c, col ≤ c ∧ c < 8 ∧ x_start + c < 64 ∧ spriteBit chip row c = 1 ∧
                io.display (y * 64 + x_start + c) = 1)
            then store chip.V 0xF 1 else chip.V },
         { io with display := fun idx =>
            if y * 64 + x_start + col ≤ idx ∧ idx < y * 64 + x_start + 8 ∧ idx < y * 64 + 64
            then (io.display idx ^^^ spriteBit chip row (idx - (y * 64 + x_start))) % 256
            else io.display idx }) := by
  intro todo
  induction todo with
  | zero =>
    intro col chip io hcol _
    have h1 : ¬ ∃ c, col ≤ c ∧ c < 8 ∧ x_start + c < 64 ∧ spriteBit chip row c = 1 ∧
        io.display (y * 64 + x_start + c) = 1 := by
      rintro ⟨c, h1, h2, _⟩; omega
    have h2 : ∀ idx, ¬ (y * 64 + x_start + col ≤ idx ∧ idx < y * 64 + x_start + 8 ∧
        idx < y * 64 + 64) := by
      intro idx; omega
    simp only [drawCols, if_neg h1, h2, if_false]
  | succ todo ih =>
    intro col chip io hcol hI
    have hxc : (x_start + col) % 256 = x_start + col := by omega
    by_cases hclip : x_start + col ≥ 64
    · have h1 : ¬ ∃ c, col ≤ c ∧ c < 8 ∧ x_start + c < 64 ∧ spriteBit chip row c = 1 ∧
          io.display (y * 64 + x_start + c) = 1 := by
        rintro ⟨c, h1, h2, h3, _⟩; omega
      have h2 : ∀ idx, ¬ (y * 64 + x_start + col ≤ idx ∧ idx < y * 64 + x_start + 8 ∧
          idx < y * 64 + 64) := by
        intro idx; omega
      simp only [drawCols, hxc, if_pos hclip, if_neg h1, h2, if_false]
    · have hidx : (y * 64 + (x_start + col)) % 65536 = y * 64 + x_start + col := by omega
      have hlt : y * 64 + x_start + col < 2048 := by omega
      simp only [drawCols, hxc, if_neg hclip, readMemory, if_pos hI, hidx, readDisplay,
        if_pos hlt, writeDisplay, bind, Except.bind]
      rw [ih (col + 1) _ _ (by omega) (by split <;> simpa [setV] using hI)]
      have hsb : ∀ (p : Prop) [Decidable p] (c : Nat),
          spriteBit (if p then setV chip 15 1 else chip) row c = spriteBit chip row c := by
        intro p _ c; split <;> rfl
      have hhit : (∃ c, col + 1 ≤ c ∧ c < 8 ∧ x_start + c < 64 ∧ spriteBit chip row c = 1 ∧
            store io.display (y * 64 + x_start + col)
              ((io.display (y * 64 + x_start + col) ^^^ spriteBit chip row col) % 256)
              (y * 64 + x_start + c) = 1) ↔
          (∃ c, col + 1 ≤ c ∧ c < 8 ∧ x_start + c < 64 ∧ spriteBit chip row c = 1 ∧
            io.display (y * 64 + x_start + c) = 1) := by
        constructor
        · rintro ⟨c, h1, h2, h3, h4, h5⟩
          refine ⟨c, h1, h2, h3, h4, ?_⟩
          rwa [store, if_neg (by omega)] at h5
        · rintro ⟨c, h1, h2, h3, h4, h5⟩
          refine ⟨c, h1, h2, h3, h4, ?_⟩
          rwa [store, if_neg (by omega)]
      have hall : (∃ c, col ≤ c ∧ c < 8 ∧ x_start + c < 64 ∧ spriteBit chip row c = 1 ∧
            io.display (y * 64 + x_start + c) = 1) ↔
          ((spriteBit chip row col = 1 ∧ io.display (y * 64 + x_start + col) = 1) ∨
            (∃ c, col + 1 ≤ c ∧ c < 8 ∧ x_start + c < 64 ∧ spriteBit chip row c = 1 ∧
              io.display (y * 64 + x_start + c) = 1)) := by
        constructor
        · rintro ⟨c, h1, h2, h3, h4, h5⟩
          by_cases hc : c = col
          · subst hc; exact Or.inl ⟨h4, h5⟩
          · exact Or.inr ⟨c, by omega, h2, h3, h4, h5⟩
        · rintro (⟨h4, h5⟩ | ⟨c, h1, h2, h3, h4, h5⟩)
          · exact ⟨col, le_refl _, by omega, by omega, h4, h5⟩
          · exact ⟨c, by omega, h2, h3, h4, h5⟩
      have hbit : chip.memory (chip.I + row) >>> (7 - col) &&& 1 = spriteBit chip row col := rfl
      simp only [hbit, hsb, hhit, hall]
      refine congrArg Except.ok (Prod.ext ?_ ?_)
      · by_cases hb : spriteBit chip row col = 1 ∧ io.display (y * 64 + x_start + col) = 1
        · by_cases hr : ∃ c, col + 1 ≤ c ∧ c < 8 ∧ x_start + c < 64 ∧
              spriteBit chip row c = 1 ∧ io.display (y * 64 + x_start + c) = 1
          · simp [hb, hr, setV, store_store]
          · simp [hb, hr, setV]
        · by_cases hr : ∃ c, col + 1 ≤ c ∧ c < 8 ∧ x_start + c < 64 ∧
              spriteBit chip row c = 1 ∧ io.display (y * 64 + x_start + c) = 1
          · simp [hb, hr]
          · simp [hb, hr]
      · simp only [IOState.mk.injEq, true_and, and_true]
        funext idx
        by_cases h0 : idx = y * 64 + x_start + col
        · subst h0
          rw [if_neg (by omega), if_pos (by omega)]
          simp [store]
        · by_cases h1 : y * 64 + x_start + (col + 1) ≤ idx ∧ idx < y * 64 + x_start + 8 ∧
              idx < y * 64 + 64
          · rw [if_pos h1, if_pos (by omega)]
            simp [store, h0]
          · rw [if_neg h1, if_neg (by omega)]
            simp [store, h0]

theorem spriteBit_congr (chip chip' : CPU) (hm : chip'.memory = chip.memory)
    (hI : chip'.I = chip.I) (r c : Nat) : spriteBit chip' r c = spriteBit chip r c := by
  simp only [spriteBit, hm, hI]

/-- The outer loop from row `row` on: the framebuffer becomes `drawnDisplay`,
and `V[0xF]` is set to 1 when a set sprite bit meets a cell holding 1. -/
theorem drawRows_spec (x_start y_start n : Nat) (hx : x_start < 64) (hy : y_start < 32)
    (hn : n < 16) :
    ∀ (todo row : Nat) (chip : CPU) (io : IOState), row + todo = n →
      (∀ r, row ≤ r → r < n → y_start + r < 32 → chip.I + r < 5120) →
      drawRows x_start y_start todo row chip io = .ok
        ({ chip with V :=
            if spriteMeets chip x_start y_start row n io.display 1
            then store chip.V 0xF 1 else chip.V },
         { io with display := drawnDisplay chip x_start y_start row n io.display }) := by
  intro todo
  induction todo with
  | zero =>
    intro row chip io hrow _
    have h1 : ¬ spriteMeets chip x_start y_start row n io.display 1 := by
      rintro ⟨r, c, h1, h2, _⟩; omega
    have h2 : drawnDisplay chip x_start y_start row n io.display = io.display := by
      funext idx
      simp only [drawnDisplay, covered]
      rw [if_neg (by omega)]
    simp only [drawRows, if_neg h1, h2]
  | succ todo ih =>
    intro row chip io hrow hI
    have hyr : (y_start + row) % 256 = y_start + row := by omega
    by_cases hclip : y_start + row ≥ 32
    · have h1 : ¬ spriteMeets chip x_start y_start row n io.display 1 := by
        rintro ⟨r, c, h1, h2, h3, _⟩; omega
      have h2 : drawnDisplay chip x_start y_start row n io.display = io.display := by
        funext idx
        simp only [drawnDisplay, covered]
        rw [if_neg (by omega)]
      simp only [drawRows, hyr, if_pos hclip, if_neg h1, h2]
    · have hIrow : chip.I + row < 5120 := hI row (le_refl _) (by omega) (by omega)
      simp only [drawRows, hyr, if_neg hclip, bind, Except.bind,
        drawCols_spec x_start (y_start + row) row (by omega) hx 8 0 chip io rfl hIrow]
      rw [ih (row + 1) _ _ (by omega)]
      swap
      · exact fun r h1 h2 h3 => hI r (by omega) h2 h3
      have hsb : ∀ (V : Nat → Nat) (r c : Nat),
          spriteBit { chip with V := V } r c = spriteBit chip r c := fun _ _ _ => rfl
      have hrowcell : ∀ r c, row + 1 ≤ r → c < 8 → x_start + c < 64 →
          ¬ ((y_start + row) * 64 + x_start + 0 ≤ (y_start + r) * 64 + x_start + c ∧
            (y_start + r) * 64 + x_start + c < (y_start + row) * 64 + x_start + 8 ∧
            (y_start + r) * 64 + x_start + c < (y_start + row) * 64 + 64) := by
        intro r c h1 h2 h3; omega
      have hmeet : spriteMeets chip x_start y_start row n io.display 1 ↔
          ((∃ c, 0 ≤ c ∧ c < 8 ∧ x_start + c < 64 ∧ spriteBit chip row c = 1 ∧
              io.display ((y_start + row) * 64 + x_start + c) = 1) ∨
            spriteMeets chip x_start y_start (row + 1) n io.display 1) := by
        constructor
        · rintro ⟨r, c, h1, h2, h3, h4, h5, h6, h7⟩
          by_cases hr : r = row
          · subst hr; exact Or.inl ⟨c, Nat.zero_le _, h4, h5, h6, h7⟩
          · exact Or.inr ⟨r, c, by omega, h2, h3, h4, h5, h6, h7⟩
        · rintro (⟨c, _, h4, h5, h6, h7⟩ | ⟨r, c, h1, h2, h3, h4, h5, h6, h7⟩)
          · exact ⟨row, c, le_refl _, by omega, by omega, h4, h5, h6, h7⟩
          · exact ⟨r, c, by omega, h2, h3, h4, h5, h6, h7⟩
      have hmeet1 : ∀ V : Nat → Nat,
          spriteMeets { chip with V := V } x_start y_start (row + 1) n
            (fun idx =>
              if (y_start + row) * 64 + x_start + 0 ≤ idx ∧
                  idx < (y_start + row) * 64 + x_start + 8 ∧ idx < (y_start + row) * 64 + 64
              then (io.display idx ^^^ spriteBit chip row (idx - ((y_start + row) * 64 + x_start))) % 256
              else io.display idx) 1 ↔
          spriteMeets chip x_start y_start (row + 1) n io.display 1 := by
        intro V
        constructor
        · rintro ⟨r, c, h1, h2, h3, h4, h5, h6, h7⟩
          refine ⟨r, c, h1, h2, h3, h4, h5, h6, ?_⟩
          simpa only [if_neg (hrowcell r c h1 h4 h5)] using h7
        · rintro ⟨r, c, h1, h2, h3, h4, h5, h6, h7⟩
          refine ⟨r, c, h1, h2, h3, h4, h5, h6, ?_⟩
          simpa only [if_neg (hrowcell r c h1 h4 h5)] using h7
      refine congrArg Except.ok (Prod.ext ?_ ?_)
      · by_cases hb : ∃ c, 0 ≤ c ∧ c < 8 ∧ x_start + c < 64 ∧ spriteBit chip row c = 1 ∧
            io.display ((y_start + row) * 64 + x_start + c) = 1
        · by_cases hr : spriteMeets chip x_start y_start (row + 1) n io.display 1
          · rw [if_pos ((hmeet1 _).2 hr), if_pos hb, if_pos (hmeet.2 (Or.inl hb)), store_store]
          · rw [if_neg (fun h => hr ((hmeet1 _).1 h)), if_pos hb, if_pos (hmeet.2 (Or.inl hb))]
        · by_cases hr : spriteMeets chip x_start y_start (row + 1) n io.display 1
          · rw [if_pos ((hmeet1 _).2 hr), if_neg hb, if_pos (hmeet.2 (Or.inr hr))]
          · rw [if_neg (fun h => hr ((hmeet1 _).1 h)), if_neg hb,
              if_neg (fun h => (hmeet.1 h).elim hb hr)]
      · simp only [IOState.mk.injEq, true_and, and_true]
        funext idx
        simp only [drawnDisplay, covered, hsb]
        by_cases h0 : idx / 64 = y_start + row
        · rw [if_neg (by omega)]
          by_cases h1 : x_start ≤ idx % 64 ∧ idx % 64 < x_start + 8
          · rw [if_pos (by omega), if_pos (by omega)]
            have e1 : idx - ((y_start + row) * 64 + x_start) = idx % 64 - x_start := by omega
            have e2 : idx / 64 - y_start = row := by omega
            rw [e1, e2]
          · rw [if_neg (by omega), if_neg (by omega)]
        · by_cases h1 : y_start + (row + 1) ≤ idx / 64 ∧ idx / 64 < y_start + n ∧ idx / 64 < 32 ∧
              x_start ≤ idx % 64 ∧ idx % 64 < x_start + 8
          · rw [if_pos h1, if_neg (by omega), if_pos (by omega)]
          · rw [if_neg h1, if_neg (by omega), if_neg (by omega)]

/-- The whole of `case 0xD` for an opcode with register selectors `x`, `y` and
height `n`, when the `n` sprite rows that are drawn lie inside memory. -/
theorem execDraw_spec (op x : Nat) (chip : CPU) (io : IOState)
    (hin : ∀ r, r < op % 16 → drawY chip (op / 16 % 16) + r < 32 → chip.I + r < 5120) :
    execDraw op x chip io = .ok
      ({ chip with V :=
          if spriteMeets chip (drawX chip x) (drawY chip (op / 16 % 16)) 0 (op % 16) io.display 1
          then store chip.V 0xF 1 else store chip.V 0xF 0 },
       { io with display :=
          drawnDisplay chip (drawX chip x) (drawY chip (op / 16 % 16)) 0 (op % 16) io.display }) := by
  have hX : drawX chip x < 64 := Nat.mod_lt _ (by norm_num)
  have hY : drawY chip (op / 16 % 16) < 32 := Nat.mod_lt _ (by norm_num)
  have hn : (op &&& 0x0F) % 256 = op % 16 := by
    rw [decode_low_nibble]; omega
  have hvy : (op >>> 4) &&& 0xF = op / 16 % 16 := decode_vy op
  have hxs : ((setV chip 0xF 0).V x % 64) % 256 = drawX chip x := by
    have : (setV chip 0xF 0).V x % 64 = drawX chip x := rfl
    omega
  have hys : ((setV chip 0xF 0).V (op / 16 % 16) % 32) % 256 = drawY chip (op / 16 % 16) := by
    have : (setV chip 0xF 0).V (op / 16 % 16) % 32 = drawY chip (op / 16 % 16) := rfl
    omega
  unfold execDraw
  simp only [hn, hvy, hxs, hys]
  rw [drawRows_spec (drawX chip x) (drawY chip (op / 16 % 16)) (op % 16) hX hY (by omega)
    (op % 16) 0 (setV chip 0xF 0) io (by omega) (fun r _ h2 h3 => hin r h2 h3)]
  have hsm : spriteMeets (setV chip 0xF 0) (drawX chip x) (drawY chip (op / 16 % 16)) 0
      (op % 16) io.display 1 ↔
      spriteMeets chip (drawX chip x) (drawY chip (op / 16 % 16)) 0 (op % 16) io.display 1 :=
    Iff.rfl
  have hdd : drawnDisplay (setV chip 0xF 0) (drawX chip x) (drawY chip (op / 16 % 16)) 0
      (op % 16) io.display =
      drawnDisplay chip (drawX chip x) (drawY chip (op / 16 % 16)) 0 (op % 16) io.display := rfl
  rw [hdd]
  refine congrArg Except.ok (Prod.ext ?_ rfl)
  simp only [hsm, setV, store_store]
  rfl

/-- One cycle on `Dxyn` fetched at `pc`. -/
theorem chip8_cycle_draw (rnd x y n : Nat) (chip : CPU) (io : IOState)
    (hx : x < 16) (hy : y < 16) (hn : n < 16) (hpc : chip.pc + 1 < 5120)
    (hhi : chip.memory chip.pc = 0xD0 + x) (hlo : chip.memory (chip.pc + 1) = y * 16 + n) :
    chip8_cycle rnd chip io
      = execDraw ((0xD0 + x) * 256 + (y * 16 + n)) x { chip with pc := chip.pc + 2 } io := by
  rw [chip8_cycle_eq rnd chip io (0xD0 + x) (y * 16 + n) hpc hhi hlo (by omega) (by omega),
    execute_unfold]
  have h1 : ((0xD0 + x) * 256 + (y * 16 + n)) / 4096 % 16 = 0xD := by omega
  have h2 : ((0xD0 + x) * 256 + (y * 16 + n)) / 256 % 16 = x := by omega
  rw [h1, h2]

/-- One cycle on `Dxyn` fetched at `pc`, when the sprite rows that are drawn
lie inside memory: `pc` advances by 2, the framebuffer becomes `drawnDisplay`
and `V[0xF]` is the collision flag. -/
theorem chip8_cycle_draw_spec (rnd x y n : Nat) (chip : CPU) (io : IOState)
    (hx : x < 16) (hy : y < 16) (hn : n < 16) (hpc : chip.pc + 1 < 5120)
    (hhi : chip.memory chip.pc = 0xD0 + x) (hlo : chip.memory (chip.pc + 1) = y * 16 + n)
    (hin : ∀ r, r < n → drawY chip y + r < 32 → chip.I + r < 5120) :
    chip8_cycle rnd chip io = .ok
      ({ chip with
          pc := chip.pc + 2,
          V := if spriteMeets chip (drawX chip x) (drawY chip y) 0 n io.display 1
            then store chip.V 0xF 1 else store chip.V 0xF 0 },
       { io with display := drawnDisplay chip (drawX chip x) (drawY chip y) 0 n io.display }) := by
  have e1 : ((0xD0 + x) * 256 + (y * 16 + n)) / 16 % 16 = y := by omega
  have e2 : ((0xD0 + x) * 256 + (y * 16 + n)) % 16 = n := by omega
  rw [chip8_cycle_draw rnd x y n chip io hx hy hn hpc hhi hlo, execDraw_spec]
  · simp only [e1, e2]
    rfl
  · intro r h1 h2
    rw [e2] at h1
    rw [e1] at h2
    exact hin r h1 h2

theorem spriteBit_le_one (chip : CPU) (r c : Nat) : spriteBit chip r c ≤ 1 :=
  Nat.and_le_right

theorem xor_bit_cancel (v b : Nat) (hv : v < 256) (hb : b ≤ 1) :
    ((v ^^^ b) % 256 ^^^ b) % 256 = v := by
  have h1 : v ^^^ b < 2 ^ 8 := Nat.xor_lt_two_pow (by simpa using hv) (by omega)
  have h2 : (v ^^^ b) % 256 = v ^^^ b := Nat.mod_eq_of_lt (by simpa using h1)
  rw [h2, Nat.xor_assoc, Nat.xor_self, Nat.xor_zero]
  exact Nat.mod_eq_of_lt hv

theorem xor_one_eq_one (v : Nat) (hv : v < 256) : (v ^^^ 1) % 256 = 1 ↔ v = 0 := by
  have h1 : v ^^^ 1 < 2 ^ 8 := Nat.xor_lt_two_pow (by simpa using hv) (by norm_num)
  have h2 : (v ^^^ 1) % 256 = v ^^^ 1 := Nat.mod_eq_of_lt (by simpa using h1)
  rw [h2]
  constructor
  · intro h
    have h3 : (v ^^^ 1) ^^^ 1 = v := by rw [Nat.xor_assoc, Nat.xor_self, Nat.xor_zero]
    rw [h] at h3
    exact h3.symm
  · intro h; subst h; rfl

/-- Drawing a sprite a second time over the result of the first draw gives
back every cell that holds a byte. -/
theorem drawnDisplay_twice (chip : CPU) (x_start y_start n : Nat) (d : Nat → Nat)
    (idx : Nat) (hd : d idx < 256) :
    drawnDisplay chip x_start y_start 0 n (drawnDisplay chip x_start y_start 0 n d) idx
      = d idx := by
  simp only [drawnDisplay]
  split
  · exact xor_bit_cancel _ _ hd (spriteBit_le_one _ _ _)
  · rfl

/-- A set sprite bit meets a cell holding 1 after the first draw exactly when
it meets a cell that held 0 before it. -/
theorem spriteMeets_after_draw (chip : CPU) (x_start y_start n : Nat) (d : Nat → Nat)
    (hd : ∀ i, i < 2048 → d i < 256) :
    spriteMeets chip x_start y_start 0 n (drawnDisplay chip x_start y_start 0 n d) 1 ↔
      spriteMeets chip x_start y_start 0 n d 0 := by
  have key : ∀ r c, r < n → y_start + r < 32 → c < 8 → x_start + c < 64 →
      spriteBit chip r c = 1 →
      (drawnDisplay chip x_start y_start 0 n d ((y_start + r) * 64 + x_start + c) = 1 ↔
        d ((y_start + r) * 64 + x_start + c) = 0) := by
    intro r c h2 h3 h4 h5 h6
    have e1 : ((y_start + r) * 64 + x_start + c) / 64 = y_start + r := by omega
    have e2 : ((y_start + r) * 64 + x_start + c) % 64 = x_start + c := by omega
    have hc : covered x_start y_start 0 n ((y_start + r) * 64 + x_start + c) := by
      simp only [covered, e1, e2]; omega
    simp only [drawnDisplay, if_pos hc, e1, e2, Nat.add_sub_cancel_left, h6]
    exact xor_one_eq_one _ (hd _ (by omega))
  constructor
  · rintro ⟨r, c, h1, h2, h3, h4, h5, h6, h7⟩
    exact ⟨r, c, h1, h2, h3, h4, h5, h6, (key r c h2 h3 h4 h5 h6).1 h7⟩
  · rintro ⟨r, c, h1, h2, h3, h4, h5, h6, h7⟩
    exact ⟨r, c, h1, h2, h3, h4, h5, h6, (key r c h2 h3 h4 h5 h6).2 h7⟩

/-- Two cycles in a row on the same `Dxyn`, stored at `pc` and at `pc + 2`:
the second draw uses the same coordinates and sprite bytes as the first. -/
theorem chip8_cycle_draw_twice (rnd1 rnd2 x y n : Nat) (chip : CPU) (io : IOState)
    (hx : x < 16) (hy : y < 16) (hn : n < 16) (hpc : chip.pc + 3 < 5120)
    (h0 : chip.memory chip.pc = 0xD0 + x) (h1 : chip.memory (chip.pc + 1) = y * 16 + n)
    (h2 : chip.memory (chip.pc + 2) = 0xD0 + x)
    (h3 : chip.memory (chip.pc + 3) = y * 16 + n)
    (hin : ∀ r, r < n → chip.I + r < 5120) :
    ∃ chip1 io1, chip8_cycle rnd1 chip io = .ok (chip1, io1) ∧
      chip8_cycle rnd2 chip1 io1 = .ok
        ({ chip with
            pc := chip.pc + 4,
            V := if spriteMeets chip (drawX chip x) (drawY chip y) 0 n
                  (drawnDisplay chip (drawX chip x) (drawY chip y) 0 n io.display) 1
              then store chip.V 0xF 1 else store chip.V 0xF 0 },
         { io with
            display := drawnDisplay chip (drawX chip x) (drawY chip y) 0 n
              (drawnDisplay chip (drawX chip x) (drawY chip y) 0 n io.display) }) := by
  refine ⟨_, _, chip8_cycle_draw_spec rnd1 x y n chip io hx hy hn (by omega) h0 h1
    (fun r hr _ => hin r hr), ?_⟩
  have hV0 : ∀ (p : Prop) [Decidable p],
      store (if p then store chip.V 0xF 1 else store chip.V 0xF 0) 0xF 0 = store chip.V 0xF 0 := by
    intro p _; split <;> exact store_store _ _ _ _
  have hV1 : ∀ (p : Prop) [Decidable p],
      store (if p then store chip.V 0xF 1 else store chip.V 0xF 0) 0xF 1 = store chip.V 0xF 1 := by
    intro p _; split <;> exact store_store _ _ _ _
  have hX : ∀ (p : Prop) [Decidable p] (z : Nat),
      drawX { chip with
        pc := chip.pc + 2,
        V := if p then store chip.V 0xF 1 else store chip.V 0xF 0 } z = drawX chip z := by
    intro p _ z; simp only [drawX, hV0]
  have hY : ∀ (p : Prop) [Decidable p] (z : Nat),
      drawY { chip with
        pc := chip.pc + 2,
        V := if p then store chip.V 0xF 1 else store chip.V 0xF 0 } z = drawY chip z := by
    intro p _ z; simp only [drawY, hV0]
  have hM : ∀ (W : Nat → Nat) (a b : Nat) (d : Nat → Nat),
      spriteMeets { chip with pc := chip.pc + 2, V := W } a b 0 n d 1
        ↔ spriteMeets chip a b 0 n d 1 := fun _ _ _ _ => Iff.rfl
  have hD : ∀ (W : Nat → Nat) (a b : Nat) (d : Nat → Nat),
      drawnDisplay { chip with pc := chip.pc + 2, V := W } a b 0 n d
        = drawnDisplay chip a b 0 n d := fun _ _ _ _ => rfl
  rw [chip8_cycle_draw_spec rnd2 x y n _ _ hx hy hn]
  · simp only [hX, hY, hM, hD, hV1, hV0]
  · show chip.pc + 2 + 1 < 5120
    omega
  · exact h2
  · exact h3
  · exact fun r hr _ => hin r hr

/-! ## The search loop of `chip8_load_rom` -/

/-- The loop stops at the first entry named `filename` and copies it. -/
theorem loadRomLoop_found (disk : VirtualDisk) (filename : String) (memory : Nat → Nat)
    (k : Nat) (hk4 : k < 4) (hname : (disk.files k).name = some filename)
    (hfirst : ∀ j, j < k → ∃ nm, (disk.files j).name = some nm ∧ nm ≠ filename) :
    ∀ (todo i : Nat), i ≤ k → k < i + todo →
      loadRomLoop disk filename memory todo i
        = memcpyRom memory (disk.files k).data (disk.files k).size := by
  intro todo
  induction todo with
  | zero => intro i h1 h2; omega
  | succ todo ih =>
    intro i h1 h2
    have hi4 : i < 4 := by omega
    by_cases hik : i = k
    · subst hik
      simp only [loadRomLoop, if_pos hi4, hname, if_true]
    · obtain ⟨nm, hnm, hne⟩ := hfirst i (by omega)
      simp only [loadRomLoop, if_pos hi4, hnm, if_neg hne]
      exact ih (i + 1) (by omega) (by omega)

/-- The loop runs to its end and copies nothing when no examined entry is
named `filename`. -/
theorem loadRomLoop_absent (disk : VirtualDisk) (filename : String) (memory : Nat → Nat) :
    ∀ (todo i : Nat), i + todo ≤ 4 →
      (∀ j, i ≤ j → j < i + todo → (disk.files j).name ≠ none) →
      (∀ j, i ≤ j → j < i + todo → (disk.files j).name ≠ some filename) →
      loadRomLoop disk filename memory todo i = .ok memory := by
  intro todo
  induction todo with
  | zero => intro i _ _ _; rfl
  | succ todo ih =>
    intro i h4 hnn hne
    have hi4 : i < 4 := by omega
    have h1 := hnn i (le_refl _) (by omega)
    have h2 := hne i (le_refl _) (by omega)
    cases hnm : (disk.files i).name with
    | none => exact absurd hnm h1
    | some nm =>
      have hne' : nm ≠ filename := fun h => h2 (by rw [hnm, h])
      simp only [loadRomLoop, if_pos hi4, hnm, if_neg hne']
      exact ih (i + 1) (by omega) (fun j a b => hnn j (by omega) (by omega))
        (fun j a b => hne j (by omega) (by omega))

/-- The result of `chip8_load_rom` when the entry `k` is the first one named
`filename`: `pc` and `running` are set, and the entry is copied by `memcpy`. -/
theorem chip8_load_rom_found (chip : CHIP8_SYSTEM) (filename : String) (k : Nat)
    (hk : (k : Int) < chip.io.disk.file_count) (hk4 : k < 4)
    (hname : (chip.io.disk.files k).name = some filename)
    (hfirst : ∀ j, j < k → ∃ nm, (chip.io.disk.files j).name = some nm ∧ nm ≠ filename) :
    chip8_load_rom chip filename =
      (memcpyRom chip.cpu.memory (chip.io.disk.files k).data (chip.io.disk.files k).size).map
        (fun memory =>
          { chip with cpu := { chip.cpu with pc := 0x200, memory := memory }, running := true }) := by
  have h := loadRomLoop_found chip.io.disk filename chip.cpu.memory k hk4 hname hfirst
    chip.io.disk.file_count.toNat 0 (Nat.zero_le _) (by omega)
  simp only [chip8_load_rom, h, bind, Except.bind, pure, Except.pure, Except.map]

/-- The result of `chip8_load_rom` when none of the first `file_count` entries
is named `filename`: only `pc` and `running` are written. -/
theorem chip8_load_rom_absent (chip : CHIP8_SYSTEM) (filename : String)
    (hcount : chip.io.disk.file_count ≤ 4)
    (hnames : ∀ j : Nat, (j : Int) < chip.io.disk.file_count →
      (chip.io.disk.files j).name ≠ none)
    (habsent : ∀ j : Nat, (j : Int) < chip.io.disk.file_count →
      (chip.io.disk.files j).name ≠ some filename) :
    chip8_load_rom chip filename
      = .ok { chip with cpu := { chip.cpu with pc := 0x200 }, running := true } := by
  have h := loadRomLoop_absent chip.io.disk filename chip.cpu.memory
    chip.io.disk.file_count.toNat 0 (by omega) (fun j _ hj => hnames j (by omega))
    (fun j _ hj => habsent j (by omega))
  simp only [chip8_load_rom, h, bind, Except.bind, pure, Except.pure]

/-! ## Instructions that leave the call stack alone -/

theorem bind_eq_ok {α β : Type} (x : Except Undefined α) (f : α → Except Undefined β) (b : β)
    (h : (x >>= f) = .ok b) : ∃ a, x = .ok a ∧ f a = .ok b := by
  cases x with
  | error e => simp [bind, Except.bind] at h
  | ok a => exact ⟨a, rfl, h⟩

theorem sameStack_refl (chip : CPU) : sameStack chip chip := ⟨rfl, rfl⟩

theorem sameStack_trans {a b c : CPU} (h1 : sameStack a b) (h2 : sameStack b c) :
    sameStack a c := ⟨h2.1.trans h1.1, h2.2.trans h1.2⟩

theorem sameStack_setV (chip : CPU) (i v : Nat) : sameStack chip (setV chip i v) := ⟨rfl, rfl⟩

theorem writeMemory_sameStack (chip chip' : CPU) (i v : Nat)
    (h : writeMemory chip i v = .ok chip') : sameStack chip chip' := by
  unfold writeMemory at h
  split at h
  · cases h; exact ⟨rfl, rfl⟩
  · cases h

theorem drawCols_sameStack (x_start y row : Nat) :
    ∀ (todo col : Nat) (chip : CPU) (io : IOState) (chip' : CPU) (io' : IOState),
      drawCols x_start y row todo col chip io = .ok (chip', io') → sameStack chip chip' := by
  intro todo
  induction todo with
  | zero =>
    intro col chip io chip' io' h
    simp only [drawCols, Except.ok.injEq, Prod.mk.injEq] at h
    rw [← h.1]; exact sameStack_refl _
  | succ todo ih =>
    intro col chip io chip' io' h
    simp only [drawCols] at h
    split at h
    · simp only [Except.ok.injEq, Prod.mk.injEq] at h
      rw [← h.1]; exact sameStack_refl _
    · obtain ⟨b, _, h⟩ := bind_eq_ok _ _ _ h
      obtain ⟨cell, _, h⟩ := bind_eq_ok _ _ _ h
      obtain ⟨io1, _, h⟩ := bind_eq_ok _ _ _ h
      refine sameStack_trans ?_ (ih _ _ _ _ _ h)
      split
      · exact sameStack_setV _ _ _
      · exact sameStack_refl _

theorem drawRows_sameStack (x_start y_start : Nat) :
    ∀ (todo row : Nat) (chip : CPU) (io : IOState) (chip' : CPU) (io' : IOState),
      drawRows x_start y_start todo row chip io = .ok (chip', io') → sameStack chip chip' := by
  intro todo
  induction todo with
  | zero =>
    intro row chip io chip' io' h
    simp only [drawRows, Except.ok.injEq, Prod.mk.injEq] at h
    rw [← h.1]; exact sameStack_refl _
  | succ todo ih =>
    intro row chip io chip' io' h
    simp only [drawRows] at h
    split at h
    · simp only [Except.ok.injEq, Prod.mk.injEq] at h
      rw [← h.1]; exact sameStack_refl _
    · obtain ⟨⟨chip1, io1⟩, h1, h⟩ := bind_eq_ok _ _ _ h
      exact sameStack_trans (drawCols_sameStack _ _ _ _ _ _ _ _ _ h1) (ih _ _ _ _ _ h)

theorem execDraw_sameStack (op x : Nat) (chip : CPU) (io : IOState) (chip' : CPU)
    (io' : IOState) (h : execDraw op x chip io = .ok (chip', io')) : sameStack chip chip' :=
  sameStack_trans (sameStack_setV chip 0xF 0) (drawRows_sameStack _ _ _ _ _ _ _ _ h)

theorem execAlu_sameStack (op x : Nat) (chip : CPU) : sameStack chip (execAlu op x chip) := by
  unfold execAlu
  split <;> (try dsimp only) <;> (try split) <;> exact ⟨rfl, rfl⟩

theorem execZero_sameStack (op : Nat) (chip : CPU) (io : IOState) (chip' : CPU)
    (io' : IOState) (hop : op ≠ 0x00EE) (h : execZero op chip io = .ok (chip', io')) :
    sameStack chip chip' := by
  unfold execZero at h
  split at h
  · simp only [Except.ok.injEq, Prod.mk.injEq] at h
    rw [← h.1]; exact sameStack_refl _
  · exact absurd rfl hop
  · simp only [Except.ok.injEq, Prod.mk.injEq] at h
    rw [← h.1]; exact sameStack_refl _

theorem execKeys_sameStack (op x : Nat) (chip : CPU) (io : IOState) (chip' : CPU)
    (h : execKeys op x chip io = .ok chip') : sameStack chip chip' := by
  unfold execKeys at h
  split at h
  · obtain ⟨key, _, h⟩ := bind_eq_ok _ _ _ h
    split at h <;> cases h <;> exact ⟨rfl, rfl⟩
  · obtain ⟨key, _, h⟩ := bind_eq_ok _ _ _ h
    split at h <;> cases h <;> exact ⟨rfl, rfl⟩
  · cases h; exact ⟨rfl, rfl⟩

theorem execSyscall_sameStack (nn : Nat) (chip : CPU) (io : IOState) (hnn : nn ≠ 0) :
    sameStack chip (execSyscall nn chip io).1 := by
  unfold execSyscall
  split
  · exact absurd rfl hnn
  · exact ⟨rfl, rfl⟩
  · exact ⟨rfl, rfl⟩

theorem waitKeyLoop_sameStack (x : Nat) (io : IOState) :
    ∀ (todo i : Nat) (chip : CPU), sameStack chip (waitKeyLoop x io todo i chip).1 := by
  intro todo
  induction todo with
  | zero => intro i chip; exact ⟨rfl, rfl⟩
  | succ todo ih =>
    intro i chip
    simp only [waitKeyLoop]
    split
    · exact ⟨rfl, rfl⟩
    · exact ih _ _

theorem storeRegsLoop_sameStack :
    ∀ (todo reg : Nat) (chip chip' : CPU),
      storeRegsLoop todo reg chip = .ok chip' → sameStack chip chip' := by
  intro todo
  induction todo with
  | zero => intro reg chip chip' h; cases h; exact ⟨rfl, rfl⟩
  | succ todo ih =>
    intro reg chip chip' h
    simp only [storeRegsLoop] at h
    obtain ⟨chip1, h1, h⟩ := bind_eq_ok _ _ _ h
    exact sameStack_trans (writeMemory_sameStack _ _ _ _ h1) (ih _ _ _ h)

theorem loadRegsLoop_sameStack :
    ∀ (todo reg : Nat) (chip chip' : CPU),
      loadRegsLoop todo reg chip = .ok chip' → sameStack chip chip' := by
  intro todo
  induction todo with
  | zero => intro reg chip chip' h; cases h; exact ⟨rfl, rfl⟩
  | succ todo ih =>
    intro reg chip chip' h
    simp only [loadRegsLoop] at h
    obtain ⟨byte, _, h⟩ := bind_eq_ok _ _ _ h
    exact sameStack_trans (sameStack_setV chip reg byte) (ih _ _ _ h)

theorem execUser_sameStack (x nn : Nat) (chip : CPU) (io : IOState) (chip' : CPU)
    (io' : IOState) (h : execUser x nn chip io = .ok (chip', io')) : sameStack chip chip' := by
  unfold execUser at h
  split at h
  · cases h; exact ⟨rfl, rfl⟩
  · have hw := waitKeyLoop_sameStack x io 16 0 chip
    generalize waitKeyLoop x io 16 0 chip = r at h hw
    obtain ⟨c, b⟩ := r
    simp only at h hw
    split at h <;> cases h <;> exact ⟨hw.1, hw.2⟩
  · cases h; exact ⟨rfl, rfl⟩
  · cases h; exact ⟨rfl, rfl⟩
  · cases h; exact ⟨rfl, rfl⟩
  · cases h; exact ⟨rfl, rfl⟩
  · obtain ⟨c1, h1, h⟩ := bind_eq_ok _ _ _ h
    obtain ⟨c2, h2, h⟩ := bind_eq_ok _ _ _ h
    obtain ⟨c3, h3, h⟩ := bind_eq_ok _ _ _ h
    cases h
    exact sameStack_trans (writeMemory_sameStack _ _ _ _ h1)
      (sameStack_trans (writeMemory_sameStack _ _ _ _ h2) (writeMemory_sameStack _ _ _ _ h3))
  · obtain ⟨c1, h1, h⟩ := bind_eq_ok _ _ _ h
    cases h
    exact storeRegsLoop_sameStack _ _ _ _ h1
  · obtain ⟨c1, h1, h⟩ := bind_eq_ok _ _ _ h
    cases h
    exact loadRegsLoop_sameStack _ _ _ _ h1
  · cases h; exact ⟨rfl, rfl⟩

theorem execF_sameStack (kernel : Bool) (x nn : Nat) (chip : CPU) (io : IOState)
    (chip' : CPU) (io' : IOState) (hk : kernel = true → nn ≠ 0)
    (h : execF kernel x nn chip io = .ok (chip', io')) : sameStack chip chip' := by
  unfold execF at h
  split at h
  · rename_i hkern
    injection h with h
    have hs := execSyscall_sameStack nn chip io (hk hkern)
    rw [h] at hs
    exact hs
  · exact execUser_sameStack _ _ _ _ _ _ h

/-- The dispatch of an opcode other than a call, a return or one running the
syscall 0 leaves `stack` and `sp` as they were. -/
theorem execute_sameStack (rnd op : Nat) (chip : CPU) (io : IOState) (chip' : CPU)
    (io' : IOState) (hop : touchesStack op = false)
    (h : execute rnd op chip io = .ok (chip', io')) : sameStack chip chip' := by
  simp only [touchesStack, isCallOrReturn, Bool.or_eq_false_iff, Bool.and_eq_false_iff,
    beq_eq_false_iff_ne, ne_eq] at hop
  obtain ⟨⟨hcall, hret⟩, hreset⟩ := hop
  have hk : op / 4096 % 16 = 0xF ∨ op / 4096 % 16 = 0xE →
      decide (op / 256 % 16 = 0) = true → op % 256 ≠ 0 := by
    intro hfam hx
    have hx0 : op / 256 % 16 = 0 := of_decide_eq_true hx
    rcases hreset with (⟨h1, h2⟩ | h3) | h4
    · rcases hfam with hf | hf
      · exact absurd hf h1
      · exact absurd hf h2
    · exact absurd hx0 h3
    · exact h4
  rw [execute_unfold] at h
  split at h
  · cases h; exact ⟨rfl, rfl⟩
  · exact execZero_sameStack _ _ _ _ _ hret h
  · cases h; exact ⟨rfl, rfl⟩
  · rename_i hfam; exact absurd hfam hcall
  · split at h <;> cases h <;> exact ⟨rfl, rfl⟩
  · split at h <;> cases h <;> exact ⟨rfl, rfl⟩
  · split at h <;> cases h <;> exact ⟨rfl, rfl⟩
  · cases h; exact ⟨rfl, rfl⟩
  · cases h; exact execAlu_sameStack _ _ _
  · split at h <;> cases h <;> exact ⟨rfl, rfl⟩
  · cases h; exact ⟨rfl, rfl⟩
  · cases h; exact ⟨rfl, rfl⟩
  · cases h; exact ⟨rfl, rfl⟩
  · exact execDraw_sameStack _ _ _ _ _ _ h
  · rename_i hfam
    obtain ⟨chip1, h1, h⟩ := bind_eq_ok _ _ _ h
    exact sameStack_trans (execKeys_sameStack _ _ _ _ _ h1)
      (execF_sameStack _ _ _ _ _ _ _ (hk (Or.inr hfam)) h)
  · rename_i hfam
    exact execF_sameStack _ _ _ _ _ _ _ (hk (Or.inl hfam)) h
  · cases h; exact ⟨rfl, rfl⟩

/-- One cycle that fetches an opcode other than a call, a return or one running
the syscall 0 leaves `stack` and `sp` as they were. -/
theorem chip8_cycle_sameStack (rnd op : Nat) (chip : CPU) (io : IOState) (chip' : CPU)
    (io' : IOState) (hf : fetch chip = .ok op) (hop : touchesStack op = false)
    (h : chip8_cycle rnd chip io = .ok (chip', io')) : sameStack chip chip' := by
  simp only [chip8_cycle, hf, bind, Except.bind] at h
  have hs := execute_sameStack _ _ _ _ _ _ hop h
  exact ⟨hs.1, hs.2⟩

/-- A run of cycles none of which is a call, a return or the syscall 0 leaves
`stack` and `sp` as they were. -/
theorem runAvoiding_sameStack (rnd : Nat → Nat) :
    ∀ (k : Nat) (chip : CPU) (io : IOState) (chip' : CPU) (io' : IOState),
      runAvoiding touchesStack rnd k chip io = some (chip', io') → sameStack chip chip' := by
  intro k
  induction k with
  | zero =>
    intro chip io chip' io' h
    simp only [runAvoiding, Option.some.injEq, Prod.mk.injEq] at h
    rw [← h.1]; exact sameStack_refl _
  | succ k ih =>
    intro chip io chip' io' h
    simp only [runAvoiding] at h
    split at h
    · cases h
    · rename_i op hf
      split at h
      · cases h
      · rename_i hop
        split at h
        · cases h
        · rename_i chip1 io1 hc
          exact sameStack_trans
            (chip8_cycle_sameStack _ _ _ _ _ _ hf (by simpa using hop) hc) (ih _ _ _ _ h)

/-! ## Instructions that leave the mode and memory alone -/

theorem keeps_refl (region : Nat → Prop) (chip : CPU) : keeps region chip chip :=
  ⟨rfl, fun _ _ => rfl⟩

theorem keeps_trans {region : Nat → Prop} {a b c : CPU} (h1 : keeps region a b)
    (h2 : keeps region b c) : keeps region a c :=
  ⟨h2.1.trans h1.1, fun x hx => (h2.2 x hx).trans (h1.2 x hx)⟩

theorem keeps_mono {r1 r2 : Nat → Prop} {a b : CPU} (h : keeps r1 a b)
    (hr : ∀ x, r2 x → r1 x) : keeps r2 a b :=
  ⟨h.1, fun x hx => h.2 x (hr x hx)⟩

theorem keeps_setV (region : Nat → Prop) (chip : CPU) (i v : Nat) :
    keeps region chip (setV chip i v) := ⟨rfl, fun _ _ => rfl⟩

theorem writeMemory_keeps (chip chip' : CPU) (i v : Nat)
    (h : writeMemory chip i v = .ok chip') :
    chip'.I = chip.I ∧ keeps (fun a => a ≠ i) chip chip' := by
  unfold writeMemory at h
  split at h
  · cases h
    exact ⟨rfl, rfl, fun a ha => if_neg ha⟩
  · cases h

theorem drawCols_keeps (x_start y row : Nat) :
    ∀ (todo col : Nat) (chip : CPU) (io : IOState) (chip' : CPU) (io' : IOState),
      drawCols x_start y row todo col chip io = .ok (chip', io') →
      keeps (fun _ => True) chip chip' := by
  intro todo
  induction todo with
  | zero =>
    intro col chip io chip' io' h
    simp only [drawCols, Except.ok.injEq, Prod.mk.injEq] at h
    rw [← h.1]; exact keeps_refl _ _
  | succ todo ih =>
    intro col chip io chip' io' h
    simp only [drawCols] at h
    split at h
    · simp only [Except.ok.injEq, Prod.mk.injEq] at h
      rw [← h.1]; exact keeps_refl _ _
    · obtain ⟨b, _, h⟩ := bind_eq_ok _ _ _ h
      obtain ⟨cell, _, h⟩ := bind_eq_ok _ _ _ h
      obtain ⟨io1, _, h⟩ := bind_eq_ok _ _ _ h
      refine keeps_trans ?_ (ih _ _ _ _ _ h)
      split
      · exact keeps_setV _ _ _ _
      · exact keeps_refl _ _

theorem drawRows_keeps (x_start y_start : Nat) :
    ∀ (todo row : Nat) (chip : CPU) (io : IOState) (chip' : CPU) (io' : IOState),
      drawRows x_start y_start todo row chip io = .ok (chip', io') →
      keeps (fun _ => True) chip chip' := by
  intro todo
  induction todo with
  | zero =>
    intro row chip io chip' io' h
    simp only [drawRows, Except.ok.injEq, Prod.mk.injEq] at h
    rw [← h.1]; exact keeps_refl _ _
  | succ todo ih =>
    intro row chip io chip' io' h
    simp only [drawRows] at h
    split at h
    · simp only [Except.ok.injEq, Prod.mk.injEq] at h
      rw [← h.1]; exact keeps_refl _ _
    · obtain ⟨⟨chip1, io1⟩, h1, h⟩ := bind_eq_ok _ _ _ h
      exact keeps_trans (drawCols_keeps _ _ _ _ _ _ _ _ _ h1) (ih _ _ _ _ _ h)

theorem execDraw_keeps (op x : Nat) (chip : CPU) (io : IOState) (chip' : CPU)
    (io' : IOState) (h : execDraw op x chip io = .ok (chip', io')) :
    keeps (fun _ => True) chip chip' :=
  keeps_trans (keeps_setV _ chip 0xF 0) (drawRows_keeps _ _ _ _ _ _ _ _ h)

theorem execAlu_keeps (op x : Nat) (chip : CPU) :
    keeps (fun _ => True) chip (execAlu op x chip) := by
  unfold execAlu
  split <;> (try dsimp only) <;> (try split) <;> exact ⟨rfl, fun _ _ => rfl⟩

theorem execZero_keeps (op : Nat) (chip : CPU) (io : IOState) (chip' : CPU)
    (io' : IOState) (h : execZero op chip io = .ok (chip', io')) :
    keeps (fun _ => True) chip chip' := by
  unfold execZero at h
  split at h
  · cases h; exact keeps_refl _ _
  · obtain ⟨ret, _, h⟩ := bind_eq_ok _ _ _ h
    cases h; exact ⟨rfl, fun _ _ => rfl⟩
  · cases h; exact keeps_refl _ _

theorem execKeys_keeps (op x : Nat) (chip : CPU) (io : IOState) (chip' : CPU)
    (h : execKeys op x chip io = .ok chip') : chip'.I = chip.I ∧ keeps (fun _ => True) chip chip' := by
  unfold execKeys at h
  split at h
  · obtain ⟨key, _, h⟩ := bind_eq_ok _ _ _ h
    split at h <;> cases h <;> exact ⟨rfl, rfl, fun _ _ => rfl⟩
  · obtain ⟨key, _, h⟩ := bind_eq_ok _ _ _ h
    split at h <;> cases h <;> exact ⟨rfl, rfl, fun _ _ => rfl⟩
  · cases h; exact ⟨rfl, rfl, fun _ _ => rfl⟩

theorem execSyscall_keeps (nn : Nat) (chip : CPU) (io : IOState) :
    keeps (fun a => 0x1000 ≤ a) chip (execSyscall nn chip io).1 := by
  unfold execSyscall
  split
  · refine ⟨rfl, fun a ha => ?_⟩
    exact if_neg (by omega)
  · exact ⟨rfl, fun _ _ => rfl⟩
  · exact ⟨rfl, fun _ _ => rfl⟩

theorem waitKeyLoop_keeps (x : Nat) (io : IOState) :
    ∀ (todo i : Nat) (chip : CPU),
      keeps (fun _ => True) chip (waitKeyLoop x io todo i chip).1 := by
  intro todo
  induction todo with
  | zero => intro i chip; exact keeps_refl _ _
  | succ todo ih =>
    intro i chip
    simp only [waitKeyLoop]
    split
    · exact ⟨rfl, fun _ _ => rfl⟩
    · exact ih _ _

theorem storeRegsLoop_keeps :
    ∀ (todo reg : Nat) (chip chip' : CPU), reg + todo < 256 →
      storeRegsLoop todo reg chip = .ok chip' →
      chip'.I = chip.I ∧
        keeps (fun a => a < chip.I + reg ∨ chip.I + reg + todo ≤ a) chip chip' := by
  intro todo
  induction todo with
  | zero => intro reg chip chip' _ h; cases h; exact ⟨rfl, keeps_refl _ _⟩
  | succ todo ih =>
    intro reg chip chip' hreg h
    simp only [storeRegsLoop] at h
    obtain ⟨chip1, h1, h⟩ := bind_eq_ok _ _ _ h
    obtain ⟨hI1, hk1⟩ := writeMemory_keeps _ _ _ _ h1
    have hmod : (reg + 1) % 256 = reg + 1 := by omega
    rw [hmod] at h
    obtain ⟨hI2, hk2⟩ := ih (reg + 1) chip1 chip' (by omega) h
    refine ⟨hI2.trans hI1, keeps_trans (keeps_mono hk1 ?_) (keeps_mono hk2 ?_)⟩
    · intro a ha; show a ≠ chip.I + reg; omega
    · intro a ha; show a < chip1.I + (reg + 1) ∨ chip1.I + (reg + 1) + todo ≤ a
      rw [hI1]; omega

theorem loadRegsLoop_keeps :
    ∀ (todo reg : Nat) (chip chip' : CPU),
      loadRegsLoop todo reg chip = .ok chip' → keeps (fun _ => True) chip chip' := by
  intro todo
  induction todo with
  | zero => intro reg chip chip' h; cases h; exact keeps_refl _ _
  | succ todo ih =>
    intro reg chip chip' h
    simp only [loadRegsLoop] at h
    obtain ⟨byte, _, h⟩ := bind_eq_ok _ _ _ h
    exact keeps_trans (keeps_setV _ chip reg byte) (ih _ _ _ h)

theorem execUser_keeps (x nn : Nat) (chip : CPU) (io : IOState) (chip' : CPU)
    (io' : IOState) (hx : x < 16) (h : execUser x nn chip io = .ok (chip', io')) :
    keeps (fun a => (nn = 0x33 → a < chip.I ∨ chip.I + 2 < a) ∧
      (nn = 0x55 → a < chip.I ∨ chip.I + x < a)) chip chip' := by
  unfold execUser at h
  split at h
  · cases h; exact ⟨rfl, fun _ _ => rfl⟩
  · have hw := waitKeyLoop_keeps x io 16 0 chip
    generalize waitKeyLoop x io 16 0 chip = r at h hw
    obtain ⟨c, b⟩ := r
    simp only at h hw
    split at h <;> cases h <;> exact ⟨hw.1, fun a _ => hw.2 a trivial⟩
  · cases h; exact ⟨rfl, fun _ _ => rfl⟩
  · cases h; exact ⟨rfl, fun _ _ => rfl⟩
  · cases h; exact ⟨rfl, fun _ _ => rfl⟩
  · cases h; exact ⟨rfl, fun _ _ => rfl⟩
  · obtain ⟨c1, h1, h⟩ := bind_eq_ok _ _ _ h
    obtain ⟨c2, h2, h⟩ := bind_eq_ok _ _ _ h
    obtain ⟨c3, h3, h⟩ := bind_eq_ok _ _ _ h
    cases h
    obtain ⟨hI1, hk1⟩ := writeMemory_keeps _ _ _ _ h1
    obtain ⟨hI2, hk2⟩ := writeMemory_keeps _ _ _ _ h2
    obtain ⟨_, hk3⟩ := writeMemory_keeps _ _ _ _ h3
    refine keeps_trans (keeps_mono hk1 ?_) (keeps_trans (keeps_mono hk2 ?_) (keeps_mono hk3 ?_))
    · intro a ha; have := ha.1 rfl; show a ≠ chip.I; omega
    · intro a ha; have := ha.1 rfl; show a ≠ c1.I + 1; rw [hI1]; omega
    · intro a ha; have := ha.1 rfl; show a ≠ c2.I + 2; rw [hI2, hI1]; omega
  · obtain ⟨c1, h1, h⟩ := bind_eq_ok _ _ _ h
    cases h
    obtain ⟨_, hk⟩ := storeRegsLoop_keeps _ _ _ _ (by omega) h1
    refine keeps_mono hk ?_
    intro a ha; have := ha.2 rfl; show a < chip.I + 0 ∨ chip.I + 0 + (x + 1) ≤ a; omega
  · obtain ⟨c1, h1, h⟩ := bind_eq_ok _ _ _ h
    cases h
    exact keeps_mono (loadRegsLoop_keeps _ _ _ _ h1) (fun _ _ => trivial)
  · cases h; exact ⟨rfl, fun _ _ => rfl⟩

theorem execF_keeps (kernel : Bool) (x nn : Nat) (chip : CPU) (io : IOState)
    (chip' : CPU) (io' : IOState) (hx : x < 16)
    (h : execF kernel x nn chip io = .ok (chip', io')) :
    keeps (fun a => 0x1000 ≤ a ∧ (kernel = false →
      (nn = 0x33 → a < chip.I ∨ chip.I + 2 < a) ∧
      (nn = 0x55 → a < chip.I ∨ chip.I + x < a))) chip chip' := by
  unfold execF at h
  split at h
  · injection h with h
    have hs := execSyscall_keeps nn chip io
    rw [h] at hs
    exact keeps_mono hs (fun _ ha => ha.1)
  · rename_i hkern
    exact keeps_mono (execUser_keeps _ _ _ _ _ _ hx h)
      (fun _ ha => ha.2 (by simpa using hkern))

/-- The dispatch of any opcode leaves the mode unchanged, and leaves unchanged
every byte of `memory[0x1000 ..]` that does not lie in the range
`[I, I + storeExtent]` written by a store opcode. -/
theorem execute_keeps (rnd op : Nat) (chip : CPU) (io : IOState) (chip' : CPU)
    (io' : IOState) (h : execute rnd op chip io = .ok (chip', io')) :
    keeps (fun a => 0x1000 ≤ a ∧
      (isStore op = true → a < chip.I ∨ chip.I + storeExtent op < a)) chip chip' := by
  have hx : op / 256 % 16 < 16 := Nat.mod_lt _ (by norm_num)
  have hreg : op / 4096 % 16 = 0xF ∨ op / 4096 % 16 = 0xE → ∀ (I : Nat) (a : Nat),
      (0x1000 ≤ a ∧ (isStore op = true → a < I ∨ I + storeExtent op < a)) →
      (0x1000 ≤ a ∧ (decide (op / 256 % 16 = 0) = false →
        (op % 256 = 0x33 → a < I ∨ I + 2 < a) ∧
        (op % 256 = 0x55 → a < I ∨ I + op / 256 % 16 < a))) := by
    intro hfam I a ha
    refine ⟨ha.1, fun hk => ?_⟩
    have hx0 : op / 256 % 16 ≠ 0 := by simpa using hk
    constructor
    · intro hnn
      have hs : isStore op = true := by
        rcases hfam with hf | hf <;> simp [isStore, hf, hx0, hnn]
      have := ha.2 hs
      simpa [storeExtent, hnn] using this
    · intro hnn
      have hs : isStore op = true := by
        rcases hfam with hf | hf <;> simp [isStore, hf, hx0, hnn]
      have := ha.2 hs
      simpa [storeExtent, hnn] using this
  have all : ∀ {c : CPU}, keeps (fun _ => True) chip c →
      keeps (fun a => 0x1000 ≤ a ∧
        (isStore op = true → a < chip.I ∨ chip.I + storeExtent op < a)) chip c :=
    fun hc => keeps_mono hc (fun _ _ => trivial)
  rw [execute_unfold] at h
  split at h
  · cases h; exact ⟨rfl, fun _ _ => rfl⟩
  · exact all (execZero_keeps _ _ _ _ _ h)
  · cases h; exact ⟨rfl, fun _ _ => rfl⟩
  · obtain ⟨c1, h1, h⟩ := bind_eq_ok _ _ _ h
    unfold writeStack at h1
    split at h1
    · cases h1; cases h; exact ⟨rfl, fun _ _ => rfl⟩
    · cases h1
  · split at h <;> cases h <;> exact ⟨rfl, fun _ _ => rfl⟩
  · split at h <;> cases h <;> exact ⟨rfl, fun _ _ => rfl⟩
  · split at h <;> cases h <;> exact ⟨rfl, fun _ _ => rfl⟩
  · cases h; exact ⟨rfl, fun _ _ => rfl⟩
  · cases h; exact all (execAlu_keeps _ _ _)
  · split at h <;> cases h <;> exact ⟨rfl, fun _ _ => rfl⟩
  · cases h; exact ⟨rfl, fun _ _ => rfl⟩
  · cases h; exact ⟨rfl, fun _ _ => rfl⟩
  · cases h; exact ⟨rfl, fun _ _ => rfl⟩
  · exact all (execDraw_keeps _ _ _ _ _ _ h)
  · rename_i hfam
    obtain ⟨chip1, h1, h⟩ := bind_eq_ok _ _ _ h
    obtain ⟨hI1, hk1⟩ := execKeys_keeps _ _ _ _ _ h1
    refine keeps_trans (all hk1) (keeps_mono (execF_keeps _ _ _ _ _ _ _ hx h) ?_)
    intro a ha
    rw [hI1]
    exact hreg (Or.inr hfam) chip.I a ha
  · rename_i hfam
    exact keeps_mono (execF_keeps _ _ _ _ _ _ _ hx h) (fun a ha => hreg (Or.inl hfam) chip.I a ha)
  · cases h; exact ⟨rfl, fun _ _ => rfl⟩

/-- One cycle leaves the mode unchanged, and leaves unchanged every byte of
`memory[0x1000 ..]` outside the range written by a store opcode. -/
theorem chip8_cycle_keeps (rnd op : Nat) (chip : CPU) (io : IOState) (chip' : CPU)
    (io' : IOState) (hf : fetch chip = .ok op)
    (h : chip8_cycle rnd chip io = .ok (chip', io')) :
    keeps (fun a => 0x1000 ≤ a ∧
      (isStore op = true → a < chip.I ∨ chip.I + storeExtent op < a)) chip chip' := by
  simp only [chip8_cycle, hf, bind, Except.bind] at h
  have hs := execute_keeps _ _ _ _ _ _ h
  exact ⟨hs.1, hs.2⟩

/-- No run of cycles changes the mode. -/
theorem runCycles_mode (rnd : Nat → Nat) :
    ∀ (k : Nat) (chip : CPU) (io : IOState) (chip' : CPU) (io' : IOState),
      runCycles rnd k chip io = .ok (chip', io') → chip'.mode = chip.mode := by
  intro k
  induction k with
  | zero =>
    intro chip io chip' io' h
    simp only [runCycles, Except.ok.injEq, Prod.mk.injEq] at h
    rw [← h.1]
  | succ k ih =>
    intro chip io chip' io' h
    simp only [runCycles] at h
    obtain ⟨⟨chip1, io1⟩, h1, h⟩ := bind_eq_ok _ _ _ h
    have hf : ∃ op, fetch chip = .ok op := by
      simp only [chip8_cycle] at h1
      obtain ⟨op, hop, _⟩ := bind_eq_ok _ _ _ h1
      exact ⟨op, hop⟩
    obtain ⟨op, hop⟩ := hf
    exact (ih _ _ _ _ h).trans (chip8_cycle_keeps _ _ _ _ _ _ hop h1).1

/-- The syscall switch has no case other than 0 and 4 that changes the
state. -/
theorem execSyscall_other (nn : Nat) (chip : CPU) (io : IOState) (h0 : nn ≠ 0)
    (h4 : nn ≠ 4) : execSyscall nn chip io = (chip, io) := by
  unfold execSyscall
  split
  · exact absurd rfl h0
  · exact absurd rfl h4
  · rfl

/-! ## Register operations (`case 8`) -/

/-- The switch of `case 8` with its two decoded fields written as arithmetic
on the opcode. -/
theorem execAlu_unfold (op x : Nat) (chip : CPU) :
    execAlu op x chip =
      match op % 16 with
      | 0x0 => setV chip x (chip.V (op / 16 % 16))
      | 0x1 => setV chip x (chip.V x ||| chip.V (op / 16 % 16))
      | 0x2 => setV chip x (chip.V x &&& chip.V (op / 16 % 16))
      | 0x3 => setV chip x (chip.V x ^^^ chip.V (op / 16 % 16))
      | 0x4 =>
        let add_VX_VY := (chip.V x + chip.V (op / 16 % 16)) % 65536
        let chip := setV chip x add_VX_VY
        if add_VX_VY > 0xFF then setV chip 0xF 1 else setV chip 0xF 0
      | 0x5 =>
        let sub_VX_VY := (chip.V x + 256 - chip.V (op / 16 % 16)) % 256
        let chip := if chip.V x ≥ chip.V (op / 16 % 16) then setV chip 0xF 1
          else setV chip 0xF 0
        setV chip x sub_VX_VY
      | 0x6 =>
        let r_shifted_bit := (chip.V x &&& 1) % 256
        let chip := setV chip x (chip.V x >>> 1)
        setV chip 0xF r_shifted_bit
      | 0x7 =>
        let chip := if chip.V (op / 16 % 16) ≥ chip.V x then setV chip 0xF 1
          else setV chip 0xF 0
        setV chip x (chip.V (op / 16 % 16) + 256 - chip.V x)
      | 0xE =>
        let l_shifted_bit := ((chip.V x >>> 7) &&& 1) % 256
        let chip := setV chip x (chip.V x <<< 1)
        setV chip 0xF l_shifted_bit
      | _ => chip := by
  unfold execAlu
  simp only [decode_vy]
  simp only [decode_low_nibble]

/-- One cycle on `8xyk` fetched at `pc`. -/
theorem chip8_cycle_alu (rnd x y k : Nat) (chip : CPU) (io : IOState)
    (hx : x < 16) (hy : y < 16) (hk : k < 16) (hpc : chip.pc + 1 < 5120)
    (hhi : chip.memory chip.pc = 0x80 + x) (hlo : chip.memory (chip.pc + 1) = y * 16 + k) :
    chip8_cycle rnd chip io
      = .ok (execAlu ((0x80 + x) * 256 + (y * 16 + k)) x { chip with pc := chip.pc + 2 }, io) := by
  rw [chip8_cycle_eq rnd chip io (0x80 + x) (y * 16 + k) hpc hhi hlo (by omega) (by omega),
    execute_unfold]
  have h1 : ((0x80 + x) * 256 + (y * 16 + k)) / 4096 % 16 = 8 := by omega
  have h2 : ((0x80 + x) * 256 + (y * 16 + k)) / 256 % 16 = x := by omega
  rw [h1, h2]

/-! ## The drawn cells of `Dxyn` -/

theorem drawX_of_ne (chip : CPU) (x : Nat) (hx : x ≠ 15) : drawX chip x = chip.V x % 64 := by
  simp [drawX, store, hx]

theorem drawY_of_ne (chip : CPU) (y : Nat) (hy : y ≠ 15) : drawY chip y = chip.V y % 32 := by
  simp [drawY, store, hy]

/-- The value `pixel_bit` is bit `7 - c` of the sprite byte. -/
theorem spriteBit_eq (chip : CPU) (r c : Nat) :
    spriteBit chip r c = chip.memory (chip.I + r) / 2 ^ (7 - c) % 2 := by
  simp only [spriteBit, Nat.and_one_is_mod, Nat.shiftRight_eq_div_pow]

/-- The covered cells are the cells `(y0 + r) * 64 + x0 + c` of the rows and
columns of the sprite that fall inside the grid. -/
theorem covered_iff (x0 y0 n i : Nat) :
    covered x0 y0 0 n i ↔
      ∃ r c, r < n ∧ c < 8 ∧ y0 + r < 32 ∧ x0 + c < 64 ∧ i = (y0 + r) * 64 + x0 + c := by
  constructor
  · rintro ⟨h1, h2, h3, h4, h5⟩
    refine ⟨i / 64 - y0, i % 64 - x0, by omega, by omega, by omega, ?_, by omega⟩
    have := Nat.mod_lt i (show 64 > 0 by norm_num)
    omega
  · rintro ⟨r, c, h1, h2, h3, h4, h5⟩
    subst h5
    simp only [covered]
    omega

theorem xor_bit_mod (v b : Nat) (hv : v < 256) (hb : b ≤ 1) : (v ^^^ b) % 256 = v ^^^ b := by
  have h1 : v ^^^ b < 2 ^ 8 := Nat.xor_lt_two_pow (by simpa using hv) (by omega)
  exact Nat.mod_eq_of_lt (by simpa using h1)

/-! ## Key instructions (`Ex9E`, `ExA1`, `Fx0A`) -/

/-- After the key switch of `case 0xE` control falls into `case 0xF`, where
neither switch has a case for `0x9E` or `0xA1`. -/
theorem execF_skip_codes (x nn : Nat) (chip : CPU) (io : IOState)
    (hnn : nn = 0x9E ∨ nn = 0xA1) :
    execF (decide (x = 0)) x nn chip io = .ok (chip, io) := by
  by_cases h : x = 0
  · simp only [execF, h, decide_True, if_true]
    rw [execSyscall_other nn chip io (by omega) (by omega)]
  · simp only [execF, h, decide_False]
    rcases hnn with rfl | rfl <;> rfl

/-- The key scan with none of the scanned keys down. -/
theorem waitKeyLoop_none (x : Nat) (io : IOState) :
    ∀ (todo i : Nat) (chip : CPU), (∀ j, i ≤ j → j < i + todo → io.keys j = false) →
      waitKeyLoop x io todo i chip = (chip, false) := by
  intro todo
  induction todo with
  | zero => intro i chip _; rfl
  | succ todo ih =>
    intro i chip h
    have h0 : io.keys i = false := h i (Nat.le_refl _) (by omega)
    simp only [waitKeyLoop, h0, Bool.false_eq_true, if_false]
    exact ih (i + 1) chip (fun j h1 h2 => h j (by omega) (by omega))

/-- The key scan stops at the first key that is down. -/
theorem waitKeyLoop_first (x : Nat) (io : IOState) (k : Nat) (hk : io.keys k = true) :
    ∀ (todo i : Nat) (chip : CPU), i ≤ k → k < i + todo →
      (∀ j, i ≤ j → j < k → io.keys j = false) →
      waitKeyLoop x io todo i chip = (setV chip x k, true) := by
  intro todo
  induction todo with
  | zero => intro i chip h1 h2 _; omega
  | succ todo ih =>
    intro i chip h1 h2 h
    by_cases hik : i = k
    · subst hik
      simp only [waitKeyLoop, hk, if_true]
    · have h0 : io.keys i = false := h i (Nat.le_refl _) (by omega)
      simp only [waitKeyLoop, h0, Bool.false_eq_true, if_false]
      exact ih (i + 1) chip (by omega) (by omega) (fun j h3 h4 => h j (by omega) h4)

/-! ## Register store and load (`Fx55`, `Fx65`) -/

theorem storeRegsLoop_spec :
    ∀ (todo reg : Nat) (chip : CPU), reg + todo < 256 → chip.I + reg + todo ≤ 5120 →
      storeRegsLoop todo reg chip
        = .ok { chip with
                memory := fun a =>
                  if chip.I + reg ≤ a ∧ a < chip.I + reg + todo then chip.V (a - chip.I) % 256
                  else chip.memory a } := by
  intro todo
  induction todo with
  | zero =>
    intro reg chip _ _
    have : (fun a => if chip.I + reg ≤ a ∧ a < chip.I + reg + 0 then chip.V (a - chip.I) % 256
        else chip.memory a) = chip.memory := by
      funext a
      rw [if_neg (by omega)]
    simp only [storeRegsLoop, this]
  | succ todo ih =>
    intro reg chip h1 h2
    have hw : writeMemory chip (chip.I + reg) (chip.V reg)
        = .ok { chip with memory := store chip.memory (chip.I + reg) (chip.V reg % 256) } := by
      simp only [writeMemory]
      rw [if_pos (by omega)]
    have hr : (reg + 1) % 256 = reg + 1 := by omega
    simp only [storeRegsLoop, hw, bind, Except.bind, hr]
    rw [ih (reg + 1)]
    · congr 2
      funext a
      simp only [store]
      by_cases ha : a = chip.I + reg
      · subst ha
        rw [if_neg (by omega), if_pos rfl, if_pos (by omega)]
        congr 2
        omega
      · rw [if_neg ha]
        by_cases hb : chip.I + (reg + 1) ≤ a ∧ a < chip.I + (reg + 1) + todo
        · rw [if_pos hb, if_pos (by omega)]
        · rw [if_neg hb, if_neg (by omega)]
    · omega
    · show chip.I + (reg + 1) + todo ≤ 5120
      omega

theorem loadRegsLoop_spec :
    ∀ (todo reg : Nat) (chip : CPU), reg + todo < 256 → chip.I + reg + todo ≤ 5120 →
      loadRegsLoop todo reg chip
        = .ok { chip with
                V := fun r =>
                  if reg ≤ r ∧ r < reg + todo then chip.memory (chip.I + r) % 256
                  else chip.V r } := by
  intro todo
  induction todo with
  | zero =>
    intro reg chip _ _
    have : (fun r => if reg ≤ r ∧ r < reg + 0 then chip.memory (chip.I + r) % 256
        else chip.V r) = chip.V := by
      funext a
      rw [if_neg (by omega)]
    simp only [loadRegsLoop, this]
  | succ todo ih =>
    intro reg chip h1 h2
    have hw : readMemory chip (chip.I + reg) = .ok (chip.memory (chip.I + reg)) := by
      simp only [readMemory]
      rw [if_pos (by omega)]
    have hr : (reg + 1) % 256 = reg + 1 := by omega
    simp only [loadRegsLoop, hw, bind, Except.bind, hr]
    rw [ih (reg + 1)]
    · simp only [setV]
      congr 2
      funext a
      simp only [store]
      by_cases ha : a = reg
      · subst ha
        rw [if_neg (by omega), if_pos rfl, if_pos (by omega)]
      · rw [if_neg ha]
        by_cases hb : reg + 1 ≤ a ∧ a < reg + 1 + todo
        · rw [if_pos hb, if_pos (by omega)]
        · rw [if_neg hb, if_neg (by omega)]
    · omega
    · show chip.I + (reg + 1) + todo ≤ 5120
      omega

theorem chip8_cycle_store_regs (rnd x : Nat) (chip : CPU) (io : IOState)
    (hx1 : 1 ≤ x) (hx : x < 16) (hI : chip.I + x < 5120) (hpc : chip.pc + 1 < 5120)
    (hhi : chip.memory chip.pc = 0xF0 + x) (hlo : chip.memory (chip.pc + 1) = 0x55) :
    chip8_cycle rnd chip io
      = .ok ({ chip with
                pc := chip.pc + 2,
                memory := fun a =>
                  if chip.I ≤ a ∧ a ≤ chip.I + x then chip.V (a - chip.I) % 256
                  else chip.memory a }, io) := by
  have h1 : ((0xF0 + x) * 256 + 0x55) / 4096 % 16 = 0xF := by omega
  have h2 : ((0xF0 + x) * 256 + 0x55) / 256 % 16 = x := by omega
  have h3 : ((0xF0 + x) * 256 + 0x55) % 256 = 0x55 := by omega
  have h4 : ¬ x = 0 := by omega
  rw [chip8_cycle_eq rnd chip io (0xF0 + x) 0x55 hpc hhi hlo (by omega) (by norm_num),
    execute_unfold, h1, h2, h3]
  simp only [execF, decide_eq_true_eq, h4, if_false, execUser]
  rw [storeRegsLoop_spec (x + 1) 0]
  · simp only [bind, Except.bind, pure, Except.pure, Nat.add_zero]
    congr 3
    funext a
    by_cases hb : chip.I ≤ a ∧ a ≤ chip.I + x
    · rw [if_pos hb, if_pos (by omega)]
    · rw [if_neg hb, if_neg (by omega)]
  · omega
  · show chip.I + 0 + (x + 1) ≤ 5120
    omega

theorem chip8_cycle_load_regs (rnd x : Nat) (chip : CPU) (io : IOState)
    (hx1 : 1 ≤ x) (hx : x < 16) (hI : chip.I + x < 5120) (hpc : chip.pc + 1 < 5120)
    (hhi : chip.memory chip.pc = 0xF0 + x) (hlo : chip.memory (chip.pc + 1) = 0x65) :
    chip8_cycle rnd chip io
      = .ok ({ chip with
                pc := chip.pc + 2,
                V := fun r => if r ≤ x then chip.memory (chip.I + r) % 256 else chip.V r },
              io) := by
  have h1 : ((0xF0 + x) * 256 + 0x65) / 4096 % 16 = 0xF := by omega
  have h2 : ((0xF0 + x) * 256 + 0x65) / 256 % 16 = x := by omega
  have h3 : ((0xF0 + x) * 256 + 0x65) % 256 = 0x65 := by omega
  have h4 : ¬ x = 0 := by omega
  rw [chip8_cycle_eq rnd chip io (0xF0 + x) 0x65 hpc hhi hlo (by omega) (by norm_num),
    execute_unfold, h1, h2, h3]
  simp only [execF, decide_eq_true_eq, h4, if_false, execUser]
  rw [loadRegsLoop_spec (x + 1) 0]
  · simp only [bind, Except.bind, pure, Except.pure, Nat.add_zero]
    congr 3
    funext a
    by_cases hb : a ≤ x
    · rw [if_pos hb, if_pos (by omega)]
    · rw [if_neg hb, if_neg (by omega)]
  · omega
  · show chip.I + 0 + (x + 1) ≤ 5120
    omega

/-! ## The boot cycles -/

theorem runCycles_succ (rnd : Nat → Nat) (k : Nat) (chip : CPU) (io : IOState) (chip1 : CPU)
    (io1 : IOState) (h : chip8_cycle (rnd k) chip io = .ok (chip1, io1)) :
    runCycles rnd (k + 1) chip io = runCycles rnd k chip1 io1 := by
  simp only [runCycles, h, bind, Except.bind]

/-- The nine cycles that `main` runs first: `F000`, `F002`, `F004`, `F006`,
`F007` at 0x1000..0x1009, three times `0000` at 0x100A..0x100F, and `F008` at
0x1010. -/
theorem boot_nine_cycles :
    runCycles (fun _ => 0) 9 (chip8_init zeroCPU) ioZero
      = .ok ({ afterReset with pc := 0x1012 }, ioReset) := by
  have s1 : chip8_cycle 0 (chip8_init zeroCPU) ioZero = .ok (afterReset, ioZero) := rfl
  have s2 : chip8_cycle 0 afterReset ioZero
      = .ok ({ afterReset with pc := 0x1004 }, ioZero) := rfl
  have s3 : chip8_cycle 0 { afterReset with pc := 0x1004 } ioZero
      = .ok ({ afterReset with pc := 0x1006 }, ioReset) := rfl
  have s4 : chip8_cycle 0 { afterReset with pc := 0x1006 } ioReset
      = .ok ({ afterReset with pc := 0x1008 }, ioReset) := rfl
  have s5 : chip8_cycle 0 { afterReset with pc := 0x1008 } ioReset
      = .ok ({ afterReset with pc := 0x100A }, ioReset) := rfl
  have s6 : chip8_cycle 0 { afterReset with pc := 0x100A } ioReset
      = .ok ({ afterReset with pc := 0x100C }, ioReset) := rfl
  have s7 : chip8_cycle 0 { afterReset with pc := 0x100C } ioReset
      = .ok ({ afterReset with pc := 0x100E }, ioReset) := rfl
  have s8 : chip8_cycle 0 { afterReset with pc := 0x100E } ioReset
      = .ok ({ afterReset with pc := 0x1010 }, ioReset) := rfl
  have s9 : chip8_cycle 0 { afterReset with pc := 0x1010 } ioReset
      = .ok ({ afterReset with pc := 0x1012 }, ioReset) := rfl
  rw [runCycles_succ _ _ _ _ _ _ s1, runCycles_succ _ _ _ _ _ _ s2,
    runCycles_succ _ _ _ _ _ _ s3, runCycles_succ _ _ _ _ _ _ s4,
    runCycles_succ _ _ _ _ _ _ s5, runCycles_succ _ _ _ _ _ _ s6,
    runCycles_succ _ _ _ _ _ _ s7, runCycles_succ _ _ _ _ _ _ s8,
    runCycles_succ _ _ _ _ _ _ s9]
  rfl

/-! ## Instructions that keep the parity of `pc` -/

theorem sameParity_refl (chip : CPU) : sameParity chip chip := rfl

theorem sameParity_trans {a b c : CPU} (h1 : sameParity a b) (h2 : sameParity b c) :
    sameParity a c := h2.trans h1

theorem sameParity_setV (chip : CPU) (i v : Nat) : sameParity chip (setV chip i v) := rfl

theorem sameParity_skip (chip : CPU) :
    sameParity chip { chip with pc := (chip.pc + 2) % 65536 } := by
  show (chip.pc + 2) % 65536 % 2 = chip.pc % 2
  omega

theorem writeMemory_sameParity (chip chip' : CPU) (i v : Nat)
    (h : writeMemory chip i v = .ok chip') : sameParity chip chip' := by
  unfold writeMemory at h
  split at h
  · cases h; rfl
  · cases h

theorem drawCols_sameParity (x_start y row : Nat) :
    ∀ (todo col : Nat) (chip : CPU) (io : IOState) (chip' : CPU) (io' : IOState),
      drawCols x_start y row todo col chip io = .ok (chip', io') → sameParity chip chip' := by
  intro todo
  induction todo with
  | zero =>
    intro col chip io chip' io' h
    simp only [drawCols, Except.ok.injEq, Prod.mk.injEq] at h
    rw [← h.1]; exact sameParity_refl _
  | succ todo ih =>
    intro col chip io chip' io' h
    simp only [drawCols] at h
    split at h
    · simp only [Except.ok.injEq, Prod.mk.injEq] at h
      rw [← h.1]; exact sameParity_refl _
    · obtain ⟨b, _, h⟩ := bind_eq_ok _ _ _ h
      obtain ⟨cell, _, h⟩ := bind_eq_ok _ _ _ h
      obtain ⟨io1, _, h⟩ := bind_eq_ok _ _ _ h
      refine sameParity_trans ?_ (ih _ _ _ _ _ h)
      split
      · rfl
      · rfl

theorem drawRows_sameParity (x_start y_start : Nat) :
    ∀ (todo row : Nat) (chip : CPU) (io : IOState) (chip' : CPU) (io' : IOState),
      drawRows x_start y_start todo row chip io = .ok (chip', io') → sameParity chip chip' := by
  intro todo
  induction todo with
  | zero =>
    intro row chip io chip' io' h
    simp only [drawRows, Except.ok.injEq, Prod.mk.injEq] at h
    rw [← h.1]; exact sameParity_refl _
  | succ todo ih =>
    intro row chip io chip' io' h
    simp only [drawRows] at h
    split at h
    · simp only [Except.ok.injEq, Prod.mk.injEq] at h
      rw [← h.1]; exact sameParity_refl _
    · obtain ⟨⟨chip1, io1⟩, h1, h⟩ := bind_eq_ok _ _ _ h
      exact sameParity_trans (drawCols_sameParity _ _ _ _ _ _ _ _ _ h1) (ih _ _ _ _ _ h)

theorem execDraw_sameParity (op x : Nat) (chip : CPU) (io : IOState) (chip' : CPU)
    (io' : IOState) (h : execDraw op x chip io = .ok (chip', io')) : sameParity chip chip' :=
  sameParity_trans (sameParity_setV chip 0xF 0) (drawRows_sameParity _ _ _ _ _ _ _ _ h)

theorem execAlu_sameParity (op x : Nat) (chip : CPU) : sameParity chip (execAlu op x chip) := by
  unfold execAlu
  split <;> (try dsimp only) <;> (try split) <;> rfl

theorem execZero_sameParity (op : Nat) (chip : CPU) (io : IOState) (chip' : CPU)
    (io' : IOState) (hop : op ≠ 0x00EE) (h : execZero op chip io = .ok (chip', io')) :
    sameParity chip chip' := by
  unfold execZero at h
  split at h
  · simp only [Except.ok.injEq, Prod.mk.injEq] at h
    rw [← h.1]; exact sameParity_refl _
  · exact absurd rfl hop
  · simp only [Except.ok.injEq, Prod.mk.injEq] at h
    rw [← h.1]; exact sameParity_refl _

theorem execKeys_sameParity (op x : Nat) (chip : CPU) (io : IOState) (chip' : CPU)
    (h : execKeys op x chip io = .ok chip') : sameParity chip chip' := by
  unfold execKeys at h
  split at h
  · obtain ⟨key, _, h⟩ := bind_eq_ok _ _ _ h
    split at h <;> cases h
    · exact sameParity_skip chip
    · rfl
  · obtain ⟨key, _, h⟩ := bind_eq_ok _ _ _ h
    split at h <;> cases h
    · exact sameParity_skip chip
    · rfl
  · cases h; rfl

theorem execSyscall_sameParity (nn : Nat) (chip : CPU) (io : IOState) :
    sameParity chip (execSyscall nn chip io).1 := by
  unfold execSyscall
  split <;> rfl

theorem waitKeyLoop_sameParity (x : Nat) (io : IOState) :
    ∀ (todo i : Nat) (chip : CPU), sameParity chip (waitKeyLoop x io todo i chip).1 := by
  intro todo
  induction todo with
  | zero => intro i chip; rfl
  | succ todo ih =>
    intro i chip
    simp only [waitKeyLoop]
    split
    · rfl
    · exact ih _ _

theorem storeRegsLoop_sameParity :
    ∀ (todo reg : Nat) (chip chip' : CPU),
      storeRegsLoop todo reg chip = .ok chip' → sameParity chip chip' := by
  intro todo
  induction todo with
  | zero => intro reg chip chip' h; cases h; rfl
  | succ todo ih =>
    intro reg chip chip' h
    simp only [storeRegsLoop] at h
    obtain ⟨chip1, h1, h⟩ := bind_eq_ok _ _ _ h
    exact sameParity_trans (writeMemory_sameParity _ _ _ _ h1) (ih _ _ _ h)

theorem loadRegsLoop_sameParity :
    ∀ (todo reg : Nat) (chip chip' : CPU),
      loadRegsLoop todo reg chip = .ok chip' → sameParity chip chip' := by
  intro todo
  induction todo with
  | zero => intro reg chip chip' h; cases h; rfl
  | succ todo ih =>
    intro reg chip chip' h
    simp only [loadRegsLoop] at h
    obtain ⟨byte, _, h⟩ := bind_eq_ok _ _ _ h
    exact sameParity_trans (sameParity_setV chip reg byte) (ih _ _ _ h)

theorem execUser_sameParity (x nn : Nat) (chip : CPU) (io : IOState) (chip' : CPU)
    (io' : IOState) (h : execUser x nn chip io = .ok (chip', io')) : sameParity chip chip' := by
  unfold execUser at h
  split at h
  · cases h; rfl
  · have hw := waitKeyLoop_sameParity x io 16 0 chip
    generalize waitKeyLoop x io 16 0 chip = r at h hw
    obtain ⟨c, b⟩ := r
    simp only at h hw
    split at h <;> cases h
    · show (c.pc + 65536 - 2) % 65536 % 2 = chip.pc % 2
      have : c.pc % 2 = chip.pc % 2 := hw
      omega
    · exact hw
  · cases h; rfl
  · cases h; rfl
  · cases h; rfl
  · cases h; rfl
  · obtain ⟨c1, h1, h⟩ := bind_eq_ok _ _ _ h
    obtain ⟨c2, h2, h⟩ := bind_eq_ok _ _ _ h
    obtain ⟨c3, h3, h⟩ := bind_eq_ok _ _ _ h
    cases h
    exact sameParity_trans (writeMemory_sameParity _ _ _ _ h1)
      (sameParity_trans (writeMemory_sameParity _ _ _ _ h2) (writeMemory_sameParity _ _ _ _ h3))
  · obtain ⟨c1, h1, h⟩ := bind_eq_ok _ _ _ h
    cases h
    exact storeRegsLoop_sameParity _ _ _ _ h1
  · obtain ⟨c1, h1, h⟩ := bind_eq_ok _ _ _ h
    cases h
    exact loadRegsLoop_sameParity _ _ _ _ h1
  · cases h; rfl

theorem execF_sameParity (kernel : Bool) (x nn : Nat) (chip : CPU) (io : IOState)
    (chip' : CPU) (io' : IOState)
    (h : execF kernel x nn chip io = .ok (chip', io')) : sameParity chip chip' := by
  unfold execF at h
  split at h
  · injection h with h
    have hs := execSyscall_sameParity nn chip io
    rw [h] at hs
    exact hs
  · exact execUser_sameParity _ _ _ _ _ _ h

/-- The dispatch of an opcode other than `1nnn`, `2nnn`, `Bnnn` and `00EE`
keeps the parity of `pc`. -/
theorem execute_sameParity (rnd op : Nat) (chip : CPU) (io : IOState) (chip' : CPU)
    (io' : IOState) (hop : isTransfer op = false)
    (h : execute rnd op chip io = .ok (chip', io')) : sameParity chip chip' := by
  simp only [isTransfer, Bool.or_eq_false_iff, beq_eq_false_iff_ne, ne_eq] at hop
  obtain ⟨⟨⟨hjump, hcall⟩, hoff⟩, hret⟩ := hop
  rw [execute_unfold] at h
  split at h
  · cases h; rfl
  · exact execZero_sameParity _ _ _ _ _ hret h
  · rename_i hfam; exact absurd hfam hjump
  · rename_i hfam; exact absurd hfam hcall
  · split at h <;> cases h <;> first | exact sameParity_skip chip | rfl
  · split at h <;> cases h <;> first | exact sameParity_skip chip | rfl
  · split at h <;> cases h <;> first | exact sameParity_skip chip | rfl
  · cases h; rfl
  · cases h; exact execAlu_sameParity _ _ _
  · split at h <;> cases h <;> first | exact sameParity_skip chip | rfl
  · cases h; rfl
  · rename_i hfam; exact absurd hfam hoff
  · cases h; rfl
  · exact execDraw_sameParity _ _ _ _ _ _ h
  · obtain ⟨chip1, h1, h⟩ := bind_eq_ok _ _ _ h
    exact sameParity_trans (execKeys_sameParity _ _ _ _ _ h1)
      (execF_sameParity _ _ _ _ _ _ _ h)
  · exact execF_sameParity _ _ _ _ _ _ _ h
  · cases h; rfl

/-! ## The boot loop of `main` -/

theorem bootLoop_step (rnd : Nat → Nat) (fuel : Nat) (chip : CPU) (io : IOState) (chip1 : CPU)
    (io1 : IOState) (hlo : 0x1000 ≤ chip.pc) (hhi : chip.pc ≤ 0x1FFF)
    (h : chip8_cycle (rnd fuel) chip io = .ok (chip1, io1)) :
    bootLoop rnd (fuel + 1) chip io = bootLoop rnd fuel chip1 io1 := by
  have hr : chip.pc ≥ 0x1000 ∧ chip.pc ≤ 0x1FFF := ⟨hlo, hhi⟩
  simp only [bootLoop, if_pos hr, h, bind, Except.bind]

/-- One cycle on the opcode `0000`: only `pc` changes. -/
theorem chip8_cycle_zero_opcode (rnd : Nat) (chip : CPU) (io : IOState)
    (hpc : chip.pc + 1 < 5120) (h0 : chip.memory chip.pc = 0)
    (h1 : chip.memory (chip.pc + 1) = 0) :
    chip8_cycle rnd chip io = .ok ({ chip with pc := chip.pc + 2 }, io) := by
  rw [chip8_cycle_eq rnd chip io 0 0 hpc h0 h1 (by norm_num) (by norm_num)]
  rfl

/-- While `pc` runs over zero bytes of the range of the loop, each iteration
only advances `pc` by 2. -/
theorem bootLoop_zeros (rnd : Nat → Nat) (fuel : Nat) :
    ∀ (k : Nat) (chip : CPU) (io : IOState), 0x1000 ≤ chip.pc → chip.pc + 2 * k ≤ 0x1400 →
      (∀ a, chip.pc ≤ a → a < chip.pc + 2 * k → chip.memory a = 0) →
      bootLoop rnd (fuel + k) chip io
        = bootLoop rnd fuel { chip with pc := chip.pc + 2 * k } io := by
  intro k
  induction k with
  | zero => intro chip io _ _ _; rfl
  | succ k ih =>
    intro chip io hlo hhi hz
    have hc := chip8_cycle_zero_opcode (rnd (fuel + k)) chip io (by omega)
      (hz _ (Nat.le_refl _) (by omega)) (hz _ (by omega) (by omega))
    rw [show fuel + (k + 1) = (fuel + k) + 1 from rfl,
      bootLoop_step rnd (fuel + k) chip io _ _ hlo (by omega) hc, ih]
    · show bootLoop rnd fuel { chip with pc := chip.pc + 2 + 2 * k } io = _
      rw [show chip.pc + 2 + 2 * k = chip.pc + 2 * (k + 1) by omega]
    · show 0x1000 ≤ chip.pc + 2
      omega
    · show chip.pc + 2 + 2 * k ≤ 0x1400
      omega
    · intro a h1 h2
      exact hz a (by have : chip.pc + 2 ≤ a := h1; omega)
        (by have : a < chip.pc + 2 + 2 * k := h2; omega)

/-- An iteration entered with `pc = 0x1400` fetches `memory[5120]`. -/
theorem bootLoop_past_memory (rnd : Nat → Nat) (fuel : Nat) (chip : CPU) (io : IOState)
    (hpc : chip.pc = 0x1400) :
    bootLoop rnd (fuel + 1) chip io = .error (Undefined.memory 5120) := by
  have hr : chip.pc ≥ 0x1000 ∧ chip.pc ≤ 0x1FFF := by omega
  simp only [bootLoop, if_pos hr, chip8_cycle, fetch, readMemory, hpc, bind, Except.bind]
  rfl

theorem loadFont_outside :
    ∀ (bytes : List Nat) (i : Nat) (memory : Nat → Nat) (a : Nat),
      (a < 0x50 + i ∨ 0x50 + i + bytes.length ≤ a) → loadFont memory i bytes a = memory a := by
  intro bytes
  induction bytes with
  | nil => intro i memory a _; rfl
  | cons b rest ih =>
    intro i memory a ha
    simp only [loadFont]
    rw [ih (i + 1) _ a (by simp only [List.length_cons] at ha; omega)]
    simp only [store]
    rw [if_neg (by simp only [List.length_cons] at ha; omega)]

/-- After the reset of the first boot cycle the bytes from 0x1012 on are those
of the zeroed memory. -/
theorem afterReset_zero (a : Nat) (ha : 0x1012 ≤ a) : afterReset.memory a = 0 := by
  show (if a < 5120 - 1024 then 0 else (chip8_init zeroCPU).memory a) = 0
  rw [if_neg (by omega)]
  show loadFont _ 0 chip8_fontset a = 0
  rw [loadFont_outside chip8_fontset 0 _ a (Or.inr (by
    have : chip8_fontset.length = 80 := rfl
    omega))]
  simp only [bootstrapStores, List.foldl, store, zeroCPU]
  repeat rw [if_neg (by omega)]

/-- The first 512 iterations of the boot loop of `main` from the state that
`chip8_init` leaves: the nine cycles up to 0x1012, then 503 cycles on the opcode
`0000` up to `pc = 0x1400`. -/
theorem bootLoop_init (rnd : Nat → Nat) (io : IOState) (fuel : Nat) :
    bootLoop rnd (fuel + 512) (chip8_init zeroCPU) io
      = bootLoop rnd fuel { afterReset with pc := 0x1400 } (execSyscall 4 afterReset io).2 := by
  have s1 : ∀ r, chip8_cycle r (chip8_init zeroCPU) io = .ok (afterReset, io) := fun _ => rfl
  have s2 : ∀ r, chip8_cycle r afterReset io
      = .ok ({ afterReset with pc := 0x1004 }, io) := fun _ => rfl
  have s3 : ∀ r, chip8_cycle r { afterReset with pc := 0x1004 } io
      = .ok ({ afterReset with pc := 0x1006 }, (execSyscall 4 afterReset io).2) := fun _ => rfl
  have s4 : ∀ r (io1 : IOState), chip8_cycle r { afterReset with pc := 0x1006 } io1
      = .ok ({ afterReset with pc := 0x1008 }, io1) := fun _ _ => rfl
  have s5 : ∀ r (io1 : IOState), chip8_cycle r { afterReset with pc := 0x1008 } io1
      = .ok ({ afterReset with pc := 0x100A }, io1) := fun _ _ => rfl
  have s6 : ∀ r (io1 : IOState), chip8_cycle r { afterReset with pc := 0x100A } io1
      = .ok ({ afterReset with pc := 0x100C }, io1) := fun _ _ => rfl
  have s7 : ∀ r (io1 : IOState), chip8_cycle r { afterReset with pc := 0x100C } io1
      = .ok ({ afterReset with pc := 0x100E }, io1) := fun _ _ => rfl
  have s8 : ∀ r (io1 : IOState), chip8_cycle r { afterReset with pc := 0x100E } io1
      = .ok ({ afterReset with pc := 0x1010 }, io1) := fun _ _ => rfl
  have s9 : ∀ r (io1 : IOState), chip8_cycle r { afterReset with pc := 0x1010 } io1
      = .ok ({ afterReset with pc := 0x1012 }, io1) := fun _ _ => rfl
  rw [show fuel + 512 = fuel + 503 + 8 + 1 from rfl,
    bootLoop_step rnd _ _ _ _ _ (by decide) (by decide) (s1 _),
    bootLoop_step rnd (fuel + 503 + 7) _ _ _ _ (by decide) (by decide) (s2 _),
    bootLoop_step rnd (fuel + 503 + 6) _ _ _ _ (by decide) (by decide) (s3 _),
    bootLoop_step rnd (fuel + 503 + 5) _ _ _ _ (by decide) (by decide) (s4 _ _),
    bootLoop_step rnd (fuel + 503 + 4) _ _ _ _ (by decide) (by decide) (s5 _ _),
    bootLoop_step rnd (fuel + 503 + 3) _ _ _ _ (by decide) (by decide) (s6 _ _),
    bootLoop_step rnd (fuel + 503 + 2) _ _ _ _ (by decide) (by decide) (s7 _ _),
    bootLoop_step rnd (fuel + 503 + 1) _ _ _ _ (by decide) (by decide) (s8 _ _),
    bootLoop_step rnd (fuel + 503) _ _ _ _ (by decide) (by decide) (s9 _ _),
    bootLoop_zeros rnd fuel 503 { afterReset with pc := 0x1012 }
      (execSyscall 4 afterReset io).2 (by decide) (by decide)
      (fun a h1 _ => afterReset_zero a h1)]

/-! ## Codes without a case -/

theorem execZero_other (op : Nat) (chip : CPU) (io : IOState) (h0 : op ≠ 0x00E0)
    (h1 : op ≠ 0x00EE) : execZero op chip io = .ok (chip, io) := by
  unfold execZero
  split
  · exact absurd rfl h0
  · exact absurd rfl h1
  · rfl

theorem execAlu_other (op x : Nat) (chip : CPU)
    (hk : op % 16 = 8 ∨ op % 16 = 9 ∨ op % 16 = 0xA ∨ op % 16 = 0xB ∨ op % 16 = 0xC ∨
      op % 16 = 0xD ∨ op % 16 = 0xF) :
    execAlu op x chip = chip := by
  rw [execAlu_unfold]
  rcases hk with h | h | h | h | h | h | h <;> rw [h]

/-! ## Instructions keep the framebuffer cells 0 or 1 -/

theorem binaryDisplay_clear (io : IOState) : binaryDisplay (clearDisplay io) := by
  intro i hi
  left
  show (if i < 2048 then 0 else io.display i) = 0
  rw [if_pos hi]

theorem xor_bit_binary (cell b k : Nat) (hc : cell = 0 ∨ cell = 1) :
    (cell ^^^ ((b >>> k) &&& 1)) % 256 = 0 ∨ (cell ^^^ ((b >>> k) &&& 1)) % 256 = 1 := by
  have hb : (b >>> k) &&& 1 = 0 ∨ (b >>> k) &&& 1 = 1 := by
    rw [Nat.and_one_is_mod]
    omega
  rcases hc with hc | hc <;> rcases hb with hb | hb <;> rw [hc, hb] <;> decide

theorem drawCols_binary (x_start y row : Nat) :
    ∀ (todo col : Nat) (chip : CPU) (io : IOState) (chip' : CPU) (io' : IOState),
      binaryDisplay io → drawCols x_start y row todo col chip io = .ok (chip', io') →
      binaryDisplay io' := by
  intro todo
  induction todo with
  | zero =>
    intro col chip io chip' io' hb h
    simp only [drawCols, Except.ok.injEq, Prod.mk.injEq] at h
    rw [← h.2]; exact hb
  | succ todo ih =>
    intro col chip io chip' io' hb h
    simp only [drawCols] at h
    split at h
    · simp only [Except.ok.injEq, Prod.mk.injEq] at h
      rw [← h.2]; exact hb
    · obtain ⟨b, _, h⟩ := bind_eq_ok _ _ _ h
      obtain ⟨cell, hcell, h⟩ := bind_eq_ok _ _ _ h
      obtain ⟨io1, hio1, h⟩ := bind_eq_ok _ _ _ h
      refine ih _ _ _ _ _ ?_ h
      simp only [readDisplay] at hcell
      simp only [writeDisplay] at hio1
      split at hcell
      · rename_i hidx
        rw [if_pos hidx] at hio1
        cases hcell
        cases hio1
        intro i hi
        show store io.display _ _ i = 0 ∨ store io.display _ _ i = 1
        simp only [store]
        split
        · exact xor_bit_binary _ _ _ (hb _ hidx)
        · exact hb i hi
      · cases hcell

theorem drawRows_binary (x_start y_start : Nat) :
    ∀ (todo row : Nat) (chip : CPU) (io : IOState) (chip' : CPU) (io' : IOState),
      binaryDisplay io → drawRows x_start y_start todo row chip io = .ok (chip', io') →
      binaryDisplay io' := by
  intro todo
  induction todo with
  | zero =>
    intro row chip io chip' io' hb h
    simp only [drawRows, Except.ok.injEq, Prod.mk.injEq] at h
    rw [← h.2]; exact hb
  | succ todo ih =>
    intro row chip io chip' io' hb h
    simp only [drawRows] at h
    split at h
    · simp only [Except.ok.injEq, Prod.mk.injEq] at h
      rw [← h.2]; exact hb
    · obtain ⟨⟨chip1, io1⟩, h1, h⟩ := bind_eq_ok _ _ _ h
      exact ih _ _ _ _ _ (drawCols_binary _ _ _ _ _ _ _ _ _ hb h1) h

theorem execZero_binary (op : Nat) (chip : CPU) (io : IOState) (chip' : CPU)
    (io' : IOState) (hb : binaryDisplay io) (h : execZero op chip io = .ok (chip', io')) :
    binaryDisplay io' := by
  unfold execZero at h
  split at h
  · cases h; exact binaryDisplay_clear io
  · obtain ⟨ret, _, h⟩ := bind_eq_ok _ _ _ h
    cases h; exact hb
  · cases h; exact hb

theorem execSyscall_binary (nn : Nat) (chip : CPU) (io : IOState) (hb : binaryDisplay io) :
    binaryDisplay (execSyscall nn chip io).2 := by
  unfold execSyscall
  split
  · exact hb
  · exact binaryDisplay_clear io
  · exact hb

theorem execUser_binary (x nn : Nat) (chip : CPU) (io : IOState) (chip' : CPU)
    (io' : IOState) (hb : binaryDisplay io) (h : execUser x nn chip io = .ok (chip', io')) :
    binaryDisplay io' := by
  unfold execUser at h
  split at h
  · cases h; exact hb
  · generalize waitKeyLoop x io 16 0 chip = r at h
    obtain ⟨c, b⟩ := r
    simp only at h
    split at h <;> cases h <;> exact hb
  · cases h; exact hb
  · cases h; exact hb
  · cases h; exact hb
  · cases h; exact hb
  · obtain ⟨c1, h1, h⟩ := bind_eq_ok _ _ _ h
    obtain ⟨c2, h2, h⟩ := bind_eq_ok _ _ _ h
    obtain ⟨c3, h3, h⟩ := bind_eq_ok _ _ _ h
    cases h; exact hb
  · obtain ⟨c1, h1, h⟩ := bind_eq_ok _ _ _ h
    cases h; exact hb
  · obtain ⟨c1, h1, h⟩ := bind_eq_ok _ _ _ h
    cases h; exact hb
  · cases h; exact hb

theorem execF_binary (kernel : Bool) (x nn : Nat) (chip : CPU) (io : IOState)
    (chip' : CPU) (io' : IOState) (hb : binaryDisplay io)
    (h : execF kernel x nn chip io = .ok (chip', io')) : binaryDisplay io' := by
  unfold execF at h
  split at h
  · injection h with h
    have hs := execSyscall_binary nn chip io hb
    rw [h] at hs
    exact hs
  · exact execUser_binary _ _ _ _ _ _ hb h

/-- The dispatch of any opcode keeps every framebuffer cell 0 or 1. -/
theorem execute_binary (rnd op : Nat) (chip : CPU) (io : IOState) (chip' : CPU)
    (io' : IOState) (hb : binaryDisplay io)
    (h : execute rnd op chip io = .ok (chip', io')) : binaryDisplay io' := by
  rw [execute_unfold] at h
  split at h
  · cases h; exact hb
  · exact execZero_binary _ _ _ _ _ hb h
  · cases h; exact hb
  · obtain ⟨c1, h1, h⟩ := bind_eq_ok _ _ _ h
    cases h; exact hb
  · split at h <;> cases h <;> exact hb
  · split at h <;> cases h <;> exact hb
  · split at h <;> cases h <;> exact hb
  · cases h; exact hb
  · cases h; exact hb
  · split at h <;> cases h <;> exact hb
  · cases h; exact hb
  · cases h; exact hb
  · cases h; exact hb
  · exact drawRows_binary _ _ _ _ _ _ _ _ hb h
  · obtain ⟨chip1, h1, h⟩ := bind_eq_ok _ _ _ h
    exact execF_binary _ _ _ _ _ _ _ hb h
  · exact execF_binary _ _ _ _ _ _ _ hb h
  · cases h; exact hb

theorem chip8_load_rom_io (chip : CHIP8_SYSTEM) (filename : String) (chip' : CHIP8_SYSTEM)
    (h : chip8_load_rom chip filename = .ok chip') : chip'.io = chip.io := by
  unfold chip8_load_rom at h
  obtain ⟨memory, _, h⟩ := bind_eq_ok _ _ _ h
  cases h
  rfl

/-- A cycle without out-of-range access keeps every framebuffer cell 0 or 1. -/
theorem chip8_cycle_binary (rnd : Nat) (chip : CPU) (io : IOState) (chip' : CPU)
    (io' : IOState) (hb : binaryDisplay io)
    (h : chip8_cycle rnd chip io = .ok (chip', io')) : binaryDisplay io' := by
  simp only [chip8_cycle] at h
  obtain ⟨op, _, h⟩ := bind_eq_ok _ _ _ h
  exact execute_binary _ _ _ _ _ _ hb h

theorem chip8_tick_timers_binary (io : IOState) (hb : binaryDisplay io) :
    binaryDisplay (chip8_tick_timers io) := by
  have hd : (chip8_tick_timers io).display = io.display := by
    by_cases h1 : io.delay_timer > 0 <;> by_cases h2 : io.sound_timer > 0 <;>
      simp only [chip8_tick_timers, h1, h2, if_true, if_false]
  intro i hi
  rw [hd]
  exact hb i hi

theorem chip8_load_rom_binary (chip : CHIP8_SYSTEM) (filename : String)
    (chip' : CHIP8_SYSTEM) (hb : binaryDisplay chip.io)
    (h : chip8_load_rom chip filename = .ok chip') : binaryDisplay chip'.io := by
  rw [chip8_load_rom_io chip filename chip' h]
  exact hb

/-! ## The accesses of `Dxyn` -/

theorem bind_eq_error {α β : Type} (x : Except Undefined α) (f : α → Except Undefined β)
    (e : Undefined) (h : (x >>= f) = .error e) :
    x = .error e ∨ ∃ a, x = .ok a ∧ f a = .error e := by
  cases x with
  | error e' =>
    left
    simp only [bind, Except.bind] at h
    cases h
    rfl
  | ok a => exact Or.inr ⟨a, rfl, h⟩

theorem readMemory_error (chip : CPU) (i : Nat) (e : Undefined)
    (h : readMemory chip i = .error e) : 5120 ≤ i ∧ e = Undefined.memory i := by
  unfold readMemory at h
  split at h
  · cases h
  · cases h
    exact ⟨by omega, rfl⟩

/-- The inner loop of `Dxyn` on a screen line `y < 32` makes no out-of-range
framebuffer access: it can only be undefined by reading a sprite byte outside
memory. -/
theorem drawCols_error (x_start y row : Nat) (hy : y < 32) :
    ∀ (todo col : Nat) (chip : CPU) (io : IOState) (e : Undefined),
      drawCols x_start y row todo col chip io = .error e →
      ∃ a, 5120 ≤ a ∧ e = Undefined.memory a := by
  intro todo
  induction todo with
  | zero =>
    intro col chip io e h
    simp only [drawCols] at h
    cases h
  | succ todo ih =>
    intro col chip io e h
    simp only [drawCols] at h
    split at h
    · cases h
    · rename_i hx
      rcases bind_eq_error _ _ _ h with h | ⟨b, _, h⟩
      · obtain ⟨h1, h2⟩ := readMemory_error _ _ _ h
        exact ⟨_, h1, h2⟩
      · have hidx : (y * 64 + (x_start + col) % 256) % 65536 < 2048 := by omega
        simp only [readDisplay, writeDisplay, if_pos hidx] at h
        exact ih _ _ _ _ h

/-- The outer loop of `Dxyn` makes no out-of-range framebuffer access. -/
theorem drawRows_error (x_start y_start : Nat) :
    ∀ (todo row : Nat) (chip : CPU) (io : IOState) (e : Undefined),
      drawRows x_start y_start todo row chip io = .error e →
      ∃ a, 5120 ≤ a ∧ e = Undefined.memory a := by
  intro todo
  induction todo with
  | zero =>
    intro row chip io e h
    simp only [drawRows] at h
    cases h
  | succ todo ih =>
    intro row chip io e h
    simp only [drawRows] at h
    split at h
    · cases h
    · rename_i hy
      rcases bind_eq_error _ _ _ h with h | ⟨⟨chip1, io1⟩, _, h⟩
      · exact drawCols_error _ _ _ (by omega) _ _ _ _ _ h
      · exact ih _ _ _ _ h

/-! ## What the stores `Fx33` and `Fx55` write -/

theorem writeMemory_ok (chip chip' : CPU) (i v : Nat) (h : writeMemory chip i v = .ok chip') :
    i < 5120 ∧ chip' = { chip with memory := store chip.memory i (v % 256) } := by
  unfold writeMemory at h
  split at h
  · rename_i hi
    cases h
    exact ⟨hi, rfl⟩
  · cases h

theorem execKeys_other (op x : Nat) (chip : CPU) (io : IOState) (h1 : op % 256 ≠ 0xA1)
    (h2 : op % 256 ≠ 0x9E) : execKeys op x chip io = .ok chip := by
  unfold execKeys
  rw [decode_immediate_value]
  split
  · rename_i h; exact absurd h h1
  · rename_i h; exact absurd h h2
  · rfl

/-- A store opcode runs the user switch of `case 0xF`, directly or through the
missing `break` of `case 0xE`. -/
theorem execute_store (rnd op : Nat) (chip : CPU) (io : IOState) (hs : isStore op = true) :
    execute rnd op chip io = execUser (op / 256 % 16) (op % 256) chip io := by
  simp only [isStore, Bool.and_eq_true, Bool.or_eq_true, beq_iff_eq, bne_iff_ne, ne_eq] at hs
  obtain ⟨⟨hfam, hx0⟩, hnn⟩ := hs
  rw [execute_unfold]
  rcases hfam with hfam | hfam
  · rw [hfam]
    simp only [execF, decide_eq_true_eq, hx0, if_false]
  · rw [hfam]
    simp only [execKeys_other op _ chip io (by omega) (by omega), bind, Except.bind, execF,
      decide_eq_true_eq, hx0, if_false]

/-- The three bytes that `Fx33` writes. -/
theorem execUser_bcd_written (x : Nat) (chip : CPU) (io : IOState) (chip' : CPU)
    (io' : IOState) (h : execUser x 0x33 chip io = .ok (chip', io')) :
    chip'.memory chip.I = chip.V x % 256 / 100 ∧
      chip'.memory (chip.I + 1) = chip.V x % 256 / 10 % 10 ∧
      chip'.memory (chip.I + 2) = chip.V x % 256 % 10 := by
  simp only [execUser] at h
  obtain ⟨c1, h1, h⟩ := bind_eq_ok _ _ _ h
  obtain ⟨c2, h2, h⟩ := bind_eq_ok _ _ _ h
  obtain ⟨c3, h3, h⟩ := bind_eq_ok _ _ _ h
  obtain ⟨_, e1⟩ := writeMemory_ok _ _ _ _ h1
  subst e1
  obtain ⟨_, e2⟩ := writeMemory_ok _ _ _ _ h2
  subst e2
  obtain ⟨_, e3⟩ := writeMemory_ok _ _ _ _ h3
  subst e3
  cases h
  refine ⟨?_, ?_, ?_⟩
  · show store (store (store chip.memory chip.I _) (chip.I + 1) _) (chip.I + 2) _ chip.I = _
    simp only [store]
    (try split_ifs) <;> omega
  · show store (store (store chip.memory chip.I _) (chip.I + 1) _) (chip.I + 2) _ (chip.I + 1)
      = _
    simp only [store]
    (try split_ifs) <;> omega
  · show store (store (store chip.memory chip.I _) (chip.I + 1) _) (chip.I + 2) _ (chip.I + 2)
      = _
    simp only [store]
    (try split_ifs) <;> omega

/-- The bytes that the loop of `Fx55` writes. -/
theorem storeRegsLoop_written :
    ∀ (todo reg : Nat) (chip chip' : CPU), reg + todo < 256 →
      storeRegsLoop todo reg chip = .ok chip' →
      ∀ r, reg ≤ r → r < reg + todo → chip'.memory (chip.I + r) = chip.V r % 256 := by
  intro todo
  induction todo with
  | zero => intro reg chip chip' _ _ r h1 h2; omega
  | succ todo ih =>
    intro reg chip chip' hb h r h1 h2
    simp only [storeRegsLoop] at h
    obtain ⟨chip1, hw, h⟩ := bind_eq_ok _ _ _ h
    obtain ⟨_, e1⟩ := writeMemory_ok _ _ _ _ hw
    subst e1
    have hr : (reg + 1) % 256 = reg + 1 := by omega
    rw [hr] at h
    by_cases hreg : r = reg
    · subst hreg
      obtain ⟨_, hk⟩ := storeRegsLoop_keeps todo (r + 1) _ _ (by omega) h
      have := hk.2 (chip.I + r) (Or.inl (by show chip.I + r < chip.I + (r + 1); omega))
      rw [this]
      show store chip.memory (chip.I + r) (chip.V r % 256) (chip.I + r) = _
      simp only [store, if_true]
    · exact ih (reg + 1) _ chip' (by omega) h r (by omega) (by omega)

/-- A store opcode whose range `[I, I + storeExtent]` lies inside memory is
carried out. -/
theorem execUser_store_ok (x nn : Nat) (chip : CPU) (io : IOState) (hx : x < 16)
    (hnn : nn = 0x33 ∨ nn = 0x55)
    (hin : chip.I + (if nn = 0x33 then 2 else x) < 5120) :
    ∃ chip' io', execUser x nn chip io = .ok (chip', io') := by
  rcases hnn with hnn | hnn
  · subst hnn
    rw [if_pos rfl] at hin
    have hI0 : chip.I < 5120 := by omega
    have hI1 : chip.I + 1 < 5120 := by omega
    simp only [execUser, writeMemory, bind, Except.bind, pure, Except.pure, if_pos hI0,
      if_pos hI1, if_pos hin]
    exact ⟨_, _, rfl⟩
  · subst hnn
    rw [if_neg (by norm_num)] at hin
    simp only [execUser]
    rw [storeRegsLoop_spec (x + 1) 0 chip (by omega) (by omega)]
    exact ⟨_, _, rfl⟩

/-! ## The claims -/

/-- C1: for every register selector `x` in 0..15 and every byte `nn`, one
`chip8_cycle` on a state whose bytes at `pc`, `pc + 1` are `0x6x`, `nn` ends
with `V[x] = nn`, every other register unchanged, and `pc` advanced by 2. -/
theorem C1_load_immediate (rnd x nn : Nat) (chip : CPU) (io : IOState)
    (hx : x < 16) (hnn : nn < 256) (hpc : chip.pc + 1 < 5120)
    (hhi : chip.memory chip.pc = 0x60 + x) (hlo : chip.memory (chip.pc + 1) = nn) :
    ∃ chip' io', chip8_cycle rnd chip io = .ok (chip', io') ∧
      chip'.V x = nn ∧ (∀ r, r ≠ x → chip'.V r = chip.V r) ∧ chip'.pc = chip.pc + 2 := by
  rw [chip8_cycle_eq rnd chip io (0x60 + x) nn hpc hhi hlo (by omega) hnn, execute_unfold]
  have h1 : ((0x60 + x) * 256 + nn) / 4096 % 16 = 6 := by omega
  have h2 : ((0x60 + x) * 256 + nn) / 256 % 16 = x := by omega
  have h3 : ((0x60 + x) * 256 + nn) % 256 = nn := by omega
  rw [h1, h2, h3]
  refine ⟨_, _, rfl, ?_, ?_, rfl⟩
  · simp [setV, store, Nat.mod_eq_of_lt hnn]
  · intro r hr
    simp [setV, store, hr]

/-- C1 at the opcode `6A02` stored at 0x200: `V[10]` becomes 2. -/
theorem C1_load_immediate_witness :
    ∃ chip' io', chip8_cycle 0 (cpuWith [0x6A, 0x02]) ioZero = .ok (chip', io') ∧
      chip'.V 10 = 2 ∧ (∀ r, r ≠ 10 → chip'.V r = (cpuWith [0x6A, 0x02]).V r) ∧
      chip'.pc = (cpuWith [0x6A, 0x02]).pc + 2 :=
  C1_load_immediate 0 10 2 (cpuWith [0x6A, 0x02]) ioZero (by decide) (by decide) (by decide)
    (by decide) (by decide)

/-- C2, as stated, fails: between the call `2FFE` and the return `00EE` the
state below executes `F000`, which is neither a call nor a return; it clears
the stack and `sp`, and the return then decrements `sp` from 0 to 255 and
reads `stack[255]`. -/
theorem C2_counterexample :
    ∃ chip1 io1 chip2 io2, resetBetweenCPU.sp < 16 ∧
      fetch resetBetweenCPU = .ok 0x2FFE ∧
      chip8_cycle 0 resetBetweenCPU ioZero = .ok (chip1, io1) ∧
      fetch chip1 = .ok 0xF000 ∧
      runAvoiding isCallOrReturn (fun _ => 0) 1 chip1 io1 = some (chip2, io2) ∧
      fetch chip2 = .ok 0x00EE ∧
      chip8_cycle 0 chip2 io2 = .error (Undefined.stack 255) :=
  ⟨_, _, _, _, by decide, rfl, rfl, rfl, rfl, rfl, rfl⟩

/-- C2, amended: for every state with `sp < 16` and every address `nnn`, the
call `2nnn` fetched at `pc` succeeds, and after any run of cycles none of which
is a call, a return or the syscall 0 (`F000`, or `E000` which falls through to
it), the return `00EE` succeeds and leaves `pc` at the address after the call
and `sp` at its value before the call. -/
theorem C2_call_return_round_trip (rnd1 rnd2 : Nat) (rnd : Nat → Nat) (nnn k : Nat)
    (chip : CPU) (io : IOState)
    (hsp : chip.sp < 16) (hnnn : nnn < 4096) (hpc : chip.pc + 1 < 5120)
    (hhi : chip.memory chip.pc = 0x20 + nnn / 256)
    (hlo : chip.memory (chip.pc + 1) = nnn % 256) :
    ∃ chip1 io1, chip8_cycle rnd1 chip io = .ok (chip1, io1) ∧
      chip1.pc = nnn ∧ chip1.sp = chip.sp + 1 ∧
      ∀ chip2 io2, runAvoiding touchesStack rnd k chip1 io1 = some (chip2, io2) →
        fetch chip2 = .ok 0x00EE →
        ∃ chip3 io3, chip8_cycle rnd2 chip2 io2 = .ok (chip3, io3) ∧
          chip3.pc = chip.pc + 2 ∧ chip3.sp = chip.sp := by
  rw [chip8_cycle_eq rnd1 chip io (0x20 + nnn / 256) (nnn % 256) hpc hhi hlo (by omega)
    (by omega), execute_unfold]
  have h1 : ((0x20 + nnn / 256) * 256 + nnn % 256) / 4096 % 16 = 2 := by omega
  have h2 : ((0x20 + nnn / 256) * 256 + nnn % 256) % 4096 = nnn := by omega
  have h3 : (chip.sp + 1) % 256 = chip.sp + 1 := by omega
  have h4 : (chip.pc + 2) % 65536 = chip.pc + 2 := by omega
  rw [h1, h2]
  simp only [writeStack, if_pos hsp, bind, Except.bind, pure, Except.pure, h3, h4]
  refine ⟨_, _, rfl, rfl, rfl, ?_⟩
  intro chip2 io2 hrun hret
  obtain ⟨hst, hsp2⟩ := runAvoiding_sameStack rnd k _ _ _ _ hrun
  simp only at hst hsp2
  have h5 : (chip2.sp + 256 - 1) % 256 = chip.sp := by omega
  have h6 : (0x00EE / 4096) % 16 = 0 := by norm_num
  simp only [chip8_cycle, hret, bind, Except.bind, execute_unfold, h6, execZero, readStack,
    h5, if_pos hsp, pure, Except.pure, hst, store]
  exact ⟨_, _, rfl, by simp, rfl⟩

/-- C2 amended, for the call `2206` at 0x200 followed by `6A02` at 0x206 and
the return at 0x208; the second part exhibits the run in between. -/
theorem C2_call_return_round_trip_witness :
    (∃ chip1 io1, chip8_cycle 0 callCPU ioZero = .ok (chip1, io1) ∧
      chip1.pc = 0x206 ∧ chip1.sp = callCPU.sp + 1 ∧
      ∀ chip2 io2, runAvoiding touchesStack (fun _ => 0) 1 chip1 io1 = some (chip2, io2) →
        fetch chip2 = .ok 0x00EE →
        ∃ chip3 io3, chip8_cycle 0 chip2 io2 = .ok (chip3, io3) ∧
          chip3.pc = callCPU.pc + 2 ∧ chip3.sp = callCPU.sp) ∧
    (∃ chip1 io1 chip2 io2, chip8_cycle 0 callCPU ioZero = .ok (chip1, io1) ∧
      runAvoiding touchesStack (fun _ => 0) 1 chip1 io1 = some (chip2, io2) ∧
      fetch chip2 = .ok 0x00EE) :=
  ⟨C2_call_return_round_trip 0 0 (fun _ => 0) 0x206 1 callCPU ioZero (by decide) (by decide)
    (by decide) (by decide) (by decide), ⟨_, _, _, _, rfl, rfl, rfl⟩⟩

/-- C3: executing the same `Dxyn` twice in a row (stored at `pc` and `pc + 2`,
the `n` sprite bytes inside memory, the framebuffer cells bytes as in
`uint8_t display[2048]`) leaves each of the 2048 framebuffer cells equal to its
value before the first draw. -/
theorem C3_draw_twice_restores_framebuffer (rnd1 rnd2 x y n : Nat) (chip : CPU) (io : IOState)
    (hx : x < 16) (hy : y < 16) (hn : n < 16) (hpc : chip.pc + 3 < 5120)
    (h0 : chip.memory chip.pc = 0xD0 + x) (h1 : chip.memory (chip.pc + 1) = y * 16 + n)
    (h2 : chip.memory (chip.pc + 2) = 0xD0 + x)
    (h3 : chip.memory (chip.pc + 3) = y * 16 + n)
    (hin : ∀ r, r < n → chip.I + r < 5120)
    (hbytes : ∀ i, i < 2048 → io.display i < 256) :
    ∃ chip1 io1 chip2 io2, chip8_cycle rnd1 chip io = .ok (chip1, io1) ∧
      chip8_cycle rnd2 chip1 io1 = .ok (chip2, io2) ∧
      ∀ i, i < 2048 → io2.display i = io.display i := by
  obtain ⟨chip1, io1, e1, e2⟩ :=
    chip8_cycle_draw_twice rnd1 rnd2 x y n chip io hx hy hn hpc h0 h1 h2 h3 hin
  exact ⟨chip1, io1, _, _, e1, e2, fun i hi => drawnDisplay_twice _ _ _ _ _ _ (hbytes i hi)⟩

/-- C3 at the program `D0 01 D0 01` drawing the sprite `0x80` over a
framebuffer whose top-left cell is set. -/
theorem C3_draw_twice_restores_framebuffer_witness :
    ∃ chip1 io1 chip2 io2, chip8_cycle 0 drawTwiceCPU ioCorner = .ok (chip1, io1) ∧
      chip8_cycle 0 chip1 io1 = .ok (chip2, io2) ∧
      ∀ i, i < 2048 → io2.display i = ioCorner.display i :=
  C3_draw_twice_restores_framebuffer 0 0 0 0 1 drawTwiceCPU ioCorner (by decide) (by decide)
    (by decide) (by decide) (by decide) (by decide) (by decide) (by decide)
    (by decide) (fun i _ => by simp only [ioCorner]; split <;> omega)

/-- C4, as stated, fails: the sprite `0x80` drawn twice at (0, 0) over a
framebuffer whose top-left cell is set collides on the first draw, clears the
cell, and leaves `V[15] = 0` after the second draw. -/
theorem C4_counterexample :
    ∃ chip1 io1 chip2 io2, chip8_cycle 0 drawTwiceCPU ioCorner = .ok (chip1, io1) ∧
      chip8_cycle 0 chip1 io1 = .ok (chip2, io2) ∧ chip1.V 15 = 1 ∧ chip2.V 15 = 0 :=
  ⟨_, _, _, _, rfl, rfl, rfl, rfl⟩

/-- C4, amended: when the same `Dxyn` is executed twice in a row, `V[15]` is 1
after the second execution exactly when some sprite bit that is 1 falls,
inside the grid, on a cell that held 0 before the first draw; otherwise it
is 0. -/
theorem C4_second_draw_flag (rnd1 rnd2 x y n : Nat) (chip : CPU) (io : IOState)
    (hx : x < 16) (hy : y < 16) (hn : n < 16) (hpc : chip.pc + 3 < 5120)
    (h0 : chip.memory chip.pc = 0xD0 + x) (h1 : chip.memory (chip.pc + 1) = y * 16 + n)
    (h2 : chip.memory (chip.pc + 2) = 0xD0 + x)
    (h3 : chip.memory (chip.pc + 3) = y * 16 + n)
    (hin : ∀ r, r < n → chip.I + r < 5120)
    (hbytes : ∀ i, i < 2048 → io.display i < 256) :
    ∃ chip1 io1 chip2 io2, chip8_cycle rnd1 chip io = .ok (chip1, io1) ∧
      chip8_cycle rnd2 chip1 io1 = .ok (chip2, io2) ∧
      (chip2.V 15 = 1 ↔ spriteMeets chip (drawX chip x) (drawY chip y) 0 n io.display 0) ∧
      (chip2.V 15 = 0 ↔ ¬ spriteMeets chip (drawX chip x) (drawY chip y) 0 n io.display 0) := by
  obtain ⟨chip1, io1, e1, e2⟩ :=
    chip8_cycle_draw_twice rnd1 rnd2 x y n chip io hx hy hn hpc h0 h1 h2 h3 hin
  refine ⟨chip1, io1, _, _, e1, e2, ?_⟩
  have hm := spriteMeets_after_draw chip (drawX chip x) (drawY chip y) n io.display hbytes
  by_cases h : spriteMeets chip (drawX chip x) (drawY chip y) 0 n io.display 0
  · simp [hm, h, store]
  · simp [hm, h, store]

/-- C4 amended, at the sprite `0x80` drawn twice at (0, 0) over an empty
framebuffer. -/
theorem C4_second_draw_flag_witness :
    ∃ chip1 io1 chip2 io2, chip8_cycle 0 drawTwiceCPU ioZero = .ok (chip1, io1) ∧
      chip8_cycle 0 chip1 io1 = .ok (chip2, io2) ∧
      (chip2.V 15 = 1 ↔
        spriteMeets drawTwiceCPU (drawX drawTwiceCPU 0) (drawY drawTwiceCPU 0) 0 1
          ioZero.display 0) ∧
      (chip2.V 15 = 0 ↔
        ¬ spriteMeets drawTwiceCPU (drawX drawTwiceCPU 0) (drawY drawTwiceCPU 0) 0 1
          ioZero.display 0) :=
  C4_second_draw_flag 0 0 0 0 1 drawTwiceCPU ioZero (by decide) (by decide)
    (by decide) (by decide) (by decide) (by decide) (by decide) (by decide)
    (by decide) (fun _ _ => by show (0 : Nat) < 256; decide)

/-- C5: for every `x` in 1..15, every byte `v = V[x]` and every `I` with
`I + 2 < 5120`, one `chip8_cycle` on `Fx33` stores `v / 100`, `(v / 10) % 10`
and `v % 10` at `I`, `I + 1`, `I + 2` (digits at most 9 that recompose `v`) and
changes no other memory byte. -/
theorem C5_bcd (rnd x : Nat) (chip : CPU) (io : IOState)
    (hx1 : 1 ≤ x) (hx : x < 16) (hv : chip.V x < 256) (hI : chip.I + 2 < 5120)
    (hpc : chip.pc + 1 < 5120)
    (hhi : chip.memory chip.pc = 0xF0 + x) (hlo : chip.memory (chip.pc + 1) = 0x33) :
    ∃ chip' io', chip8_cycle rnd chip io = .ok (chip', io') ∧
      chip'.memory chip.I = chip.V x / 100 ∧
      chip'.memory (chip.I + 1) = (chip.V x / 10) % 10 ∧
      chip'.memory (chip.I + 2) = chip.V x % 10 ∧
      chip'.memory chip.I ≤ 9 ∧ chip'.memory (chip.I + 1) ≤ 9 ∧ chip'.memory (chip.I + 2) ≤ 9 ∧
      100 * chip'.memory chip.I + 10 * chip'.memory (chip.I + 1) + chip'.memory (chip.I + 2)
        = chip.V x ∧
      ∀ a, a ≠ chip.I → a ≠ chip.I + 1 → a ≠ chip.I + 2 → chip'.memory a = chip.memory a := by
  rw [chip8_cycle_eq rnd chip io (0xF0 + x) 0x33 hpc hhi hlo (by omega) (by norm_num),
    execute_unfold]
  have h1 : ((0xF0 + x) * 256 + 0x33) / 4096 % 16 = 0xF := by omega
  have h2 : ((0xF0 + x) * 256 + 0x33) / 256 % 16 = x := by omega
  have h3 : ((0xF0 + x) * 256 + 0x33) % 256 = 0x33 := by omega
  have h4 : ¬ x = 0 := by omega
  have hI0 : chip.I < 5120 := by omega
  have hI1 : chip.I + 1 < 5120 := by omega
  have hm : chip.V x % 256 = chip.V x := Nat.mod_eq_of_lt hv
  have e0 : chip.V x / 100 % 256 % 256 = chip.V x / 100 := by omega
  have e1 : chip.V x / 10 % 10 % 256 % 256 = chip.V x / 10 % 10 := by omega
  have e2 : chip.V x % 10 % 256 % 256 = chip.V x % 10 := by omega
  rw [h1, h2, h3]
  simp only [execF, decide_eq_true_eq, h4, if_false, execUser, writeMemory, bind, Except.bind,
    pure, Except.pure, if_pos hI0, if_pos hI1, if_pos hI, hm, e0, e1, e2]
  refine ⟨_, _, rfl, ?_, ?_, ?_, ?_⟩
  · simp [store]
  · simp [store]
  · simp [store]
  · have s0 : store (store (store chip.memory chip.I (chip.V x / 100)) (chip.I + 1)
        (chip.V x / 10 % 10)) (chip.I + 2) (chip.V x % 10) chip.I = chip.V x / 100 := by
      simp [store]
    have s1 : store (store (store chip.memory chip.I (chip.V x / 100)) (chip.I + 1)
        (chip.V x / 10 % 10)) (chip.I + 2) (chip.V x % 10) (chip.I + 1)
          = chip.V x / 10 % 10 := by
      simp [store]
    have s2 : store (store (store chip.memory chip.I (chip.V x / 100)) (chip.I + 1)
        (chip.V x / 10 % 10)) (chip.I + 2) (chip.V x % 10) (chip.I + 2) = chip.V x % 10 := by
      simp [store]
    simp only [s0, s1, s2]
    refine ⟨by omega, by omega, by omega, by omega, ?_⟩
    intro a ha0 ha1 ha2
    simp [store, ha0, ha1, ha2]

/-- C5 at the opcode `F133` with `V[1] = 156` and `I = 0x300`. -/
theorem C5_bcd_witness :
    ∃ chip' io',
      chip8_cycle 0 { cpuWith [0xF1, 0x33] with V := fun _ => 156, I := 0x300 } ioZero
        = .ok (chip', io') ∧
      chip'.memory 0x300 = 156 / 100 ∧
      chip'.memory (0x300 + 1) = (156 / 10) % 10 ∧
      chip'.memory (0x300 + 2) = 156 % 10 ∧
      chip'.memory 0x300 ≤ 9 ∧ chip'.memory (0x300 + 1) ≤ 9 ∧ chip'.memory (0x300 + 2) ≤ 9 ∧
      100 * chip'.memory 0x300 + 10 * chip'.memory (0x300 + 1) + chip'.memory (0x300 + 2)
        = 156 ∧
      ∀ a, a ≠ 0x300 → a ≠ 0x300 + 1 → a ≠ 0x300 + 2 →
        chip'.memory a = (cpuWith [0xF1, 0x33]).memory a :=
  C5_bcd 0 1 { cpuWith [0xF1, 0x33] with V := fun _ => 156, I := 0x300 } ioZero
    (by decide) (by decide) (by decide) (by decide) (by decide) (by decide) (by decide)

/-- C6: when entry `k` is the first of the first `file_count` disk entries
named `filename` and its size is at most 512, `chip8_load_rom` leaves
`memory[0x200 + i] = data[i]` for every `i < size`, `pc = 0x200` and
`running = true`. -/
theorem C6_load_rom_copies (chip : CHIP8_SYSTEM) (filename : String) (k : Nat)
    (hk : (k : Int) < chip.io.disk.file_count) (hk4 : k < 4)
    (hname : (chip.io.disk.files k).name = some filename)
    (hfirst : ∀ j, j < k → ∃ nm, (chip.io.disk.files j).name = some nm ∧ nm ≠ filename)
    (hsize : (chip.io.disk.files k).size ≤ 512) :
    ∃ chip', chip8_load_rom chip filename = .ok chip' ∧
      (∀ i, i < (chip.io.disk.files k).size →
        chip'.cpu.memory (0x200 + i) = (chip.io.disk.files k).data i) ∧
      chip'.cpu.pc = 0x200 ∧ chip'.running = true := by
  rw [chip8_load_rom_found chip filename k hk hk4 hname hfirst]
  simp only [memcpyRom, if_neg (by omega : ¬ 0x200 + (chip.io.disk.files k).size > 5120),
    if_neg (by omega : ¬ (chip.io.disk.files k).size > 512), Except.map]
  refine ⟨_, rfl, ?_, rfl, rfl⟩
  intro i hi
  simp only [if_pos (show 0x200 ≤ 0x200 + i ∧ 0x200 + i < 0x200 + (chip.io.disk.files k).size
    from ⟨by omega, by omega⟩), Nat.add_sub_cancel_left]

/-- C6 for the entry "Tetris", the second of two entries. -/
theorem C6_load_rom_copies_witness :
    ∃ chip', chip8_load_rom demoSystem "Tetris" = .ok chip' ∧
      (∀ i, i < (demoSystem.io.disk.files 1).size →
        chip'.cpu.memory (0x200 + i) = (demoSystem.io.disk.files 1).data i) ∧
      chip'.cpu.pc = 0x200 ∧ chip'.running = true :=
  C6_load_rom_copies demoSystem "Tetris" 1 (by decide) (by decide) rfl
    (fun j hj => ⟨"Breakout", by
      have h0 : j = 0 := by omega
      subst h0
      exact ⟨rfl, by decide⟩⟩)
    (by decide)

/-- C7: when `filename` is the name of none of the first `file_count` disk
entries (at most 4 of them, each with a name), `chip8_load_rom` leaves every
memory byte unchanged. -/
theorem C7_load_rom_absent_memory (chip : CHIP8_SYSTEM) (filename : String)
    (hcount : chip.io.disk.file_count ≤ 4)
    (hnames : ∀ j : Nat, (j : Int) < chip.io.disk.file_count →
      (chip.io.disk.files j).name ≠ none)
    (habsent : ∀ j : Nat, (j : Int) < chip.io.disk.file_count →
      (chip.io.disk.files j).name ≠ some filename) :
    ∃ chip', chip8_load_rom chip filename = .ok chip' ∧
      ∀ a, a < 5120 → chip'.cpu.memory a = chip.cpu.memory a := by
  rw [chip8_load_rom_absent chip filename hcount hnames habsent]
  exact ⟨_, rfl, fun _ _ => rfl⟩

theorem demoDisk_names (j : Nat) (hj : (j : Int) < demoSystem.io.disk.file_count) :
    (demoSystem.io.disk.files j).name ≠ none ∧
      (demoSystem.io.disk.files j).name ≠ some "Pong" := by
  have h2 : j < 2 := by
    have : demoSystem.io.disk.file_count = 2 := rfl
    omega
  interval_cases j
  · exact ⟨by decide, by decide⟩
  · exact ⟨by decide, by decide⟩

/-- C7 for the name "Pong", which is on no entry of the disk. -/
theorem C7_load_rom_absent_memory_witness :
    ∃ chip', chip8_load_rom demoSystem "Pong" = .ok chip' ∧
      ∀ a, a < 5120 → chip'.cpu.memory a = demoSystem.cpu.memory a :=
  C7_load_rom_absent_memory demoSystem "Pong" (by decide)
    (fun j hj => (demoDisk_names j hj).1) (fun j hj => (demoDisk_names j hj).2)

/-- C8, as stated, fails: loading the absent name "Pong" into the zeroed
system returns normally with `pc` moved from 0 to 0x200 and `running` switched
from false to true. -/
theorem C8_counterexample :
    ∃ chip', demoSystem.io.disk.file_count = 2 ∧
      (demoSystem.io.disk.files 0).name = some "Breakout" ∧
      (demoSystem.io.disk.files 1).name = some "Tetris" ∧
      chip8_load_rom demoSystem "Pong" = .ok chip' ∧
      demoSystem.cpu.pc = 0 ∧ chip'.cpu.pc = 0x200 ∧
      demoSystem.running = false ∧ chip'.running = true :=
  ⟨_, rfl, rfl, rfl, rfl, rfl, rfl, rfl, rfl⟩

/-- C8, amended: when the named entry is absent, `chip8_load_rom` returns
without any failure indication; the result is the state before the call with
`pc = 0x200` and `running = true`, so memory, the registers, `I`, the stack,
`sp`, the mode and the whole io state are unchanged. -/
theorem C8_load_rom_absent_state (chip : CHIP8_SYSTEM) (filename : String)
    (hcount : chip.io.disk.file_count ≤ 4)
    (hnames : ∀ j : Nat, (j : Int) < chip.io.disk.file_count →
      (chip.io.disk.files j).name ≠ none)
    (habsent : ∀ j : Nat, (j : Int) < chip.io.disk.file_count →
      (chip.io.disk.files j).name ≠ some filename) :
    chip8_load_rom chip filename
      = .ok { chip with cpu := { chip.cpu with pc := 0x200 }, running := true } :=
  chip8_load_rom_absent chip filename hcount hnames habsent

/-- C8 amended, for the name "Pong". -/
theorem C8_load_rom_absent_state_witness :
    chip8_load_rom demoSystem "Pong"
      = .ok { demoSystem with cpu := { demoSystem.cpu with pc := 0x200 }, running := true } :=
  C8_load_rom_absent_state demoSystem "Pong" (by decide)
    (fun j hj => (demoDisk_names j hj).1) (fun j hj => (demoDisk_names j hj).2)

/-- C9, as stated, fails: for a matched entry of 4609 bytes `chip8_load_rom`
does not return with memory unchanged; it runs the `memcpy`, which writes
past `memory[5119]`. -/
theorem C9_counterexample :
    (oversizeSystem.io.disk.files 0).name = some "Big" ∧
      (oversizeSystem.io.disk.files 0).size > 5120 - 0x200 ∧
      chip8_load_rom oversizeSystem "Big" = .error (Undefined.memory 5120) :=
  ⟨rfl, by decide, rfl⟩

/-- C9, amended: `chip8_load_rom` has no check of the byte count.  For a
matched entry whose size is within the 512-byte `data` buffer the copy
succeeds and every byte it changes lies in `[0x200, 0x200 + size)`, which ends
at or before 0x400, inside memory; for a size above 4608 the `memcpy` is
executed all the same and runs past the end of memory. -/
theorem C9_load_rom_size (chip : CHIP8_SYSTEM) (filename : String) (k : Nat)
    (hk : (k : Int) < chip.io.disk.file_count) (hk4 : k < 4)
    (hname : (chip.io.disk.files k).name = some filename)
    (hfirst : ∀ j, j < k → ∃ nm, (chip.io.disk.files j).name = some nm ∧ nm ≠ filename) :
    ((chip.io.disk.files k).size ≤ 512 →
      ∃ chip', chip8_load_rom chip filename = .ok chip' ∧
        0x200 + (chip.io.disk.files k).size ≤ 0x400 ∧
        ∀ a, chip'.cpu.memory a ≠ chip.cpu.memory a →
          0x200 ≤ a ∧ a < 0x200 + (chip.io.disk.files k).size) ∧
    ((chip.io.disk.files k).size > 5120 - 0x200 →
      chip8_load_rom chip filename = .error (Undefined.memory 5120)) := by
  rw [chip8_load_rom_found chip filename k hk hk4 hname hfirst]
  constructor
  · intro hsize
    simp only [memcpyRom, if_neg (by omega : ¬ 0x200 + (chip.io.disk.files k).size > 5120),
      if_neg (by omega : ¬ (chip.io.disk.files k).size > 512), Except.map]
    refine ⟨_, rfl, by omega, ?_⟩
    intro a ha
    by_contra hout
    exact ha (if_neg hout)
  · intro hsize
    simp only [memcpyRom, if_pos (by omega : 0x200 + (chip.io.disk.files k).size > 5120),
      Except.map]

/-- C9 amended, for the entry "Tetris" (10 bytes). -/
theorem C9_load_rom_size_witness :
    ((demoSystem.io.disk.files 1).size ≤ 512 →
      ∃ chip', chip8_load_rom demoSystem "Tetris" = .ok chip' ∧
        0x200 + (demoSystem.io.disk.files 1).size ≤ 0x400 ∧
        ∀ a, chip'.cpu.memory a ≠ demoSystem.cpu.memory a →
          0x200 ≤ a ∧ a < 0x200 + (demoSystem.io.disk.files 1).size) ∧
    ((demoSystem.io.disk.files 1).size > 5120 - 0x200 →
      chip8_load_rom demoSystem "Tetris" = .error (Undefined.memory 5120)) :=
  C9_load_rom_size demoSystem "Tetris" 1 (by decide) (by decide) rfl
    (fun j hj => ⟨"Breakout", by
      have h0 : j = 0 := by omega
      subst h0
      exact ⟨rfl, by decide⟩⟩)

/-- C10: a `chip8_load_rom` that finds the entry (the first one named
`filename`, of size at most 512) leaves the io state unchanged, in particular
every disk entry, `file_count`, the framebuffer, the timers and the keys, and
leaves unchanged every memory byte outside `[0x200, 0x200 + size)`, the
registers, `I`, the stack and `sp`. -/
theorem C10_load_rom_frame (chip : CHIP8_SYSTEM) (filename : String) (k : Nat)
    (hk : (k : Int) < chip.io.disk.file_count) (hk4 : k < 4)
    (hname : (chip.io.disk.files k).name = some filename)
    (hfirst : ∀ j, j < k → ∃ nm, (chip.io.disk.files j).name = some nm ∧ nm ≠ filename)
    (hsize : (chip.io.disk.files k).size ≤ 512) :
    ∃ chip', chip8_load_rom chip filename = .ok chip' ∧
      chip'.io = chip.io ∧
      (∀ j, (chip'.io.disk.files j).name = (chip.io.disk.files j).name ∧
        (chip'.io.disk.files j).data = (chip.io.disk.files j).data ∧
        (chip'.io.disk.files j).size = (chip.io.disk.files j).size ∧
        (chip'.io.disk.files j).loaded = (chip.io.disk.files j).loaded) ∧
      chip'.io.disk.file_count = chip.io.disk.file_count ∧
      (∀ a, ¬ (0x200 ≤ a ∧ a < 0x200 + (chip.io.disk.files k).size) →
        chip'.cpu.memory a = chip.cpu.memory a) ∧
      chip'.cpu.V = chip.cpu.V ∧ chip'.cpu.I = chip.cpu.I ∧
      chip'.cpu.stack = chip.cpu.stack ∧ chip'.cpu.sp = chip.cpu.sp ∧
      chip'.io.display = chip.io.display ∧ chip'.io.delay_timer = chip.io.delay_timer ∧
      chip'.io.sound_timer = chip.io.sound_timer ∧ chip'.io.keys = chip.io.keys := by
  rw [chip8_load_rom_found chip filename k hk hk4 hname hfirst]
  simp only [memcpyRom, if_neg (by omega : ¬ 0x200 + (chip.io.disk.files k).size > 5120),
    if_neg (by omega : ¬ (chip.io.disk.files k).size > 512), Except.map]
  refine ⟨_, rfl, rfl, fun _ => ⟨rfl, rfl, rfl, rfl⟩, rfl, ?_, rfl, rfl, rfl, rfl, rfl, rfl,
    rfl, rfl⟩
  intro a ha
  exact if_neg ha

/-- C10 for the entry "Breakout", the first entry of the disk. -/
theorem C10_load_rom_frame_witness :
    ∃ chip', chip8_load_rom demoSystem "Breakout" = .ok chip' ∧
      chip'.io = demoSystem.io ∧
      (∀ j, (chip'.io.disk.files j).name = (demoSystem.io.disk.files j).name ∧
        (chip'.io.disk.files j).data = (demoSystem.io.disk.files j).data ∧
        (chip'.io.disk.files j).size = (demoSystem.io.disk.files j).size ∧
        (chip'.io.disk.files j).loaded = (demoSystem.io.disk.files j).loaded) ∧
      chip'.io.disk.file_count = demoSystem.io.disk.file_count ∧
      (∀ a, ¬ (0x200 ≤ a ∧ a < 0x200 + (demoSystem.io.disk.files 0).size) →
        chip'.cpu.memory a = demoSystem.cpu.memory a) ∧
      chip'.cpu.V = demoSystem.cpu.V ∧ chip'.cpu.I = demoSystem.cpu.I ∧
      chip'.cpu.stack = demoSystem.cpu.stack ∧ chip'.cpu.sp = demoSystem.cpu.sp ∧
      chip'.io.display = demoSystem.io.display ∧
      chip'.io.delay_timer = demoSystem.io.delay_timer ∧
      chip'.io.sound_timer = demoSystem.io.sound_timer ∧
      chip'.io.keys = demoSystem.io.keys :=
  C10_load_rom_frame demoSystem "Breakout" 0 (by decide) (by decide) rfl
    (fun j hj => absurd hj (Nat.not_lt_zero j)) (by decide)

/-- C11: after a `chip8_load_rom` that finds the entry (of size between 2 and
512, with bytes in `data[0]`, `data[1]`), `pc = 0x200`, the next `chip8_cycle`
fetches the opcode `256 * data[0] + data[1]`, and dispatches it with
`pc = 0x202`. -/
theorem C11_first_fetch_after_load (rnd : Nat) (chip : CHIP8_SYSTEM) (filename : String)
    (k : Nat) (hk : (k : Int) < chip.io.disk.file_count) (hk4 : k < 4)
    (hname : (chip.io.disk.files k).name = some filename)
    (hfirst : ∀ j, j < k → ∃ nm, (chip.io.disk.files j).name = some nm ∧ nm ≠ filename)
    (hsize2 : 2 ≤ (chip.io.disk.files k).size) (hsize : (chip.io.disk.files k).size ≤ 512)
    (hd0 : (chip.io.disk.files k).data 0 < 256) (hd1 : (chip.io.disk.files k).data 1 < 256) :
    ∃ chip', chip8_load_rom chip filename = .ok chip' ∧ chip'.cpu.pc = 0x200 ∧
      fetch chip'.cpu
        = .ok (256 * (chip.io.disk.files k).data 0 + (chip.io.disk.files k).data 1) ∧
      chip8_cycle rnd chip'.cpu chip'.io
        = execute rnd (256 * (chip.io.disk.files k).data 0 + (chip.io.disk.files k).data 1)
            { chip'.cpu with pc := 0x202 } chip'.io := by
  rw [chip8_load_rom_found chip filename k hk hk4 hname hfirst]
  simp only [memcpyRom, if_neg (by omega : ¬ 0x200 + (chip.io.disk.files k).size > 5120),
    if_neg (by omega : ¬ (chip.io.disk.files k).size > 512), Except.map]
  have m0 : (if 0x200 ≤ 0x200 ∧ 0x200 < 0x200 + (chip.io.disk.files k).size
      then (chip.io.disk.files k).data (0x200 - 0x200) else chip.cpu.memory 0x200)
      = (chip.io.disk.files k).data 0 := if_pos ⟨le_refl _, by omega⟩
  have m1 : (if 0x200 ≤ 0x200 + 1 ∧ 0x200 + 1 < 0x200 + (chip.io.disk.files k).size
      then (chip.io.disk.files k).data (0x200 + 1 - 0x200) else chip.cpu.memory (0x200 + 1))
      = (chip.io.disk.files k).data 1 := if_pos ⟨by omega, by omega⟩
  refine ⟨_, rfl, rfl, ?_, ?_⟩
  · rw [fetch_eq _ ((chip.io.disk.files k).data 0) ((chip.io.disk.files k).data 1)
      (show 0x200 + 1 < 5120 by norm_num) m0 m1 hd0 hd1, Nat.mul_comm]
  · rw [chip8_cycle_eq rnd _ _ ((chip.io.disk.files k).data 0) ((chip.io.disk.files k).data 1)
      (show 0x200 + 1 < 5120 by norm_num) m0 m1 hd0 hd1, Nat.mul_comm]

/-- C11 for the entry "Tetris", whose first two bytes are `A2 B4`. -/
theorem C11_first_fetch_after_load_witness :
    ∃ chip', chip8_load_rom demoSystem "Tetris" = .ok chip' ∧ chip'.cpu.pc = 0x200 ∧
      fetch chip'.cpu
        = .ok (256 * (demoSystem.io.disk.files 1).data 0 + (demoSystem.io.disk.files 1).data 1) ∧
      chip8_cycle 0 chip'.cpu chip'.io
        = execute 0
            (256 * (demoSystem.io.disk.files 1).data 0 + (demoSystem.io.disk.files 1).data 1)
            { chip'.cpu with pc := 0x202 } chip'.io :=
  C11_first_fetch_after_load 0 demoSystem "Tetris" 1 (by decide) (by decide) rfl
    (fun j hj => ⟨"Breakout", by
      have h0 : j = 0 := by omega
      subst h0
      exact ⟨rfl, by decide⟩⟩)
    (by decide) (by decide) (by decide) (by decide)

/-- C12: for every IO state with 8-bit timers, `chip8_tick_timers` turns
`delay_timer` into `delay_timer - 1` when it was positive and leaves it 0
otherwise, does the same, independently, to `sound_timer`, and leaves the
framebuffer, the keys and the disk unchanged. -/
theorem C12_tick_timers (io : IOState) (hd : io.delay_timer < 256)
    (hs : io.sound_timer < 256) :
    (chip8_tick_timers io).delay_timer
        = (if io.delay_timer > 0 then io.delay_timer - 1 else 0) ∧
      (chip8_tick_timers io).sound_timer
        = (if io.sound_timer > 0 then io.sound_timer - 1 else 0) ∧
      (chip8_tick_timers io).display = io.display ∧
      (chip8_tick_timers io).keys = io.keys ∧
      (chip8_tick_timers io).disk = io.disk := by
  unfold chip8_tick_timers
  by_cases h1 : io.delay_timer > 0 <;> by_cases h2 : io.sound_timer > 0 <;>
    simp only [h1, h2, if_true, if_false, and_self, and_true] <;>
    omega

/-- C12 with the delay timer at 0 and the sound timer at 3. -/
theorem C12_tick_timers_witness :
    (chip8_tick_timers { ioZero with sound_timer := 3 }).delay_timer
        = (if ({ ioZero with sound_timer := 3 } : IOState).delay_timer > 0
            then ({ ioZero with sound_timer := 3 } : IOState).delay_timer - 1 else 0) ∧
      (chip8_tick_timers { ioZero with sound_timer := 3 }).sound_timer
        = (if ({ ioZero with sound_timer := 3 } : IOState).sound_timer > 0
            then ({ ioZero with sound_timer := 3 } : IOState).sound_timer - 1 else 0) ∧
      (chip8_tick_timers { ioZero with sound_timer := 3 }).display
        = ({ ioZero with sound_timer := 3 } : IOState).display ∧
      (chip8_tick_timers { ioZero with sound_timer := 3 }).keys
        = ({ ioZero with sound_timer := 3 } : IOState).keys ∧
      (chip8_tick_timers { ioZero with sound_timer := 3 }).disk
        = ({ ioZero with sound_timer := 3 } : IOState).disk :=
  C12_tick_timers { ioZero with sound_timer := 3 } (by decide) (by decide)

/-- C13 fails on the code: a call `2222` at `sp = 16` executes
`stack[16] = pc`, one past the 16-entry stack, and a return `00EE` at `sp = 0`
decrements the 8-bit `sp` to 255 and reads `stack[255]`; neither is stopped. -/
theorem C13_stack_edges_unchecked :
    ({ cpuWith [0x22, 0x22] with sp := 16 } : CPU).sp ≤ 16 ∧
      chip8_cycle 0 { cpuWith [0x22, 0x22] with sp := 16 } ioZero
        = .error (Undefined.stack 16) ∧
      (cpuWith [0x00, 0xEE]).sp = 0 ∧
      chip8_cycle 0 (cpuWith [0x00, 0xEE]) ioZero = .error (Undefined.stack 255) :=
  ⟨by decide, rfl, rfl, rfl⟩

/-- C17 fails on the code: the switch of `case 0xF` tests `immediate_value`
against the decimal constants 15 and 18, so `F115` and `F118` with `V[1] = 7`
leave both timers at 0, while `F10F` and `F112` write the timers. -/
theorem C17_timer_cases_decimal :
    ∃ c1 i1 c2 i2 c3 i3 c4 i4,
      chip8_cycle 0 { cpuWith [0xF1, 0x15] with V := sevens } ioZero = .ok (c1, i1) ∧
      i1.delay_timer = 0 ∧ i1.sound_timer = 0 ∧
      chip8_cycle 0 { cpuWith [0xF1, 0x18] with V := sevens } ioZero = .ok (c2, i2) ∧
      i2.delay_timer = 0 ∧ i2.sound_timer = 0 ∧
      chip8_cycle 0 { cpuWith [0xF1, 0x0F] with V := sevens } ioZero = .ok (c3, i3) ∧
      i3.delay_timer = 7 ∧
      chip8_cycle 0 { cpuWith [0xF1, 0x12] with V := sevens } ioZero = .ok (c4, i4) ∧
      i4.sound_timer = 7 :=
  ⟨_, _, _, _, _, _, _, _, rfl, rfl, rfl, rfl, rfl, rfl, rfl, rfl, rfl, rfl⟩

/-- C18: for every `x` in 1..15 and every byte in `V[x]`, one `chip8_cycle` on
`Fx29` sets `I = 0x50 + 5 * V[x]`, advances `pc` by 2 and changes nothing
else. -/
theorem C18_font_lookup (rnd x : Nat) (chip : CPU) (io : IOState)
    (hx1 : 1 ≤ x) (hx : x < 16) (hv : chip.V x < 256) (hpc : chip.pc + 1 < 5120)
    (hhi : chip.memory chip.pc = 0xF0 + x) (hlo : chip.memory (chip.pc + 1) = 0x29) :
    chip8_cycle rnd chip io
      = .ok ({ chip with pc := chip.pc + 2, I := 0x50 + 5 * chip.V x }, io) := by
  rw [chip8_cycle_eq rnd chip io (0xF0 + x) 0x29 hpc hhi hlo (by omega) (by norm_num),
    execute_unfold]
  have h1 : ((0xF0 + x) * 256 + 0x29) / 4096 % 16 = 0xF := by omega
  have h2 : ((0xF0 + x) * 256 + 0x29) / 256 % 16 = x := by omega
  have h3 : ((0xF0 + x) * 256 + 0x29) % 256 = 0x29 := by omega
  have h4 : ¬ x = 0 := by omega
  have h5 : (0x50 + chip.V x * 5) % 65536 = 0x50 + 5 * chip.V x := by omega
  rw [h1, h2, h3]
  simp only [execF, decide_eq_true_eq, h4, if_false, execUser, h5]

/-- C18 in the scenario of the specification: `A2F0` sets `I = 0x2F0`, and the
following `F129` with `V[1] = 0` sets `I = 0x50`. -/
theorem C18_font_lookup_witness :
    chip8_cycle 0 fontLookupCPU ioZero
        = .ok ({ fontLookupCPU with pc := 0x202, I := 0x2F0 }, ioZero) ∧
      chip8_cycle 0 { fontLookupCPU with pc := 0x202, I := 0x2F0 } ioZero
        = .ok ({ fontLookupCPU with pc := 0x202 + 2, I := 0x50 + 5 * fontLookupCPU.V 1 },
            ioZero) ∧
      0x50 + 5 * fontLookupCPU.V 1 = 0x50 :=
  ⟨rfl, C18_font_lookup 0 1 { fontLookupCPU with pc := 0x202, I := 0x2F0 } ioZero
    (by decide) (by decide) (by decide) (by decide) (by decide) (by decide), rfl⟩

/-- C20 fails on the code for `y = 15`: `8xy7` writes the flag into `V[15]`
before it computes `V[y] - V[x]`, so `80F7` with `V[0] = 3`, `V[15] = 5` ends
with `V[0] = (1 - 3) mod 256 = 254` instead of `(5 - 3) mod 256 = 2`. -/
theorem C20_reverse_subtract_reads_flag :
    ∃ chip' io', chip8_cycle 0 { cpuWith [0x80, 0xF7] with V := threeFive } ioZero
        = .ok (chip', io') ∧
      threeFive 0 = 3 ∧ threeFive 15 = 5 ∧ chip'.V 15 = 1 ∧ chip'.V 0 = 254 :=
  ⟨_, _, rfl, rfl, rfl, rfl, rfl⟩

/-- C19 fails on the code: `chip8_init` puts the font at 0x50, but the first
boot cycle executes `F000`, whose `memset` clears `memory[0 .. 4095]`; after
the nine boot cycles that take `pc` from 0x1000 to 0x1012 all 80 font bytes
are 0. -/
theorem C19_boot_clears_font :
    ∃ chip' io',
      (List.range 80).map (fun i => (chip8_init zeroCPU).memory (0x50 + i)) = chip8_fontset ∧
      (chip8_init zeroCPU).pc = 0x1000 ∧
      fetch (chip8_init zeroCPU) = .ok 0xF000 ∧
      runCycles (fun _ => 0) 9 (chip8_init zeroCPU) ioZero = .ok (chip', io') ∧
      chip'.pc = 0x1012 ∧
      (List.range 80).map (fun i => chip'.memory (0x50 + i)) = List.replicate 80 0 :=
  ⟨_, _, rfl, rfl, rfl, boot_nine_cycles, rfl, rfl⟩

/-- C14, as stated, fails: in `USER_MODE` the opcode `F000` clears memory (the
byte 0xF0 at 0x200 becomes 0) and the opcode `F004` clears the framebuffer
(the set cell 0 becomes 0). -/
theorem C14_counterexample :
    ∃ c1 i1 c2 i2, (userCPU [0xF0, 0x00]).mode = CPU_MODE.USER_MODE ∧
      (userCPU [0xF0, 0x00]).memory 0x200 = 0xF0 ∧
      chip8_cycle 0 (userCPU [0xF0, 0x00]) ioCorner = .ok (c1, i1) ∧
      c1.memory 0x200 = 0 ∧
      (userCPU [0xF0, 0x04]).mode = CPU_MODE.USER_MODE ∧
      ioCorner.display 0 = 1 ∧
      chip8_cycle 0 (userCPU [0xF0, 0x04]) ioCorner = .ok (c2, i2) ∧
      i2.display 0 = 0 :=
  ⟨_, _, _, _, rfl, rfl, rfl, rfl, rfl, rfl, rfl, rfl⟩

/-- C14, amended: `chip8_cycle` never reads the mode.  In every mode, one cycle
on `F0nn` keeps the mode, advances `pc` by 2 and runs the syscall switch: for
`nn` other than 0 and 4 nothing else changes; `F000` clears
`memory[0 .. 0xFFF]`, the registers, `I`, the stack and `sp`; `F004` clears
the framebuffer, the timers and the keys. -/
theorem C14_syscall_in_any_mode (rnd nn : Nat) (chip : CPU) (io : IOState)
    (hnn : nn < 256) (hpc : chip.pc + 1 < 5120)
    (hhi : chip.memory chip.pc = 0xF0) (hlo : chip.memory (chip.pc + 1) = nn) :
    ∃ chip' io', chip8_cycle rnd chip io = .ok (chip', io') ∧
      chip'.mode = chip.mode ∧ chip'.pc = chip.pc + 2 ∧
      (nn ≠ 0 → nn ≠ 4 →
        chip'.memory = chip.memory ∧ chip'.V = chip.V ∧ chip'.I = chip.I ∧
        chip'.stack = chip.stack ∧ chip'.sp = chip.sp ∧ io' = io) ∧
      (nn = 0 →
        (∀ a, a < 0x1000 → chip'.memory a = 0) ∧
        (∀ a, 0x1000 ≤ a → chip'.memory a = chip.memory a) ∧
        (∀ r, r < 16 → chip'.V r = 0) ∧ chip'.I = 0 ∧
        (∀ j, j < 16 → chip'.stack j = 0) ∧ chip'.sp = 0 ∧ io' = io) ∧
      (nn = 4 →
        chip'.memory = chip.memory ∧ chip'.V = chip.V ∧ chip'.I = chip.I ∧
        chip'.stack = chip.stack ∧ chip'.sp = chip.sp ∧
        (∀ i, i < 2048 → io'.display i = 0) ∧ io'.delay_timer = 0 ∧
        io'.sound_timer = 0 ∧ (∀ j, j < 16 → io'.keys j = false) ∧ io'.disk = io.disk) := by
  rw [chip8_cycle_eq rnd chip io 0xF0 nn hpc hhi hlo (by norm_num) hnn, execute_unfold]
  have h1 : (0xF0 * 256 + nn) / 4096 % 16 = 0xF := by omega
  have h2 : (0xF0 * 256 + nn) / 256 % 16 = 0 := by omega
  have h3 : (0xF0 * 256 + nn) % 256 = nn := by omega
  rw [h1, h2, h3]
  simp only [execF, decide_True, if_true]
  by_cases h0 : nn = 0
  · subst h0
    refine ⟨_, _, rfl, rfl, rfl, fun h => absurd rfl h, fun _ => ?_,
      fun h => absurd h (by decide)⟩
    exact ⟨fun a ha => if_pos (by omega), fun a ha => if_neg (by omega),
      fun r hr => if_pos hr, rfl, fun j hj => if_pos hj, rfl, rfl⟩
  · by_cases h4 : nn = 4
    · subst h4
      refine ⟨_, _, rfl, rfl, rfl, fun _ h => absurd rfl h, fun h => absurd h (by decide),
        fun _ => ?_⟩
      exact ⟨rfl, rfl, rfl, rfl, rfl, fun i hi => if_pos hi, rfl, rfl,
        fun j hj => if_pos hj, rfl⟩
    · rw [execSyscall_other nn _ io h0 h4]
      exact ⟨_, _, rfl, rfl, rfl, fun _ _ => ⟨rfl, rfl, rfl, rfl, rfl, rfl⟩,
        fun h => absurd h h0, fun h => absurd h h4⟩

/-- C14 amended, for `F000` executed in `USER_MODE`. -/
theorem C14_syscall_in_any_mode_witness :
    ∃ chip' io', chip8_cycle 0 (userCPU [0xF0, 0x00]) ioCorner = .ok (chip', io') ∧
      chip'.mode = (userCPU [0xF0, 0x00]).mode ∧ chip'.pc = (userCPU [0xF0, 0x00]).pc + 2 ∧
      ((0 : Nat) ≠ 0 → (0 : Nat) ≠ 4 →
        chip'.memory = (userCPU [0xF0, 0x00]).memory ∧ chip'.V = (userCPU [0xF0, 0x00]).V ∧
        chip'.I = (userCPU [0xF0, 0x00]).I ∧ chip'.stack = (userCPU [0xF0, 0x00]).stack ∧
        chip'.sp = (userCPU [0xF0, 0x00]).sp ∧ io' = ioCorner) ∧
      ((0 : Nat) = 0 →
        (∀ a, a < 0x1000 → chip'.memory a = 0) ∧
        (∀ a, 0x1000 ≤ a → chip'.memory a = (userCPU [0xF0, 0x00]).memory a) ∧
        (∀ r, r < 16 → chip'.V r = 0) ∧ chip'.I = 0 ∧
        (∀ j, j < 16 → chip'.stack j = 0) ∧ chip'.sp = 0 ∧ io' = ioCorner) ∧
      ((0 : Nat) = 4 →
        chip'.memory = (userCPU [0xF0, 0x00]).memory ∧ chip'.V = (userCPU [0xF0, 0x00]).V ∧
        chip'.I = (userCPU [0xF0, 0x00]).I ∧ chip'.stack = (userCPU [0xF0, 0x00]).stack ∧
        chip'.sp = (userCPU [0xF0, 0x00]).sp ∧
        (∀ i, i < 2048 → io'.display i = 0) ∧ io'.delay_timer = 0 ∧
        io'.sound_timer = 0 ∧ (∀ j, j < 16 → io'.keys j = false) ∧
        io'.disk = ioCorner.disk) :=
  C14_syscall_in_any_mode 0 0 (userCPU [0xF0, 0x00]) ioCorner (by decide) (by decide)
    (by decide) (by decide)

/-- C15, as stated, fails: in `USER_MODE`, `F133` with `I = 0x1000` and
`V[1] = 7` stores the digit 7 at `memory[0x1002]`, inside the kernel region. -/
theorem C15_counterexample :
    ∃ chip' io', kernelStoreCPU.mode = CPU_MODE.USER_MODE ∧ kernelStoreCPU.I = 0x1000 ∧
      kernelStoreCPU.memory 0x1002 = 0 ∧
      chip8_cycle 0 kernelStoreCPU ioZero = .ok (chip', io') ∧
      chip'.memory 0x1002 = 7 :=
  ⟨_, _, rfl, rfl, rfl, rfl, rfl⟩

/-- C15, amended: `chip8_cycle` never reads the mode and has no memory
protection.  In every mode, a cycle without out-of-range access keeps the mode
and leaves every byte of `memory[0x1000 ..]` unchanged when the opcode is not a
store (`Fx33` or `Fx55` with `x` not 0, also reached as `Ex33`, `Ex55`); a store
leaves unchanged the bytes outside `[I, I + 2]` (`Fx33`) or `[I, I + x]`
(`Fx55`).  A store is not rejected: whenever that range lies inside memory the
cycle is carried out and writes the three decimal digits of `V[x]` (`Fx33`) or
the registers `V[0..x]` (`Fx55`) to the bytes of the range, in the kernel
region when `I` points there. -/
theorem C15_kernel_region_frame (rnd op : Nat) (chip : CPU) (io : IOState)
    (hf : fetch chip = .ok op) :
    (∀ chip' io', chip8_cycle rnd chip io = .ok (chip', io') →
      chip'.mode = chip.mode ∧
      (isStore op = false → ∀ a, 0x1000 ≤ a → chip'.memory a = chip.memory a) ∧
      (∀ a, 0x1000 ≤ a → (a < chip.I ∨ chip.I + storeExtent op < a) →
        chip'.memory a = chip.memory a)) ∧
    (isStore op = true → chip.I + storeExtent op < 5120 →
      ∃ chip' io', chip8_cycle rnd chip io = .ok (chip', io') ∧
        (op % 256 = 0x33 →
          chip'.memory chip.I = chip.V (op / 256 % 16) % 256 / 100 ∧
          chip'.memory (chip.I + 1) = chip.V (op / 256 % 16) % 256 / 10 % 10 ∧
          chip'.memory (chip.I + 2) = chip.V (op / 256 % 16) % 256 % 10) ∧
        (op % 256 = 0x55 →
          ∀ r, r ≤ op / 256 % 16 → chip'.memory (chip.I + r) = chip.V r % 256)) := by
  constructor
  · intro chip' io' h
    obtain ⟨hm, hk⟩ := chip8_cycle_keeps rnd op chip io chip' io' hf h
    refine ⟨hm, fun hs a ha => hk a ⟨ha, fun hs' => ?_⟩,
      fun a ha hout => hk a ⟨ha, fun _ => hout⟩⟩
    rw [hs] at hs'
    cases hs'
  · intro hs hin
    have hx : op / 256 % 16 < 16 := Nat.mod_lt _ (by norm_num)
    have hc : chip8_cycle rnd chip io
        = execUser (op / 256 % 16) (op % 256) { chip with pc := (chip.pc + 2) % 65536 } io := by
      simp only [chip8_cycle, hf, bind, Except.bind]
      exact execute_store rnd op _ io hs
    have hnn : op % 256 = 0x33 ∨ op % 256 = 0x55 := by
      simp only [isStore, Bool.and_eq_true, Bool.or_eq_true, beq_iff_eq] at hs
      exact hs.2
    obtain ⟨chip', io', hok⟩ := execUser_store_ok (op / 256 % 16) (op % 256)
      { chip with pc := (chip.pc + 2) % 65536 } io hx hnn hin
    refine ⟨chip', io', hc.trans hok, fun h33 => ?_, fun h55 => ?_⟩
    · rw [h33] at hok
      exact execUser_bcd_written _ { chip with pc := (chip.pc + 2) % 65536 } _ _ _ hok
    · rw [h55] at hok
      simp only [execUser] at hok
      obtain ⟨c1, h1, hok⟩ := bind_eq_ok _ _ _ hok
      cases hok
      intro r hr
      exact storeRegsLoop_written (op / 256 % 16 + 1) 0
        { chip with pc := (chip.pc + 2) % 65536 } _ (by omega) h1 r (Nat.zero_le _) (by omega)

/-- C15 amended, for the store `F133` with `I = 0x1000` in `USER_MODE`: the
kernel bytes from 0x1003 on are unchanged, and the digits 0, 0, 7 of `V[1]` are
written to the kernel bytes 0x1000..0x1002. -/
theorem C15_kernel_region_frame_witness :
    (∀ chip' io', chip8_cycle 0 kernelStoreCPU ioZero = .ok (chip', io') →
      chip'.mode = kernelStoreCPU.mode ∧
      (isStore 0xF133 = false → ∀ a, 0x1000 ≤ a → chip'.memory a = kernelStoreCPU.memory a) ∧
      (∀ a, 0x1000 ≤ a → (a < kernelStoreCPU.I ∨ kernelStoreCPU.I + storeExtent 0xF133 < a) →
        chip'.memory a = kernelStoreCPU.memory a)) ∧
    (isStore 0xF133 = true → kernelStoreCPU.I + storeExtent 0xF133 < 5120 →
      ∃ chip' io', chip8_cycle 0 kernelStoreCPU ioZero = .ok (chip', io') ∧
        (0xF133 % 256 = 0x33 →
          chip'.memory kernelStoreCPU.I = kernelStoreCPU.V (0xF133 / 256 % 16) % 256 / 100 ∧
          chip'.memory (kernelStoreCPU.I + 1)
            = kernelStoreCPU.V (0xF133 / 256 % 16) % 256 / 10 % 10 ∧
          chip'.memory (kernelStoreCPU.I + 2)
            = kernelStoreCPU.V (0xF133 / 256 % 16) % 256 % 10) ∧
        (0xF133 % 256 = 0x55 →
          ∀ r, r ≤ 0xF133 / 256 % 16 →
            chip'.memory (kernelStoreCPU.I + r) = kernelStoreCPU.V r % 256)) ∧
    isStore 0xF133 = true ∧ kernelStoreCPU.I + storeExtent 0xF133 < 5120 ∧
    kernelStoreCPU.I = 0x1000 ∧ kernelStoreCPU.V (0xF133 / 256 % 16) % 256 % 10 = 7 :=
  ⟨(C15_kernel_region_frame 0 0xF133 kernelStoreCPU ioZero rfl).1,
    (C15_kernel_region_frame 0 0xF133 kernelStoreCPU ioZero rfl).2, by decide, by decide, rfl,
    rfl⟩

/-- C16, as stated, fails: `chip8_init` on the zeroed CPU returns with
`mode = USER_MODE`. -/
theorem C16_counterexample :
    (chip8_init zeroCPU).mode = CPU_MODE.USER_MODE ∧
      (chip8_init zeroCPU).mode ≠ CPU_MODE.KERNEL_MODE :=
  ⟨rfl, by decide⟩

/-- C16, amended: `chip8_init` sets `KERNEL_MODE` on entry and `USER_MODE`
before it returns.  For every CPU state, after `chip8_init` the mode is
`USER_MODE`, `pc = 0x1000`, the first bootstrap opcode `F000` is at `pc`, and
the mode is still `USER_MODE` after any number of cycles: the bootstrap
sequence is executed in `USER_MODE`. -/
theorem C16_init_ends_in_user_mode (cpu : CPU) :
    (chip8_init cpu).mode = CPU_MODE.USER_MODE ∧ (chip8_init cpu).pc = 0x1000 ∧
      fetch (chip8_init cpu) = .ok 0xF000 ∧
      ∀ (rnd : Nat → Nat) (k : Nat) (io : IOState) (chip' : CPU) (io' : IOState),
        runCycles rnd k (chip8_init cpu) io = .ok (chip', io') →
        chip'.mode = CPU_MODE.USER_MODE :=
  ⟨rfl, rfl,
    fetch_eq (chip8_init cpu) 0xF0 0 (show 0x1000 + 1 < 5120 by norm_num) rfl rfl
      (by decide) (by decide),
    fun rnd k io chip' io' h => runCycles_mode rnd k _ io chip' io' h⟩

/-- C21: for every `x` in 0..14, every `y` in 0..15 and all byte values of the
registers, one `chip8_cycle` on `8xy5` sets `V[x] = (Vx - Vy) mod 256` and
`V[15] = 1` if `Vx >= Vy`, else 0, with `Vx`, `Vy` the values before the
instruction; no other register changes and `pc` advances by 2. -/
theorem C21_subtract (rnd x y : Nat) (chip : CPU) (io : IOState)
    (hx : x ≤ 14) (hy : y < 16) (hvx : chip.V x < 256) (hvy : chip.V y < 256)
    (hpc : chip.pc + 1 < 5120)
    (hhi : chip.memory chip.pc = 0x80 + x) (hlo : chip.memory (chip.pc + 1) = y * 16 + 5) :
    ∃ chip' io', chip8_cycle rnd chip io = .ok (chip', io') ∧
      (chip'.V x : Int) = ((chip.V x : Int) - (chip.V y : Int)) % 256 ∧
      chip'.V 15 = (if chip.V x ≥ chip.V y then 1 else 0) ∧
      (∀ r, r ≠ x → r ≠ 15 → chip'.V r = chip.V r) ∧ chip'.pc = chip.pc + 2 := by
  rw [chip8_cycle_alu rnd x y 5 chip io (by omega) hy (by norm_num) hpc hhi hlo, execAlu_unfold]
  have h1 : ((0x80 + x) * 256 + (y * 16 + 5)) % 16 = 5 := by omega
  have h2 : ((0x80 + x) * 256 + (y * 16 + 5)) / 16 % 16 = y := by omega
  have hx15 : x ≠ 15 := by omega
  rw [h1, h2]
  refine ⟨_, _, rfl, ?_, ?_, ?_, ?_⟩
  · have e : (chip.V x + 256 - chip.V y) % 256 % 256 = (chip.V x + 256 - chip.V y) % 256 := by
      omega
    simp only [setV, store, if_true, e]
    omega
  · by_cases h : chip.V x ≥ chip.V y <;> simp [setV, store, h, hx15.symm]
  · intro r hr hr15
    by_cases h : chip.V x ≥ chip.V y <;> simp [setV, store, h, hr, hr15]
  · by_cases h : chip.V x ≥ chip.V y <;> simp [setV, h]

/-- C21 at `8125` with `V[1] = 200`, `V[2] = 100`. -/
theorem C21_subtract_witness :
    ∃ chip' io', chip8_cycle 0 { cpuWith [0x81, 0x25] with V := aluRegs } ioZero
        = .ok (chip', io') ∧
      (chip'.V 1 : Int) = ((aluRegs 1 : Int) - (aluRegs 2 : Int)) % 256 ∧
      chip'.V 15 = (if aluRegs 1 ≥ aluRegs 2 then 1 else 0) ∧
      (∀ r, r ≠ 1 → r ≠ 15 → chip'.V r = aluRegs r) ∧
      chip'.pc = ({ cpuWith [0x81, 0x25] with V := aluRegs } : CPU).pc + 2 :=
  C21_subtract 0 1 2 { cpuWith [0x81, 0x25] with V := aluRegs } ioZero (by decide) (by decide)
    (by decide) (by decide) (by decide) (by decide) (by decide)

/-- C22: for every `x` in 0..14, every `y` in 0..15 and all byte values of the
registers, one `chip8_cycle` on `8xy4` sets `V[x] = (Vx + Vy) mod 256` and
`V[15] = 1` if `Vx + Vy > 255`, else 0, with `Vx`, `Vy` the values before the
instruction; no other register changes and `pc` advances by 2. -/
theorem C22_add_with_carry (rnd x y : Nat) (chip : CPU) (io : IOState)
    (hx : x ≤ 14) (hy : y < 16) (hvx : chip.V x < 256) (hvy : chip.V y < 256)
    (hpc : chip.pc + 1 < 5120)
    (hhi : chip.memory chip.pc = 0x80 + x) (hlo : chip.memory (chip.pc + 1) = y * 16 + 4) :
    ∃ chip' io', chip8_cycle rnd chip io = .ok (chip', io') ∧
      chip'.V x = (chip.V x + chip.V y) % 256 ∧
      chip'.V 15 = (if chip.V x + chip.V y > 255 then 1 else 0) ∧
      (∀ r, r ≠ x → r ≠ 15 → chip'.V r = chip.V r) ∧ chip'.pc = chip.pc + 2 := by
  rw [chip8_cycle_alu rnd x y 4 chip io (by omega) hy (by norm_num) hpc hhi hlo, execAlu_unfold]
  have h1 : ((0x80 + x) * 256 + (y * 16 + 4)) % 16 = 4 := by omega
  have h2 : ((0x80 + x) * 256 + (y * 16 + 4)) / 16 % 16 = y := by omega
  have h3 : (chip.V x + chip.V y) % 65536 = chip.V x + chip.V y := by omega
  have hx15 : x ≠ 15 := by omega
  rw [h1, h2]
  simp only [h3]
  refine ⟨_, _, rfl, ?_, ?_, ?_, ?_⟩
  · by_cases h : chip.V x + chip.V y > 255 <;> simp [setV, store, h, hx15]
  · by_cases h : chip.V x + chip.V y > 255 <;> simp [setV, store, h]
  · intro r hr hr15
    by_cases h : chip.V x + chip.V y > 255 <;> simp [setV, store, h, hr, hr15]
  · by_cases h : chip.V x + chip.V y > 255 <;> simp [setV, h]

/-- C22 at `8124` with `V[1] = 200`, `V[2] = 100`. -/
theorem C22_add_with_carry_witness :
    ∃ chip' io', chip8_cycle 0 { cpuWith [0x81, 0x24] with V := aluRegs } ioZero
        = .ok (chip', io') ∧
      chip'.V 1 = (aluRegs 1 + aluRegs 2) % 256 ∧
      chip'.V 15 = (if aluRegs 1 + aluRegs 2 > 255 then 1 else 0) ∧
      (∀ r, r ≠ 1 → r ≠ 15 → chip'.V r = aluRegs r) ∧
      chip'.pc = ({ cpuWith [0x81, 0x24] with V := aluRegs } : CPU).pc + 2 :=
  C22_add_with_carry 0 1 2 { cpuWith [0x81, 0x24] with V := aluRegs } ioZero (by decide)
    (by decide) (by decide) (by decide) (by decide) (by decide) (by decide)

/-- C24: for every `x` in 0..15 and every byte `nn`, one `chip8_cycle` on
`7xnn` sets `V[x] = (Vx + nn) mod 256` and changes no other register (no flag
is set: `V[15]` is unchanged when `x` is not 15); `pc` advances by 2. -/
theorem C24_add_immediate (rnd x nn : Nat) (chip : CPU) (io : IOState)
    (hx : x < 16) (hnn : nn < 256) (hpc : chip.pc + 1 < 5120)
    (hhi : chip.memory chip.pc = 0x70 + x) (hlo : chip.memory (chip.pc + 1) = nn) :
    ∃ chip' io', chip8_cycle rnd chip io = .ok (chip', io') ∧
      chip'.V x = (chip.V x + nn) % 256 ∧
      (∀ r, r ≠ x → chip'.V r = chip.V r) ∧ (x ≠ 15 → chip'.V 15 = chip.V 15) ∧
      chip'.pc = chip.pc + 2 := by
  rw [chip8_cycle_eq rnd chip io (0x70 + x) nn hpc hhi hlo (by omega) hnn, execute_unfold]
  have h1 : ((0x70 + x) * 256 + nn) / 4096 % 16 = 7 := by omega
  have h2 : ((0x70 + x) * 256 + nn) / 256 % 16 = x := by omega
  have h3 : ((0x70 + x) * 256 + nn) % 256 = nn := by omega
  rw [h1, h2, h3]
  refine ⟨_, _, rfl, ?_, ?_, ?_, rfl⟩
  · simp [setV, store]
  · intro r hr
    simp [setV, store, hr]
  · intro h15
    simp [setV, store, Ne.symm h15]

/-- C24 at `71FF` with `V[1] = 200`: the sum wraps to 199 and `V[15]` keeps its
value 9. -/
theorem C24_add_immediate_witness :
    ∃ chip' io', chip8_cycle 0 { cpuWith [0x71, 0xFF] with V := aluRegs } ioZero
        = .ok (chip', io') ∧
      chip'.V 1 = (aluRegs 1 + 0xFF) % 256 ∧
      (∀ r, r ≠ 1 → chip'.V r = aluRegs r) ∧ ((1 : Nat) ≠ 15 → chip'.V 15 = aluRegs 15) ∧
      chip'.pc = ({ cpuWith [0x71, 0xFF] with V := aluRegs } : CPU).pc + 2 :=
  C24_add_immediate 0 1 0xFF { cpuWith [0x71, 0xFF] with V := aluRegs } ioZero (by decide)
    (by decide) (by decide) (by decide) (by decide)

/-- C23: for every `x` in 0..14 and every byte `v = V[x]`, one `chip8_cycle` on
`8xy6` sets `V[x] = v / 2` and `V[15] = v mod 2`, and one on `8xyE` sets
`V[x] = (2 * v) mod 256` and `V[15] = v / 128`; the resulting state is the one
displayed, which does not depend on `y` or on `V[y]`, and in which no other
register has changed. -/
theorem C23_shifts (rnd x y : Nat) (chip : CPU) (io : IOState)
    (hx : x ≤ 14) (hy : y < 16) (hv : chip.V x < 256) (hpc : chip.pc + 1 < 5120)
    (hhi : chip.memory chip.pc = 0x80 + x) :
    (chip.memory (chip.pc + 1) = y * 16 + 6 →
      chip8_cycle rnd chip io = .ok
        ({ chip with
            pc := chip.pc + 2,
            V := store (store chip.V x (chip.V x / 2)) 15 (chip.V x % 2) }, io) ∧
      store (store chip.V x (chip.V x / 2)) 15 (chip.V x % 2) x = chip.V x / 2 ∧
      store (store chip.V x (chip.V x / 2)) 15 (chip.V x % 2) 15 = chip.V x % 2 ∧
      ∀ r, r ≠ x → r ≠ 15 →
        store (store chip.V x (chip.V x / 2)) 15 (chip.V x % 2) r = chip.V r) ∧
    (chip.memory (chip.pc + 1) = y * 16 + 0xE →
      chip8_cycle rnd chip io = .ok
        ({ chip with
            pc := chip.pc + 2,
            V := store (store chip.V x ((2 * chip.V x) % 256)) 15 (chip.V x / 128) }, io) ∧
      store (store chip.V x ((2 * chip.V x) % 256)) 15 (chip.V x / 128) x
        = (2 * chip.V x) % 256 ∧
      store (store chip.V x ((2 * chip.V x) % 256)) 15 (chip.V x / 128) 15 = chip.V x / 128 ∧
      ∀ r, r ≠ x → r ≠ 15 →
        store (store chip.V x ((2 * chip.V x) % 256)) 15 (chip.V x / 128) r = chip.V r) := by
  have hx15 : x ≠ 15 := by omega
  constructor
  · intro hlo
    rw [chip8_cycle_alu rnd x y 6 chip io (by omega) hy (by norm_num) hpc hhi hlo,
      execAlu_unfold]
    have h1 : ((0x80 + x) * 256 + (y * 16 + 6)) % 16 = 6 := by omega
    have e1 : (chip.V x &&& 1) % 256 % 256 = chip.V x % 2 := by
      rw [Nat.and_one_is_mod]; omega
    have e2 : (chip.V x >>> 1) % 256 = chip.V x / 2 := by
      rw [Nat.shiftRight_eq_div_pow]; omega
    rw [h1]
    refine ⟨?_, ?_, ?_, ?_⟩
    · simp only [setV, e1, e2]
    · simp [store, hx15]
    · simp [store]
    · intro r hr hr15; simp [store, hr, hr15]
  · intro hlo
    rw [chip8_cycle_alu rnd x y 0xE chip io (by omega) hy (by norm_num) hpc hhi hlo,
      execAlu_unfold]
    have h1 : ((0x80 + x) * 256 + (y * 16 + 0xE)) % 16 = 0xE := by omega
    have e1 : ((chip.V x >>> 7) &&& 1) % 256 % 256 = chip.V x / 128 := by
      rw [Nat.and_one_is_mod, Nat.shiftRight_eq_div_pow]; omega
    have e2 : (chip.V x <<< 1) % 256 = (2 * chip.V x) % 256 := by
      rw [Nat.shiftLeft_eq]; omega
    rw [h1]
    refine ⟨?_, ?_, ?_, ?_⟩
    · simp only [setV, e1, e2]
    · simp [store, hx15]
    · simp [store]
    · intro r hr hr15; simp [store, hr, hr15]

/-- C23 at `8126` and at `812E`, both with `V[1] = 200`. -/
theorem C23_shifts_witness :
    (chip8_cycle 0 { cpuWith [0x81, 0x26] with V := aluRegs } ioZero = .ok
        ({ cpuWith [0x81, 0x26] with
            pc := 0x200 + 2,
            V := store (store aluRegs 1 (aluRegs 1 / 2)) 15 (aluRegs 1 % 2) }, ioZero) ∧
      store (store aluRegs 1 (aluRegs 1 / 2)) 15 (aluRegs 1 % 2) 1 = aluRegs 1 / 2 ∧
      store (store aluRegs 1 (aluRegs 1 / 2)) 15 (aluRegs 1 % 2) 15 = aluRegs 1 % 2 ∧
      ∀ r, r ≠ 1 → r ≠ 15 →
        store (store aluRegs 1 (aluRegs 1 / 2)) 15 (aluRegs 1 % 2) r = aluRegs r) ∧
    (chip8_cycle 0 { cpuWith [0x81, 0x2E] with V := aluRegs } ioZero = .ok
        ({ cpuWith [0x81, 0x2E] with
            pc := 0x200 + 2,
            V := store (store aluRegs 1 ((2 * aluRegs 1) % 256)) 15 (aluRegs 1 / 128) }, ioZero) ∧
      store (store aluRegs 1 ((2 * aluRegs 1) % 256)) 15 (aluRegs 1 / 128) 1
        = (2 * aluRegs 1) % 256 ∧
      store (store aluRegs 1 ((2 * aluRegs 1) % 256)) 15 (aluRegs 1 / 128) 15
        = aluRegs 1 / 128 ∧
      ∀ r, r ≠ 1 → r ≠ 15 →
        store (store aluRegs 1 ((2 * aluRegs 1) % 256)) 15 (aluRegs 1 / 128) r = aluRegs r) :=
  ⟨(C23_shifts 0 1 2 { cpuWith [0x81, 0x26] with V := aluRegs } ioZero (by decide) (by decide)
      (by decide) (by decide) (by decide)).1 (by decide),
   (C23_shifts 0 1 2 { cpuWith [0x81, 0x2E] with V := aluRegs } ioZero (by decide) (by decide)
      (by decide) (by decide) (by decide)).2 (by decide)⟩

/-- C25: for every `x`, `y` in 0..14, `n` in 0..15 and `I` with
`I + n <= 5120`, with `x0 = Vx mod 64` and `y0 = Vy mod 32`, after one
`chip8_cycle` on `Dxyn` every cell `(y0 + r) * 64 + x0 + c` with `r < n`,
`c < 8`, `y0 + r < 32`, `x0 + c < 64` holds its old value XOR bit `7 - c` of
`memory[I + r]`, and every other framebuffer cell is unchanged (the cells of
`uint8_t display[2048]` being bytes). -/
theorem C25_draw_clipped (rnd x y n : Nat) (chip : CPU) (io : IOState)
    (hx : x ≤ 14) (hy : y ≤ 14) (hn : n < 16) (hpc : chip.pc + 1 < 5120)
    (hhi : chip.memory chip.pc = 0xD0 + x) (hlo : chip.memory (chip.pc + 1) = y * 16 + n)
    (hin : chip.I + n ≤ 5120) (hbytes : ∀ i, i < 2048 → io.display i < 256) :
    ∃ chip' io', chip8_cycle rnd chip io = .ok (chip', io') ∧
      (∀ r c, r < n → c < 8 → chip.V y % 32 + r < 32 → chip.V x % 64 + c < 64 →
        io'.display ((chip.V y % 32 + r) * 64 + chip.V x % 64 + c)
          = io.display ((chip.V y % 32 + r) * 64 + chip.V x % 64 + c)
              ^^^ (chip.memory (chip.I + r) / 2 ^ (7 - c) % 2)) ∧
      (∀ i, (¬ ∃ r c, r < n ∧ c < 8 ∧ chip.V y % 32 + r < 32 ∧ chip.V x % 64 + c < 64 ∧
          i = (chip.V y % 32 + r) * 64 + chip.V x % 64 + c) →
        io'.display i = io.display i) := by
  refine ⟨_, _, chip8_cycle_draw_spec rnd x y n chip io (by omega) (by omega) hn hpc hhi hlo
    (fun r hr _ => by omega), ?_, ?_⟩
  · intro r c hr hc hyr hxc
    have hcov : covered (chip.V x % 64) (chip.V y % 32) 0 n
        ((chip.V y % 32 + r) * 64 + chip.V x % 64 + c) :=
      (covered_iff _ _ _ _).2 ⟨r, c, hr, hc, hyr, hxc, rfl⟩
    have e1 : ((chip.V y % 32 + r) * 64 + chip.V x % 64 + c) / 64 - chip.V y % 32 = r := by
      omega
    have e2 : ((chip.V y % 32 + r) * 64 + chip.V x % 64 + c) % 64 - chip.V x % 64 = c := by
      omega
    simp only [drawX_of_ne chip x (by omega), drawY_of_ne chip y (by omega), drawnDisplay,
      if_pos hcov, e1, e2]
    rw [xor_bit_mod _ _ (hbytes _ (by omega)) (spriteBit_le_one _ _ _), spriteBit_eq]
  · intro i hi
    have hcov : ¬ covered (chip.V x % 64) (chip.V y % 32) 0 n i :=
      fun h => hi ((covered_iff _ _ _ _).1 h)
    simp only [drawX_of_ne chip x (by omega), drawY_of_ne chip y (by omega), drawnDisplay,
      if_neg hcov]

/-- C25 for a five-row glyph drawn at `(62, 30)`: only two columns and two rows
are inside the grid. -/
theorem C25_draw_clipped_witness :
    ∃ chip' io', chip8_cycle 0 clippedDrawCPU ioCorner = .ok (chip', io') ∧
      (∀ r c, r < 5 → c < 8 → clippedDrawCPU.V 2 % 32 + r < 32 →
        clippedDrawCPU.V 1 % 64 + c < 64 →
        io'.display ((clippedDrawCPU.V 2 % 32 + r) * 64 + clippedDrawCPU.V 1 % 64 + c)
          = ioCorner.display ((clippedDrawCPU.V 2 % 32 + r) * 64 + clippedDrawCPU.V 1 % 64 + c)
              ^^^ (clippedDrawCPU.memory (clippedDrawCPU.I + r) / 2 ^ (7 - c) % 2)) ∧
      (∀ i, (¬ ∃ r c, r < 5 ∧ c < 8 ∧ clippedDrawCPU.V 2 % 32 + r < 32 ∧
          clippedDrawCPU.V 1 % 64 + c < 64 ∧
          i = (clippedDrawCPU.V 2 % 32 + r) * 64 + clippedDrawCPU.V 1 % 64 + c) →
        io'.display i = ioCorner.display i) :=
  C25_draw_clipped 0 1 2 5 clippedDrawCPU ioCorner (by decide) (by decide) (by decide)
    (by decide) (by decide) (by decide) (by decide)
    (fun i _ => by simp only [ioCorner]; split <;> omega)

/-- C26: for every in-bounds sprite and `x`, `y` in 0..14, after one
`chip8_cycle` on `Dxyn` the flag `V[15]` is 1 if and only if there are a row
`r < n` and a column `c < 8` inside the 64x32 grid where the sprite bit is 1
and the framebuffer cell held 1 before the draw; otherwise it is 0. -/
theorem C26_collision_flag (rnd x y n : Nat) (chip : CPU) (io : IOState)
    (hx : x ≤ 14) (hy : y ≤ 14) (hn : n < 16) (hpc : chip.pc + 1 < 5120)
    (hhi : chip.memory chip.pc = 0xD0 + x) (hlo : chip.memory (chip.pc + 1) = y * 16 + n)
    (hin : chip.I + n ≤ 5120) :
    ∃ chip' io', chip8_cycle rnd chip io = .ok (chip', io') ∧
      (chip'.V 15 = 1 ↔
        ∃ r c, r < n ∧ c < 8 ∧ chip.V y % 32 + r < 32 ∧ chip.V x % 64 + c < 64 ∧
          chip.memory (chip.I + r) / 2 ^ (7 - c) % 2 = 1 ∧
          io.display ((chip.V y % 32 + r) * 64 + chip.V x % 64 + c) = 1) ∧
      (chip'.V 15 = 0 ↔
        ¬ ∃ r c, r < n ∧ c < 8 ∧ chip.V y % 32 + r < 32 ∧ chip.V x % 64 + c < 64 ∧
          chip.memory (chip.I + r) / 2 ^ (7 - c) % 2 = 1 ∧
          io.display ((chip.V y % 32 + r) * 64 + chip.V x % 64 + c) = 1) := by
  refine ⟨_, _, chip8_cycle_draw_spec rnd x y n chip io (by omega) (by omega) hn hpc hhi hlo
    (fun r hr _ => by omega), ?_⟩
  have hm : spriteMeets chip (drawX chip x) (drawY chip y) 0 n io.display 1 ↔
      ∃ r c, r < n ∧ c < 8 ∧ chip.V y % 32 + r < 32 ∧ chip.V x % 64 + c < 64 ∧
        chip.memory (chip.I + r) / 2 ^ (7 - c) % 2 = 1 ∧
        io.display ((chip.V y % 32 + r) * 64 + chip.V x % 64 + c) = 1 := by
    rw [drawX_of_ne chip x (by omega), drawY_of_ne chip y (by omega)]
    constructor
    · rintro ⟨r, c, _, h2, h3, h4, h5, h6, h7⟩
      exact ⟨r, c, h2, h4, h3, h5, by rw [← spriteBit_eq]; exact h6, h7⟩
    · rintro ⟨r, c, h2, h4, h3, h5, h6, h7⟩
      exact ⟨r, c, Nat.zero_le _, h2, h3, h4, h5, by rw [spriteBit_eq]; exact h6, h7⟩
  rw [← hm]
  by_cases h : spriteMeets chip (drawX chip x) (drawY chip y) 0 n io.display 1
  · simp [h, store]
  · simp [h, store]

/-- C26 for the sprite `0x80` drawn at (0, 0) over a framebuffer whose top-left
cell is set. -/
theorem C26_collision_flag_witness :
    ∃ chip' io', chip8_cycle 0 drawTwiceCPU ioCorner = .ok (chip', io') ∧
      (chip'.V 15 = 1 ↔
        ∃ r c, r < 1 ∧ c < 8 ∧ drawTwiceCPU.V 0 % 32 + r < 32 ∧
          drawTwiceCPU.V 0 % 64 + c < 64 ∧
          drawTwiceCPU.memory (drawTwiceCPU.I + r) / 2 ^ (7 - c) % 2 = 1 ∧
          ioCorner.display ((drawTwiceCPU.V 0 % 32 + r) * 64 + drawTwiceCPU.V 0 % 64 + c) = 1) ∧
      (chip'.V 15 = 0 ↔
        ¬ ∃ r c, r < 1 ∧ c < 8 ∧ drawTwiceCPU.V 0 % 32 + r < 32 ∧
          drawTwiceCPU.V 0 % 64 + c < 64 ∧
          drawTwiceCPU.memory (drawTwiceCPU.I + r) / 2 ^ (7 - c) % 2 = 1 ∧
          ioCorner.display ((drawTwiceCPU.V 0 % 32 + r) * 64 + drawTwiceCPU.V 0 % 64 + c) = 1) :=
  C26_collision_flag 0 0 0 1 drawTwiceCPU ioCorner (by decide) (by decide) (by decide)
    (by decide) (by decide) (by decide) (by decide)

/-- C27: for every `x` in 0..15 and every state with `V[x] < 16`, one
`chip8_cycle` on `Ex9E` ends with `pc` at the fetch address + 4 if `keys[V[x]]`
is pressed and + 2 otherwise, one `chip8_cycle` on `ExA1` ends with `pc` at the
fetch address + 4 if `keys[V[x]]` is not pressed and + 2 otherwise, and in both
cases nothing but `pc` changes. -/
theorem C27_key_skips (rnd x : Nat) (chip : CPU) (io : IOState)
    (hx : x < 16) (hv : chip.V x < 16) (hpc : chip.pc + 1 < 5120)
    (hhi : chip.memory chip.pc = 0xE0 + x) :
    (chip.memory (chip.pc + 1) = 0x9E →
      chip8_cycle rnd chip io
        = .ok ({ chip with
                  pc := if io.keys (chip.V x) = true then chip.pc + 4 else chip.pc + 2 }, io)) ∧
    (chip.memory (chip.pc + 1) = 0xA1 →
      chip8_cycle rnd chip io
        = .ok ({ chip with
                  pc := if io.keys (chip.V x) = false then chip.pc + 4 else chip.pc + 2 }, io)) := by
  have h4 : (chip.pc + 2 + 2) % 65536 = chip.pc + 4 := by omega
  constructor
  · intro hlo
    rw [chip8_cycle_eq rnd chip io (0xE0 + x) 0x9E hpc hhi hlo (by omega) (by norm_num),
      execute_unfold]
    have h1 : ((0xE0 + x) * 256 + 0x9E) / 4096 % 16 = 0xE := by omega
    have h2 : ((0xE0 + x) * 256 + 0x9E) / 256 % 16 = x := by omega
    have h3 : ((0xE0 + x) * 256 + 0x9E) % 256 = 0x9E := by omega
    rw [h1, h2, h3]
    simp only [execKeys, decode_immediate_value, h3, readKeys, hv, if_true, bind, Except.bind,
      pure, Except.pure, h4]
    by_cases hk : io.keys (chip.V x) = true
    · simp only [hk, if_true]
      exact execF_skip_codes x 0x9E _ io (Or.inl rfl)
    · simp only [hk, if_false]
      exact execF_skip_codes x 0x9E _ io (Or.inl rfl)
  · intro hlo
    rw [chip8_cycle_eq rnd chip io (0xE0 + x) 0xA1 hpc hhi hlo (by omega) (by norm_num),
      execute_unfold]
    have h1 : ((0xE0 + x) * 256 + 0xA1) / 4096 % 16 = 0xE := by omega
    have h2 : ((0xE0 + x) * 256 + 0xA1) / 256 % 16 = x := by omega
    have h3 : ((0xE0 + x) * 256 + 0xA1) % 256 = 0xA1 := by omega
    rw [h1, h2, h3]
    simp only [execKeys, decode_immediate_value, h3, readKeys, hv, if_true, bind, Except.bind,
      pure, Except.pure, h4]
    by_cases hk : io.keys (chip.V x) = false
    · simp only [hk, if_true]
      exact execF_skip_codes x 0xA1 _ io (Or.inr rfl)
    · simp only [hk, if_false]
      exact execF_skip_codes x 0xA1 _ io (Or.inr rfl)

/-- C27 for `E19E` and `E1A1` with `V[1] = 4` and key 4 down: the first skips,
the second does not. -/
theorem C27_key_skips_witness :
    chip8_cycle 0 (keySkipCPU 0x9E) (ioKeys [4])
        = .ok ({ keySkipCPU 0x9E with
                  pc := if (ioKeys [4]).keys ((keySkipCPU 0x9E).V 1) = true
                    then (keySkipCPU 0x9E).pc + 4 else (keySkipCPU 0x9E).pc + 2 }, ioKeys [4]) ∧
      chip8_cycle 0 (keySkipCPU 0xA1) (ioKeys [4])
        = .ok ({ keySkipCPU 0xA1 with
                  pc := if (ioKeys [4]).keys ((keySkipCPU 0xA1).V 1) = false
                    then (keySkipCPU 0xA1).pc + 4 else (keySkipCPU 0xA1).pc + 2 }, ioKeys [4]) ∧
      (ioKeys [4]).keys ((keySkipCPU 0x9E).V 1) = true :=
  ⟨(C27_key_skips 0 1 (keySkipCPU 0x9E) (ioKeys [4]) (by decide) (by decide) (by decide)
      (by decide)).1 (by decide),
    (C27_key_skips 0 1 (keySkipCPU 0xA1) (ioKeys [4]) (by decide) (by decide) (by decide)
      (by decide)).2 (by decide), rfl⟩

/-- C28: for every `x` in 1..15, one `chip8_cycle` on `Fx0A` with no key
pressed leaves the entire machine state unchanged, `pc` included; with at least
one key pressed it sets `V[x]` to the smallest index `k` in 0..15 with
`keys[k]` set, ends with `pc` at the fetch address + 2 and changes nothing
else. -/
theorem C28_key_wait (rnd x : Nat) (chip : CPU) (io : IOState)
    (hx1 : 1 ≤ x) (hx : x < 16) (hpc : chip.pc + 1 < 5120)
    (hhi : chip.memory chip.pc = 0xF0 + x) (hlo : chip.memory (chip.pc + 1) = 0x0A) :
    ((∀ i, i < 16 → io.keys i = false) → chip8_cycle rnd chip io = .ok (chip, io)) ∧
    ((∃ i, i < 16 ∧ io.keys i = true) →
      ∃ k, k < 16 ∧ io.keys k = true ∧ (∀ j, j < k → io.keys j = false) ∧
        chip8_cycle rnd chip io
          = .ok ({ chip with pc := chip.pc + 2, V := store chip.V x k }, io)) := by
  have h1 : ((0xF0 + x) * 256 + 0x0A) / 4096 % 16 = 0xF := by omega
  have h2 : ((0xF0 + x) * 256 + 0x0A) / 256 % 16 = x := by omega
  have h3 : ((0xF0 + x) * 256 + 0x0A) % 256 = 0x0A := by omega
  have h4 : ¬ x = 0 := by omega
  have h5 : (chip.pc + 2 + 65536 - 2) % 65536 = chip.pc := by omega
  rw [chip8_cycle_eq rnd chip io (0xF0 + x) 0x0A hpc hhi hlo (by omega) (by norm_num),
    execute_unfold, h1, h2, h3]
  constructor
  · intro hnone
    simp only [execF, decide_eq_true_eq, h4, if_false, execUser,
      waitKeyLoop_none x io 16 0 _ (fun j _ hj => hnone j (by omega)), Bool.not_false, if_true,
      h5]
  · intro hsome
    have hex : ∃ i, i < 16 ∧ io.keys i = true := hsome
    refine ⟨Nat.find hex, (Nat.find_spec hex).1, (Nat.find_spec hex).2, ?_, ?_⟩
    · intro j hj
      have hmin := Nat.find_min hex hj
      have hlt : j < 16 := lt_trans hj (Nat.find_spec hex).1
      cases hkj : io.keys j with
      | false => rfl
      | true => exact absurd ⟨hlt, hkj⟩ hmin
    · have hk16 : Nat.find hex % 256 = Nat.find hex := by
        have := (Nat.find_spec hex).1
        omega
      simp only [execF, decide_eq_true_eq, h4, if_false, execUser,
        waitKeyLoop_first x io (Nat.find hex) (Nat.find_spec hex).2 16 0 _ (Nat.zero_le _)
          (by have := (Nat.find_spec hex).1; omega)
          (fun j _ hj => by
            have hmin := Nat.find_min hex hj
            have hlt : j < 16 := lt_trans hj (Nat.find_spec hex).1
            cases hkj : io.keys j with
            | false => rfl
            | true => exact absurd ⟨hlt, hkj⟩ hmin),
        Bool.not_true, setV, hk16]
      rfl

/-- C28 for `F30A`: with no key down the state is unchanged, and with keys 7,
4 and 9 down `V[3]` becomes 4. -/
theorem C28_key_wait_witness :
    ((∀ i, i < 16 → ioZero.keys i = false) →
        chip8_cycle 0 keyWaitCPU ioZero = .ok (keyWaitCPU, ioZero)) ∧
      (∀ i, i < 16 → ioZero.keys i = false) ∧
      ((∃ i, i < 16 ∧ (ioKeys [7, 4, 9]).keys i = true) →
        ∃ k, k < 16 ∧ (ioKeys [7, 4, 9]).keys k = true ∧
          (∀ j, j < k → (ioKeys [7, 4, 9]).keys j = false) ∧
          chip8_cycle 0 keyWaitCPU (ioKeys [7, 4, 9])
            = .ok ({ keyWaitCPU with
                      pc := keyWaitCPU.pc + 2,
                      V := store keyWaitCPU.V 3 k }, ioKeys [7, 4, 9])) ∧
      (∃ i, i < 16 ∧ (ioKeys [7, 4, 9]).keys i = true) ∧
      chip8_cycle 0 keyWaitCPU (ioKeys [7, 4, 9])
        = .ok ({ keyWaitCPU with pc := 0x202, V := store keyWaitCPU.V 3 4 },
            ioKeys [7, 4, 9]) :=
  ⟨(C28_key_wait 0 3 keyWaitCPU ioZero (by decide) (by decide) (by decide)
      (by decide) (by decide)).1,
    fun _ _ => rfl,
    (C28_key_wait 0 3 keyWaitCPU (ioKeys [7, 4, 9]) (by decide) (by decide)
      (by decide) (by decide) (by decide)).2,
    ⟨4, by decide, by decide⟩, rfl⟩

/-- C29: for every `x` in 1..15 and every `I` with `I + x < 5120`, one
`chip8_cycle` on `Fx55` sets `memory[I + r] = V[r]` for every `r` with
`0 <= r <= x` (the registers being bytes), leaves every other memory byte
unchanged, and leaves `I` and all `V` registers unchanged. -/
theorem C29_store_registers (rnd x : Nat) (chip : CPU) (io : IOState)
    (hx1 : 1 ≤ x) (hx : x < 16) (hI : chip.I + x < 5120)
    (hV : ∀ r, r ≤ x → chip.V r < 256) (hpc : chip.pc + 1 < 5120)
    (hhi : chip.memory chip.pc = 0xF0 + x) (hlo : chip.memory (chip.pc + 1) = 0x55) :
    ∃ chip' io', chip8_cycle rnd chip io = .ok (chip', io') ∧
      (∀ r, r ≤ x → chip'.memory (chip.I + r) = chip.V r) ∧
      (∀ a, (a < chip.I ∨ chip.I + x < a) → chip'.memory a = chip.memory a) ∧
      chip'.I = chip.I ∧ chip'.V = chip.V := by
  refine ⟨_, _, chip8_cycle_store_regs rnd x chip io hx1 hx hI hpc hhi hlo, ?_, ?_, rfl, rfl⟩
  · intro r hr
    show (if chip.I ≤ chip.I + r ∧ chip.I + r ≤ chip.I + x then
      chip.V (chip.I + r - chip.I) % 256 else chip.memory (chip.I + r)) = chip.V r
    rw [if_pos (by omega), Nat.add_sub_cancel_left, Nat.mod_eq_of_lt (hV r hr)]
  · intro a ha
    show (if chip.I ≤ a ∧ a ≤ chip.I + x then chip.V (a - chip.I) % 256 else chip.memory a)
      = chip.memory a
    rw [if_neg (by omega)]

/-- C29 for `F255` with `I = 0x300` and `V[r] = 10 + r`. -/
theorem C29_store_registers_witness :
    ∃ chip' io', chip8_cycle 0 storeCPU ioZero = .ok (chip', io') ∧
      (∀ r, r ≤ 2 → chip'.memory (storeCPU.I + r) = storeCPU.V r) ∧
      (∀ a, (a < storeCPU.I ∨ storeCPU.I + 2 < a) → chip'.memory a = storeCPU.memory a) ∧
      chip'.I = storeCPU.I ∧ chip'.V = storeCPU.V :=
  C29_store_registers 0 2 storeCPU ioZero (by decide) (by decide) (by decide)
    (fun r hr => by simp only [storeCPU, countRegs]; split <;> omega)
    (by decide) (by decide) (by decide)

/-- C30: for every `x` in 1..15 and every `I` with `I + x < 5120`, after
`Fx55` and a later `Fx65` executed with the same `I` and the stored bytes
`memory[I..I+x]` as the store left them, `V0..Vx` hold exactly the values they
held at the store (whatever the registers hold just before the load), and
`V(x+1)..` are as they were just before the load. -/
theorem C30_store_load_round_trip (rnd : Nat) (x : Nat) (chip : CPU) (io : IOState)
    (hx1 : 1 ≤ x) (hx : x < 16) (hI : chip.I + x < 5120)
    (hV : ∀ r, r ≤ x → chip.V r < 256) (hpc : chip.pc + 1 < 5120)
    (hhi : chip.memory chip.pc = 0xF0 + x) (hlo : chip.memory (chip.pc + 1) = 0x55) :
    ∃ chip1 io1, chip8_cycle rnd chip io = .ok (chip1, io1) ∧
      ∀ (rnd2 : Nat) (chip2 : CPU) (io2 : IOState), chip2.I = chip.I →
        (∀ r, r ≤ x → chip2.memory (chip.I + r) = chip1.memory (chip.I + r)) →
        chip2.pc + 1 < 5120 → chip2.memory chip2.pc = 0xF0 + x →
        chip2.memory (chip2.pc + 1) = 0x65 →
        ∃ chip3 io3, chip8_cycle rnd2 chip2 io2 = .ok (chip3, io3) ∧
          (∀ r, r ≤ x → chip3.V r = chip.V r) ∧
          (∀ r, x < r → chip3.V r = chip2.V r) := by
  refine ⟨_, _, chip8_cycle_store_regs rnd x chip io hx1 hx hI hpc hhi hlo, ?_⟩
  intro rnd2 chip2 io2 hI2 hmem hpc2 hhi2 hlo2
  refine ⟨_, _, chip8_cycle_load_regs rnd2 x chip2 io2 hx1 hx (by omega) hpc2 hhi2 hlo2, ?_, ?_⟩
  · intro r hr
    show (if r ≤ x then chip2.memory (chip2.I + r) % 256 else chip2.V r) = chip.V r
    rw [if_pos hr, hI2, hmem r hr]
    show (if chip.I ≤ chip.I + r ∧ chip.I + r ≤ chip.I + x then
      chip.V (chip.I + r - chip.I) % 256 else chip.memory (chip.I + r)) % 256 = chip.V r
    rw [if_pos (by omega), Nat.add_sub_cancel_left, Nat.mod_mod, Nat.mod_eq_of_lt (hV r hr)]
  · intro r hr
    show (if r ≤ x then chip2.memory (chip2.I + r) % 256 else chip2.V r) = chip2.V r
    rw [if_neg (by omega)]

/-- C30 for the program `F255 6000 6100 F265`: the second part exhibits the
run between the store and the load, which clears `V0` and `V1`. -/
theorem C30_store_load_round_trip_witness :
    (∃ chip1 io1, chip8_cycle 0 roundTripCPU ioZero = .ok (chip1, io1) ∧
      ∀ (rnd2 : Nat) (chip2 : CPU) (io2 : IOState), chip2.I = roundTripCPU.I →
        (∀ r, r ≤ 2 → chip2.memory (roundTripCPU.I + r) = chip1.memory (roundTripCPU.I + r)) →
        chip2.pc + 1 < 5120 → chip2.memory chip2.pc = 0xF0 + 2 →
        chip2.memory (chip2.pc + 1) = 0x65 →
        ∃ chip3 io3, chip8_cycle rnd2 chip2 io2 = .ok (chip3, io3) ∧
          (∀ r, r ≤ 2 → chip3.V r = roundTripCPU.V r) ∧
          (∀ r, 2 < r → chip3.V r = chip2.V r)) ∧
    (∃ chip1 io1 chip2 io2, chip8_cycle 0 roundTripCPU ioZero = .ok (chip1, io1) ∧
      runCycles (fun _ => 0) 2 chip1 io1 = .ok (chip2, io2) ∧
      chip2.V 0 = 0 ∧ chip2.V 1 = 0 ∧ chip2.I = roundTripCPU.I ∧
      (∀ r, r ≤ 2 → chip2.memory (roundTripCPU.I + r) = chip1.memory (roundTripCPU.I + r)) ∧
      chip2.pc + 1 < 5120 ∧ chip2.memory chip2.pc = 0xF0 + 2 ∧
      chip2.memory (chip2.pc + 1) = 0x65) :=
  ⟨C30_store_load_round_trip 0 2 roundTripCPU ioZero (by decide) (by decide) (by decide)
      (fun r hr => by simp only [roundTripCPU, countRegs]; split <;> omega)
      (by decide) (by decide) (by decide),
    ⟨_, _, _, _, rfl, rfl, rfl, rfl, rfl, fun _ _ => rfl, by decide, rfl, rfl⟩⟩

/-- C31, as stated, fails: the jump `1201` fetched at the even address 0x200
leaves `pc = 0x201`. -/
theorem C31_counterexample :
    (cpuWith [0x12, 0x01]).pc % 2 = 0 ∧
      ∃ chip' io', chip8_cycle 0 (cpuWith [0x12, 0x01]) ioZero = .ok (chip', io') ∧
        chip'.pc = 0x201 ∧ chip'.pc % 2 = 1 :=
  ⟨rfl, _, _, rfl, rfl, rfl⟩

/-- C31, amended: in a state with even `pc`, a cycle without out-of-range
access ends with even `pc` when the opcode is not `1nnn`, `2nnn`, `Bnnn` or
`00EE`; `1nnn` and `2nnn` end with `pc = nnn`, `Bnnn` with
`pc = (nnn + V[0]) mod 65536` and `00EE` with `pc = stack[sp - 1]`, whatever the
parity of that address. -/
theorem C31_pc_parity (rnd op : Nat) (chip : CPU) (io : IOState) (chip' : CPU)
    (io' : IOState) (hev : chip.pc % 2 = 0) (hf : fetch chip = .ok op)
    (h : chip8_cycle rnd chip io = .ok (chip', io')) :
    (isTransfer op = false → chip'.pc % 2 = 0) ∧
      (op / 4096 % 16 = 1 ∨ op / 4096 % 16 = 2 → chip'.pc = op % 4096) ∧
      (op / 4096 % 16 = 0xB → chip'.pc = (op % 4096 + chip.V 0) % 65536) ∧
      (op = 0x00EE → chip'.pc = chip.stack ((chip.sp + 256 - 1) % 256)) := by
  simp only [chip8_cycle, hf, bind, Except.bind] at h
  refine ⟨fun hop => ?_, fun hfam => ?_, fun hfam => ?_, fun hret => ?_⟩
  · have hs : chip'.pc % 2 = (chip.pc + 2) % 65536 % 2 := execute_sameParity _ _ _ _ _ _ hop h
    omega
  · rw [execute_unfold] at h
    rcases hfam with hfam | hfam
    · simp only [hfam] at h
      cases h; rfl
    · simp only [hfam] at h
      obtain ⟨c1, h1, h⟩ := bind_eq_ok _ _ _ h
      cases h; rfl
  · rw [execute_unfold] at h
    simp only [hfam] at h
    cases h; rfl
  · subst hret
    rw [execute_unfold] at h
    have e : (0x00EE / 4096) % 16 = 0 := by norm_num
    simp only [e, execZero] at h
    obtain ⟨ret, h1, h⟩ := bind_eq_ok _ _ _ h
    simp only [readStack] at h1
    split at h1
    · cases h1; cases h; rfl
    · cases h1

/-- C31 amended, for the skip `3100` taken at 0x200: `pc` ends at 0x204. -/
theorem C31_pc_parity_witness :
    ∃ chip' io', chip8_cycle 0 (cpuWith [0x31, 0x00]) ioZero = .ok (chip', io') ∧
      (cpuWith [0x31, 0x00]).pc % 2 = 0 ∧ chip'.pc = 0x204 ∧
      ((isTransfer 0x3100 = false → chip'.pc % 2 = 0) ∧
        (0x3100 / 4096 % 16 = 1 ∨ 0x3100 / 4096 % 16 = 2 → chip'.pc = 0x3100 % 4096) ∧
        (0x3100 / 4096 % 16 = 0xB →
          chip'.pc = (0x3100 % 4096 + (cpuWith [0x31, 0x00]).V 0) % 65536) ∧
        (0x3100 = 0x00EE →
          chip'.pc = (cpuWith [0x31, 0x00]).stack (((cpuWith [0x31, 0x00]).sp + 256 - 1) % 256))) :=
  ⟨_, _, rfl, rfl, rfl, C31_pc_parity 0 0x3100 (cpuWith [0x31, 0x00]) ioZero _ _ rfl rfl rfl⟩

/-- C32 fails on the code: no instruction checks a memory index.  With
`I = 5119`, `F133`, `F155` and `F165` access `memory[5120]`; with `I = 5120`,
`D001` reads `memory[5120]`; and the program `AFFF 61FF F11E F11E F11E F11E F11E
F133`, run from 0x200, reaches `I = 5370` after seven cycles and then writes
`memory[5370]`. -/
theorem C32_memory_unchecked :
    ({ cpuWith [0xF1, 0x33] with I := 5119 } : CPU).pc + 1 < 5120 ∧
      chip8_cycle 0 { cpuWith [0xF1, 0x33] with I := 5119 } ioZero
        = .error (Undefined.memory 5120) ∧
      chip8_cycle 0 { cpuWith [0xF1, 0x55] with I := 5119 } ioZero
        = .error (Undefined.memory 5120) ∧
      chip8_cycle 0 { cpuWith [0xF1, 0x65] with I := 5119 } ioZero
        = .error (Undefined.memory 5120) ∧
      chip8_cycle 0 { cpuWith [0xD0, 0x01] with I := 5120 } ioZero
        = .error (Undefined.memory 5120) ∧
      (∃ chip' io', runCycles (fun _ => 0) 7 pastMemoryCPU ioZero = .ok (chip', io') ∧
        chip'.I = 5370 ∧ chip'.pc = 0x20E ∧ fetch chip' = .ok 0xF133 ∧
        chip8_cycle 0 chip' io' = .error (Undefined.memory 5370)) :=
  ⟨by decide, rfl, rfl, rfl, rfl, _, _, rfl, rfl, rfl, rfl, rfl⟩

/-- C33 fails on the code: the boot loop of `main` tests
`pc >= 0x1000 && pc <= 0x1FFF`, not `pc <= 0x13FF`.  From the zeroed state
followed by `chip8_init` (with any io state beside it) the loop has not ended
after 512 cycles, which take `pc` over the kernel region to 0x1400, and its
513th cycle fetches the opcode from `memory[5120]`, outside the 5120-byte
memory. -/
theorem C33_boot_loop_leaves_memory (rnd : Nat → Nat) (io : IOState) (k : Nat) :
    bootLoop rnd 512 (chip8_init zeroCPU) io = .ok none ∧
      bootLoop rnd (k + 513) (chip8_init zeroCPU) io = .error (Undefined.memory 5120) := by
  constructor
  · rw [show 512 = 0 + 512 from rfl, bootLoop_init]
    rfl
  · rw [show k + 513 = k + 1 + 512 from rfl, bootLoop_init]
    exact bootLoop_past_memory rnd k _ _ rfl

/-- C34: one `chip8_cycle` changes nothing in the machine state except `pc`,
which becomes the fetch address + 2, for every opcode `0nnn` other than `00E0`
and `00EE`, every opcode `8xyk` with `k` in {8, 9, A, B, C, D, F}, and every
syscall opcode `F0nn` with `nn` not in {0x00, 0x04, 0x06, 0x08}. -/
theorem C34_unmatched_codes (rnd : Nat) (chip : CPU) (io : IOState)
    (hpc : chip.pc + 1 < 5120) :
    (∀ nnn, nnn < 4096 → nnn ≠ 0x0E0 → nnn ≠ 0x0EE →
      chip.memory chip.pc = nnn / 256 → chip.memory (chip.pc + 1) = nnn % 256 →
      chip8_cycle rnd chip io = .ok ({ chip with pc := chip.pc + 2 }, io)) ∧
    (∀ x y k, x < 16 → y < 16 →
      (k = 8 ∨ k = 9 ∨ k = 0xA ∨ k = 0xB ∨ k = 0xC ∨ k = 0xD ∨ k = 0xF) →
      chip.memory chip.pc = 0x80 + x → chip.memory (chip.pc + 1) = y * 16 + k →
      chip8_cycle rnd chip io = .ok ({ chip with pc := chip.pc + 2 }, io)) ∧
    (∀ nn, nn < 256 → nn ≠ 0x00 → nn ≠ 0x04 → nn ≠ 0x06 → nn ≠ 0x08 →
      chip.memory chip.pc = 0xF0 → chip.memory (chip.pc + 1) = nn →
      chip8_cycle rnd chip io = .ok ({ chip with pc := chip.pc + 2 }, io)) := by
  refine ⟨?_, ?_, ?_⟩
  · intro nnn hnnn hE0 hEE hhi hlo
    rw [chip8_cycle_eq rnd chip io (nnn / 256) (nnn % 256) hpc hhi hlo (by omega) (by omega),
      execute_unfold]
    have h1 : (nnn / 256 * 256 + nnn % 256) / 4096 % 16 = 0 := by omega
    have h2 : nnn / 256 * 256 + nnn % 256 = nnn := by omega
    rw [h1, h2]
    exact execZero_other nnn _ io hE0 hEE
  · intro x y k hx hy hk hhi hlo
    rw [chip8_cycle_alu rnd x y k chip io hx hy (by omega) hpc hhi hlo,
      execAlu_other _ _ _ (by omega)]
  · intro nn hnn h0 h4 _ _ hhi hlo
    rw [chip8_cycle_eq rnd chip io 0xF0 nn hpc hhi hlo (by norm_num) hnn, execute_unfold]
    have h1 : (0xF0 * 256 + nn) / 4096 % 16 = 0xF := by omega
    have h2 : (0xF0 * 256 + nn) / 256 % 16 = 0 := by omega
    have h3 : (0xF0 * 256 + nn) % 256 = nn := by omega
    rw [h1, h2, h3]
    simp only [execF, decide_True, if_true]
    rw [execSyscall_other nn _ io h0 h4]

/-- C34 for the opcodes `0123`, `812B` and `F007`, each in a state whose fields
are all nonzero. -/
theorem C34_unmatched_codes_witness :
    chip8_cycle 0 (busyCPU [0x01, 0x23]) ioBusy
        = .ok ({ busyCPU [0x01, 0x23] with pc := (busyCPU [0x01, 0x23]).pc + 2 }, ioBusy) ∧
      chip8_cycle 0 (busyCPU [0x81, 0x2B]) ioBusy
        = .ok ({ busyCPU [0x81, 0x2B] with pc := (busyCPU [0x81, 0x2B]).pc + 2 }, ioBusy) ∧
      chip8_cycle 0 (busyCPU [0xF0, 0x07]) ioBusy
        = .ok ({ busyCPU [0xF0, 0x07] with pc := (busyCPU [0xF0, 0x07]).pc + 2 }, ioBusy) :=
  ⟨(C34_unmatched_codes 0 (busyCPU [0x01, 0x23]) ioBusy (by decide)).1 0x123 (by decide)
      (by decide) (by decide) (by decide) (by decide),
    (C34_unmatched_codes 0 (busyCPU [0x81, 0x2B]) ioBusy (by decide)).2.1 1 2 0xB (by decide)
      (by decide) (by decide) (by decide) (by decide),
    (C34_unmatched_codes 0 (busyCPU [0xF0, 0x07]) ioBusy (by decide)).2.2 7 (by decide)
      (by decide) (by decide) (by decide) (by decide) (by decide) (by decide)⟩

/-- C35 fails on the code: `case 0xE` has no `break` after its inner switch, so
every `Exnn` goes on into `case 0xF`.  In a state whose fields are all nonzero,
`E107` executes `Fx07` and sets `V[1]` to the delay timer 9, `E133` executes
`Fx33` and writes the digits of `V[1] = 11` at `I`, and `E000` executes the
syscall 0, which clears `memory[0..0xFFF]`, the registers, `I`, the stack and
`sp`. -/
theorem C35_keyboard_falls_through :
    ∃ c1 i1 c2 i2 c3 i3,
      chip8_cycle 0 (busyCPU [0xE1, 0x07]) ioBusy = .ok (c1, i1) ∧
      (busyCPU [0xE1, 0x07]).V 1 = 11 ∧ c1.V 1 = 9 ∧
      chip8_cycle 0 (busyCPU [0xE1, 0x33]) ioBusy = .ok (c2, i2) ∧
      (busyCPU [0xE1, 0x33]).memory 0x302 = 18 ∧ c2.memory 0x302 = 1 ∧
      chip8_cycle 0 (busyCPU [0xE0, 0x00]) ioBusy = .ok (c3, i3) ∧
      (busyCPU [0xE0, 0x00]).I = 0x300 ∧ (busyCPU [0xE0, 0x00]).sp = 3 ∧
      (busyCPU [0xE0, 0x00]).V 1 = 11 ∧ c3.I = 0 ∧ c3.sp = 0 ∧ c3.V 1 = 0 :=
  ⟨_, _, _, _, _, _, rfl, rfl, rfl, rfl, rfl, rfl, rfl, rfl, rfl, rfl, rfl, rfl, rfl⟩

/-- C36 fails on the code: the stores have no bounds check, and the io state
lies behind the CPU in `CHIP8_SYSTEM`.  From the zeroed state, whose
framebuffer cells are all 0, the program `AFFF 61FF`, thirteen times `F11E`,
`F133` at 0x200 runs fifteen cycles without touching the framebuffer, reaches
`I = 7410` with `V[1] = 255`, and its sixteenth cycle writes the digits 2, 5, 5
of `V[1]` at `memory[7410..7412]`, 2290 bytes past the end of `memory[5120]`. -/
theorem C36_store_past_memory :
    binaryDisplay ioZero ∧
      ∃ chip' io', runCycles (fun _ => 0) 15 framebufferStoreCPU ioZero = .ok (chip', io') ∧
        binaryDisplay io' ∧ chip'.I = 7410 ∧ chip'.V 1 = 255 ∧ chip'.pc = 0x21E ∧
        fetch chip' = .ok 0xF133 ∧
        chip'.V 1 % 256 / 100 = 2 ∧ chip'.V 1 % 256 / 10 % 10 = 5 ∧ chip'.V 1 % 256 % 10 = 5 ∧
        chip8_cycle 0 chip' io' = .error (Undefined.memory 7410) :=
  ⟨fun _ _ => Or.inl rfl, _, _, rfl, fun _ _ => Or.inl rfl, rfl, rfl, rfl, rfl, rfl, rfl, rfl,
    rfl⟩

/-- C37: for every state, one `chip8_cycle` on `F000` sets every byte of
`memory[0x000..0xFFF]`, every register `V0..V15`, `I`, every stack slot and
`sp` to 0, leaves the kernel region `memory[0x1000..0x13FF]`, the framebuffer,
the timers, the keys and the disk (the whole io state) unchanged, and ends
with `pc` at the fetch address + 2. -/
theorem C37_syscall_reset (rnd : Nat) (chip : CPU) (io : IOState)
    (hpc : chip.pc + 1 < 5120)
    (hhi : chip.memory chip.pc = 0xF0) (hlo : chip.memory (chip.pc + 1) = 0x00) :
    ∃ chip', chip8_cycle rnd chip io = .ok (chip', io) ∧
      (∀ a, a ≤ 0xFFF → chip'.memory a = 0) ∧
      (∀ r, r < 16 → chip'.V r = 0) ∧
      chip'.I = 0 ∧
      (∀ s, s < 16 → chip'.stack s = 0) ∧
      chip'.sp = 0 ∧
      (∀ a, 0x1000 ≤ a → a ≤ 0x13FF → chip'.memory a = chip.memory a) ∧
      chip'.pc = chip.pc + 2 ∧ chip'.mode = chip.mode := by
  rw [chip8_cycle_eq rnd chip io 0xF0 0x00 hpc hhi hlo (by norm_num) (by norm_num),
    execute_unfold]
  simp only [Nat.reduceMul, Nat.reduceAdd, Nat.reduceDiv, Nat.reduceMod, execF, decide_True,
    if_true, execSyscall]
  refine ⟨_, rfl, ?_, ?_, rfl, ?_, rfl, ?_, rfl, rfl⟩
  · intro a ha
    show (if a < 5120 - 1024 then 0 else chip.memory a) = 0
    rw [if_pos (by omega)]
  · intro r hr
    show (if r < 16 then 0 else chip.V r) = 0
    rw [if_pos hr]
  · intro s hs
    show (if s < 16 then 0 else chip.stack s) = 0
    rw [if_pos hs]
  · intro a ha _
    show (if a < 5120 - 1024 then 0 else chip.memory a) = chip.memory a
    rw [if_neg (by omega)]

/-- C37 for `F000` at 0x200 in a state whose fields are all nonzero. -/
theorem C37_syscall_reset_witness :
    ∃ chip', chip8_cycle 0 (busyCPU [0xF0, 0x00]) ioBusy = .ok (chip', ioBusy) ∧
      (∀ a, a ≤ 0xFFF → chip'.memory a = 0) ∧
      (∀ r, r < 16 → chip'.V r = 0) ∧
      chip'.I = 0 ∧
      (∀ s, s < 16 → chip'.stack s = 0) ∧
      chip'.sp = 0 ∧
      (∀ a, 0x1000 ≤ a → a ≤ 0x13FF → chip'.memory a = (busyCPU [0xF0, 0x00]).memory a) ∧
      chip'.pc = (busyCPU [0xF0, 0x00]).pc + 2 ∧ chip'.mode = (busyCPU [0xF0, 0x00]).mode :=
  C37_syscall_reset 0 (busyCPU [0xF0, 0x00]) ioBusy (by decide) (by decide) (by decide)

/-- C38: for every state (any `Vx`, `Vy`, any `n` in 0..15), one
`chip8_cycle` on `Dxyn` makes no framebuffer access outside `display[2048]`:
the cycle can only be undefined by reading a sprite byte outside memory, never
by a framebuffer index; when the sprite bytes lie in memory it completes, and
every cell that it changes has row `idx / 64 < 32`, column `idx % 64 < 64` and
index `idx < 2048`; and the sums `y_start + row` and `x_start + col` stay below
256. -/
theorem C38_draw_inside_framebuffer (rnd x y n : Nat) (chip : CPU) (io : IOState)
    (hx : x < 16) (hy : y < 16) (hn : n < 16) (hpc : chip.pc + 1 < 5120)
    (hhi : chip.memory chip.pc = 0xD0 + x) (hlo : chip.memory (chip.pc + 1) = y * 16 + n) :
    (∀ e, chip8_cycle rnd chip io = .error e → ∃ a, 5120 ≤ a ∧ e = Undefined.memory a) ∧
      ((∀ r, r < n → chip.I + r < 5120) →
        ∃ chip' io', chip8_cycle rnd chip io = .ok (chip', io') ∧
          ∀ idx, io'.display idx ≠ io.display idx →
            idx / 64 < 32 ∧ idx % 64 < 64 ∧ idx < 2048) ∧
      (∀ r c, r < n → c < 8 → drawY chip y + r < 256 ∧ drawX chip x + c < 256) := by
  refine ⟨?_, ?_, ?_⟩
  · intro e h
    rw [chip8_cycle_draw rnd x y n chip io hx hy hn hpc hhi hlo] at h
    exact drawRows_error _ _ _ _ _ _ _ h
  · intro hin
    refine ⟨_, _, chip8_cycle_draw_spec rnd x y n chip io hx hy hn hpc hhi hlo
      (fun r hr _ => hin r hr), ?_⟩
    intro idx hne
    by_cases hc : covered (drawX chip x) (drawY chip y) 0 n idx
    · have h3 : idx / 64 < 32 := hc.2.2.1
      exact ⟨h3, Nat.mod_lt _ (by norm_num), by omega⟩
    · exact absurd (if_neg hc) hne
  · intro r c hr hc
    have h1 : drawY chip y < 32 := Nat.mod_lt _ (by norm_num)
    have h2 : drawX chip x < 64 := Nat.mod_lt _ (by norm_num)
    omega

/-- C38 for a five-row glyph drawn at `(62, 30)`, which overhangs the right
and bottom edges. -/
theorem C38_draw_inside_framebuffer_witness :
    (∀ e, chip8_cycle 0 clippedDrawCPU ioCorner = .error e →
        ∃ a, 5120 ≤ a ∧ e = Undefined.memory a) ∧
      ((∀ r, r < 5 → clippedDrawCPU.I + r < 5120) →
        ∃ chip' io', chip8_cycle 0 clippedDrawCPU ioCorner = .ok (chip', io') ∧
          ∀ idx, io'.display idx ≠ ioCorner.display idx →
            idx / 64 < 32 ∧ idx % 64 < 64 ∧ idx < 2048) ∧
      (∀ r c, r < 5 → c < 8 →
        drawY clippedDrawCPU 2 + r < 256 ∧ drawX clippedDrawCPU 1 + c < 256) :=
  C38_draw_inside_framebuffer 0 1 2 5 clippedDrawCPU ioCorner (by decide) (by decide)
    (by decide) (by decide) (by decide) (by decide)

end ChipOS
